import Mathlib

/-!
# Verification of go-mph (minimal perfect hash functions with persistence)

This file is a shallow embedding, in Lean 4, of the core of the `go-mph`
library: the hash primitives (`utils.go`, `chd.go`, `bbhash.go`), the
bit-vector with popcount rank (`bitvector.go`), the CHD and BBHash builders
and lookup tables, their binary marshalling (`chd_marshal.go`, the BBHash
marshal file), and the on-disk database writer and reader (`dbwriter.go`,
`dbreader.go`).

Modelling conventions:
* Go `uint64` values are represented as `Nat` together with explicit
  reduction `% 2^64` wherever Go arithmetic can wrap (multiplication,
  subtraction, shifts).  All stored words are kept `< 2^64`.
* Byte strings (`[]byte`) are `List Nat` with every element `< 256`.
* Go's `float64` fields `load` (CHD) and `g` (BBHash gamma) are modelled as
  exact rationals `ℚ`; the conversion `uint64(x)` on a non-negative float
  is modelled as `⌊x⌋`.  For the concrete parameter values exercised by the
  theorems below (0.85, 0.9, 1.0, 1.7, 2.0 …) applied to small integer
  counts, float64 arithmetic is exact enough that the truncated quotient
  and product agree with the rational model after the `nextpow2` /
  round-to-64 coarsening that every use site applies.
* Fallible operations return `Option`/`Except`.  A Go run-time panic that
  the source can actually reach (index out of range, modulo by zero) is
  modelled as `none` and marked by a comment at the spot.
* In-place mutation is modelled by explicit state passing.  Mutexes and
  the ARC value cache (an external library) are irrelevant to the
  sequential semantics modelled here and are dropped.
* The little-endian build is modelled (`endian_le.go`): `toLEUintNN` is the
  identity and the raw-byte reinterpretations of `slices.go` are
  little-endian (de)serialisation.
-/

namespace GoMph

/-- The 64-bit word modulus. -/
def U64 : Nat := 2 ^ 64

/-- utils.go `mix`: one round of the fasthash compression function.
    `h ^= h >> 23; h *= 0x2127599bf4325c37; h ^= h >> 47` on `uint64`. -/
def mix (h : Nat) : Nat :=
  let h1 := h ^^^ (h >>> 23)
  let h2 := (h1 * 0x2127599bf4325c37) % U64
  h2 ^^^ (h2 >>> 47)

/-- bbhash.go `bhash`: one round of Zi Long Tan's superfast hash,
    keyed by `salt` and the level number. -/
def bhash (key salt lvl : Nat) : Nat :=
  let m : Nat := 0x880355f21e6d1965
  let h := m
  let h := ((h ^^^ mix key) * m) % U64
  let h := ((h ^^^ mix salt) * m) % U64
  let h := ((h ^^^ mix lvl) * m) % U64
  mix h

/-- chd.go `rhash` before the final mask: `h = key; h *= m; h ^= mix(salt);
    h *= m; h ^= mix(seed); h *= m; mix(h)`. -/
def rhashFull (seed key salt : Nat) : Nat :=
  let m : Nat := 0x880355f21e6d1965
  let h := (key * m) % U64
  let h := ((h ^^^ mix salt) * m) % U64
  let h := ((h ^^^ mix seed) * m) % U64
  mix h

/-- chd.go `rhash`: the masked hash.  `sz - 1` is computed with `uint64`
    wrap-around, as in Go (`sz` is a power of two at every call site). -/
def rhash (seed key sz salt : Nat) : Nat :=
  rhashFull seed key salt &&& ((sz + (U64 - 1)) % U64)

/-- chd.go `nextpow2`: next power of two, by bit smearing, with `uint64`
    wrap-around on the decrement and increment. -/
def nextpow2 (n : Nat) : Nat :=
  let n := (n + (U64 - 1)) % U64
  let n := n ||| (n >>> 1)
  let n := n ||| (n >>> 2)
  let n := n ||| (n >>> 4)
  let n := n ||| (n >>> 8)
  let n := n ||| (n >>> 16)
  let n := n ||| (n >>> 32)
  (n + 1) % U64

/-- Binary digit sum with explicit bit-width fuel. -/
def popcountAux : Nat → Nat → Nat
  | 0, _ => 0
  | w + 1, x => x % 2 + popcountAux w (x / 2)

/-- bitvector.go `popcount`, modelling the `math/bits.OnesCount64`
    intrinsic: the number of set bits of a 64-bit word. -/
def popcount (x : Nat) : Nat := popcountAux 64 x

/-- `uint64(x)` on a non-negative float, modelled on exact rationals:
    truncation toward zero. -/
def u64trunc (q : ℚ) : Nat := q.floor.toNat

/-- `uint64(float64(n) / q)` for `q > 0`: the exact rational quotient,
    truncated.  (Spelled with `Rat.divInt`, which is kernel-reducible:
    `n / q = (n * q.den) / q.num`.) -/
def u64divTrunc (n : Nat) (q : ℚ) : Nat :=
  u64trunc (Rat.divInt ((n : Int) * (q.den : Int)) q.num)

/-- `uint64(float64(n) * q)` for `q ≥ 0`: the exact rational product,
    truncated (`n * q = (n * q.num) / q.den`). -/
def u64mulTrunc (n : Nat) (q : ℚ) : Nat :=
  u64trunc (Rat.divInt ((n : Int) * q.num) (q.den : Int))

/-! ## Bit vector (bitvector.go) -/

/-- bitvector.go `bitVector`: a vector of 64-bit words.  The Go struct also
    embeds a mutex, which has no sequential semantics. -/
structure bitVector where
  v : List Nat
deriving Repr, DecidableEq

/-- bitvector.go `newBitVector`: round the requested size up to a multiple
    of 64 (`sz += 63; sz &^= 63`) and allocate that many words, all zero. -/
def newBitVector (sz : Nat) : bitVector :=
  ⟨List.replicate ((sz + 63) / 64) 0⟩

/-- `Size`: number of bits (words × 64). -/
def bitVector.Size (b : bitVector) : Nat := b.v.length * 64

/-- `Words`: number of 64-bit words. -/
def bitVector.Words (b : bitVector) : Nat := b.v.length

/-- `Set`: or the bit `1 << (i mod 64)` into word `i / 64`.  (Go panics if
    `i / 64` is out of range; all verified call sites stay in range, and
    `List.set` is a no-op there.) -/
def bitVector.Set (b : bitVector) (i : Nat) : bitVector :=
  ⟨b.v.set (i / 64) (b.v.getD (i / 64) 0 ||| (1 <<< (i % 64)))⟩

/-- `IsSet`: test `1 == 1 & (w >> (i mod 64))`. -/
def bitVector.IsSet (b : bitVector) (i : Nat) : Bool :=
  1 &&& (b.v.getD (i / 64) 0 >>> (i % 64)) == 1

/-- `Reset`: zero every word in place. -/
def bitVector.Reset (b : bitVector) : bitVector :=
  ⟨List.replicate b.v.length 0⟩

/-- `Merge`: or the words of `o` into `b` (equal sizes at every call site;
    Go panics if `o` is longer than `b`). -/
def bitVector.Merge (b : bitVector) (o : bitVector) : bitVector :=
  ⟨(List.range b.v.length).map (fun i => b.v.getD i 0 ||| o.v.getD i 0)⟩

/-- `ComputeRank`: total population count of the vector. -/
def bitVector.ComputeRank (b : bitVector) : Nat :=
  (b.v.map popcount).sum

/-- `Rank i`: popcount of words below `i/64`, plus the popcount of word
    `i/64` shifted left by `64 - i mod 64` (a 64-bit shift, so the
    contribution is zero when `i mod 64 = 0`, exactly as a Go `uint64`
    shift by 64 yields zero). -/
def bitVector.Rank (b : bitVector) (i : Nat) : Nat :=
  let x := i / 64
  let y := i % 64
  let r := ((b.v.take x).map popcount).sum
  r + popcount ((b.v.getD x 0 <<< (64 - y)) % U64)

/-! ## CHD (chd.go) -/

/-- chd.go `_MaxSeed`: seed search budget per bucket. -/
def _MaxSeed : Nat := 65536 * 2

/-- chd.go `bucket`: the original slot index and the keys hashed to it. -/
structure bucket where
  slot : Nat
  keys : List Nat
deriving Repr, DecidableEq

/-- The bucket array built by the first loop of `chdBuilder.Freeze`:
    bucket `i` collects, in input order, the keys with
    `rhash(0, key, m, salt) = i`. -/
def chdBuckets (salt m : Nat) (keys : List Nat) : List bucket :=
  (List.range m).map (fun i => ⟨i, keys.filter (fun k => rhash 0 k m salt == i)⟩)

/-- Insert a bucket behind the buckets with at least as many keys. -/
def insertBucket (b : bucket) : List bucket → List bucket
  | [] => [b]
  | c :: rest =>
    if b.keys.length ≤ c.keys.length then c :: insertBucket b rest
    else b :: c :: rest

/-- The sort of `chdBuilder.Freeze`: buckets in decreasing order of key
    count.  (Go's `sort.Sort` is an unstable quicksort, so the order of
    equal-sized buckets is unspecified there; every theorem below uses
    only that the result is a permutation of the input, which holds for
    any sorting algorithm.) -/
def sortBuckets (bs : List bucket) : List bucket :=
  bs.foldr insertBucket []

/-- The inner loop of a single seed trial in `chdBuilder.Freeze`: hash each
    bucket key with seed `s`; fail (`goto nextSeed`) if a position is
    already occupied in `occ` or was taken by an earlier key of the same
    bucket (`bOcc`); otherwise mark it in `bOcc`. -/
def trySeed (occ : bitVector) (m salt s : Nat) : List Nat → bitVector → Option bitVector
  | [], bOcc => some bOcc
  | k :: rest, bOcc =>
    let h := rhash s k m salt
    if occ.IsSet h || bOcc.IsSet h then none
    else trySeed occ m salt s rest (bOcc.Set h)

/-- The seed search `for s := 1; s < _MaxSeed; s++` of `chdBuilder.Freeze`,
    with the remaining number of candidate seeds as fuel; `bOcc` is a fresh
    (reset) scratch vector of size `m` on every trial. -/
def findSeedFrom (occ : bitVector) (m salt : Nat) (bkeys : List Nat) : Nat → Nat → Option (Nat × bitVector)
  | _, 0 => none
  | s, fuel + 1 =>
    match trySeed occ m salt s bkeys (newBitVector m) with
    | some bOcc => some (s, bOcc)
    | none => findSeedFrom occ m salt bkeys (s + 1) fuel

/-- The outer bucket loop of `chdBuilder.Freeze`: find a seed for each
    bucket in order, merging the per-bucket occupancy into `occ`, recording
    the seed at the bucket's original slot, and tracking the maximum seed.
    Failure of any bucket fails the whole construction (`chd: No MPH`). -/
def chdAssign (m salt : Nat) : List bucket → bitVector → List Nat → Nat → Option (List Nat × Nat)
  | [], _, seeds, maxseed => some (seeds, maxseed)
  | b :: rest, occ, seeds, maxseed =>
    match findSeedFrom occ m salt b.keys 1 (_MaxSeed - 1) with
    | none => none
    | some (s, bOcc) =>
        chdAssign m salt rest (occ.Merge bOcc) (seeds.set b.slot s) (max maxseed s)

/-- chd.go `seeder`: the packed seed table.  The three Go implementations
    (`u8Seeder`, `u16Seeder`, `u32Seeder`) differ only in the element width
    `ssize` (bytes) and in the masking applied on construction. -/
structure seeder where
  ssize : Nat
  seeds : List Nat
deriving Repr, DecidableEq

/-- chd.go `makeSeeds`: choose the narrowest width holding `max`; `newU8`
    stores `a & 0xff`, `newU16` stores `a & 0xffff`, `newU32` stores the
    seed unchanged. -/
def makeSeeds (s : List Nat) (mx : Nat) : seeder :=
  if mx < 256 then ⟨1, s.map (· % 256)⟩
  else if mx < 65536 then ⟨2, s.map (· % 65536)⟩
  else ⟨4, s⟩

/-- `seeder.seed`: element lookup (Go panics when out of range; verified
    call sites are in range). -/
def seeder.seedAt (s : seeder) (v : Nat) : Nat := s.seeds.getD v 0

/-- `seeder.length`: number of seeds. -/
def seeder.length (s : seeder) : Nat := s.seeds.length

/-- chd.go `chd`: the frozen table.  (The Go struct also records the number
    of construction retries, which no operation consumes.) -/
structure chd where
  seed : seeder
  salt : Nat
deriving Repr, DecidableEq

/-- chd.go `chd.Len`: the seed-table length (the table size `m`, not the
    number of keys). -/
def chd.Len (c : chd) : Nat := c.seed.length

/-- chd.go `chd.Find`: `b = rhash(0, k, m, salt)`; return
    `(rhash(seeds[b], k, m, salt), true)`.  CHD always reports found. -/
def chd.Find (c : chd) (k : Nat) : Nat × Bool :=
  let m := c.seed.length
  let h := rhash 0 k m c.salt
  (rhash (c.seed.seedAt h) k m c.salt, true)

/-- The CHD table size: `m = nextpow2(uint64(float64(n)/load))`. -/
def chdTableSize (load : ℚ) (n : Nat) : Nat :=
  nextpow2 (u64divTrunc n load)

/-- chd.go `chdBuilder.Freeze`: `m = nextpow2(uint64(float64(n)/load))`,
    bucket, sort, and run the greedy seed search. -/
def chdFreeze (salt : Nat) (load : ℚ) (keys : List Nat) : Option chd :=
  let m := chdTableSize load keys.length
  let bs := sortBuckets (chdBuckets salt m keys)
  (chdAssign m salt bs (newBitVector m) (List.replicate m 0) 0).map
    (fun p => ⟨makeSeeds p.1 p.2, salt⟩)

/-! ## BBHash (bbhash.go)

The serial construction path (`state.singleThread`) is modelled.
`bbHashBuilder.Freeze` dispatches to a sharded concurrent variant when
more than `MinParallelKeys` (20000) keys are present; its thread
interleavings are outside a sequential embedding (see the notes on the
corresponding claims). -/

/-- bbhash.go `_MaxLevel`: maximum number of levels. -/
def _MaxLevel : Nat := 4000

/-- bbhash.go `MinParallelKeys`. -/
def MinParallelKeys : Nat := 20000

/-- bbhash.go `bbHash`: the frozen minimal perfect hash. -/
structure bbHash where
  bits : List bitVector
  ranks : List Nat
  salt : Nat
  g : ℚ
  n : Nat
deriving Repr, DecidableEq

/-- bbhash.go `bbHash.bvSize`: `uint64(float64(bb.n) * bb.g)` — the
    bit-vector allocation request, computed from the *original* key count
    `bb.n` at every level. -/
def bbBvSize (n : Nat) (g : ℚ) : Nat := u64mulTrunc n g

/-- bbhash.go `preprocess`: mark first-come positions in `A` and colliding
    positions in `coll`; positions are `bhash(k, salt, lvl) mod A.Size()`. -/
def bbPreprocess (salt lvl : Nat) : List Nat → bitVector → bitVector → bitVector × bitVector
  | [], A, coll => (A, coll)
  | k :: rest, A, coll =>
    let i := bhash k salt lvl % A.Size
    if coll.IsSet i then bbPreprocess salt lvl rest A coll
    else if A.IsSet i then bbPreprocess salt lvl rest A (coll.Set i)
    else bbPreprocess salt lvl rest (A.Set i) coll

/-- bbhash.go `assign`: after `A.Reset()`, keys whose position collides go
    to the redo list (in order), the rest set their bit in `A`. -/
def bbAssign (salt lvl : Nat) : List Nat → bitVector → bitVector → List Nat → bitVector × List Nat
  | [], A, _, redo => (A, redo)
  | k :: rest, A, coll, redo =>
    let i := bhash k salt lvl % A.Size
    if coll.IsSet i then bbAssign salt lvl rest A coll (redo ++ [k])
    else bbAssign salt lvl rest (A.Set i) coll redo

/-- bbhash.go `state.singleThread` / `state.nextLevel`: one level per
    iteration — preprocess, reset `A`, assign, append `A` to the level
    list; stop when the redo list is empty, fail past `_MaxLevel`.  `szA`
    is the constant allocation request `bb.bvSize()`.  A level whose
    bit-vector has zero bits with keys still present would make the Go
    code panic with a modulo by zero; that is modelled as `none`. -/
def bbLoop (salt szA : Nat) : Nat → Nat → List Nat → bitVector → bitVector → List bitVector → Option (List bitVector)
  | 0, _, _, _, _, _ => none
  | fuel + 1, lvl, keys, A, coll, acc =>
    if keys ≠ [] ∧ A.Size = 0 then none
    else
      let (A1, coll1) := bbPreprocess salt lvl keys A coll
      let (A2, redo) := bbAssign salt lvl keys A1.Reset coll1 []
      let acc := acc ++ [A2]
      if redo = [] then some acc
      else if lvl + 1 > _MaxLevel then none
      else bbLoop salt szA fuel (lvl + 1) redo (newBitVector szA) coll1.Reset acc

/-- bbhash.go `bbHash.preComputeRank` (inner loop): `ranks[l]` is the
    total popcount of levels before `l`. -/
def preComputeRankAux (pop : Nat) : List bitVector → List Nat
  | [] => []
  | bv :: rest => pop :: preComputeRankAux (pop + bv.ComputeRank) rest

/-- bbhash.go `bbHash.preComputeRank`. -/
def preComputeRank (bits : List bitVector) : List Nat :=
  preComputeRankAux 0 bits

/-- bbhash.go `bbHashBuilder.Freeze` on the serial path (`n ≤ 20000`),
    with the salt (drawn from `crypto/rand` in Go) as a parameter. -/
def bbFreeze (salt : Nat) (g : ℚ) (keys : List Nat) : Option bbHash :=
  let n := keys.length
  let sz := bbBvSize n g
  match bbLoop salt sz (_MaxLevel + 2) 0 keys (newBitVector sz) (newBitVector sz) [] with
  | none => none
  | some bits => some ⟨bits, preComputeRank bits, salt, g, n⟩

/-- bbhash.go `bbHash.Find` (loop body, with the level as an index):
    at the first level whose bit is set return
    `1 + ranks[lvl] + Rank(i) - 1`; else `(0, false)`. -/
def bbFindFrom (salt k : Nat) (ranks : List Nat) : List bitVector → Nat → Nat × Bool
  | [], _ => (0, false)
  | bv :: rest, lvl =>
    let i := bhash k salt lvl % bv.Size
    if bv.IsSet i then
      let rank := 1 + ranks.getD lvl 0 + bv.Rank i
      (rank - 1, true)
    else bbFindFrom salt k ranks rest (lvl + 1)

/-- bbhash.go `bbHash.Find`. -/
def bbHash.Find (bb : bbHash) (k : Nat) : Nat × Bool :=
  bbFindFrom bb.salt k bb.ranks bb.bits 0

/-- bbhash.go `bbHash.Len`. -/
def bbHash.Len (bb : bbHash) : Nat := bb.n

/-- bbhash.go `newSerial` / `newConcurrent` both coerce `g ≤ 1.0` to 2.0
    before construction (these two constructors are not reachable from the
    public builder API; `bbHashBuilder.Freeze` performs no such coercion). -/
def newSerial (g : ℚ) (salt : Nat) (keys : List Nat) : Option bbHash :=
  bbFreeze salt (if g ≤ 1 then 2 else g) keys

/-- The per-level redo computation of `singleThread`, as a standalone
    function of the level's key list (each level starts from a fresh `A`
    and a reset `coll`, both of `bb.bvSize()` bits). -/
def bbRedo (salt lvl szA : Nat) (keys : List Nat) : List Nat :=
  let st := bbPreprocess salt lvl keys (newBitVector szA) (newBitVector szA)
  (bbAssign salt lvl keys st.1.Reset st.2 []).2

/-- The level bit-vector produced for a level's key list. -/
def bbLevelVec (salt lvl szA : Nat) (keys : List Nat) : bitVector :=
  let st := bbPreprocess salt lvl keys (newBitVector szA) (newBitVector szA)
  (bbAssign salt lvl keys st.1.Reset st.2 []).1

/-- The key lists of successive levels, starting from level `lvl` with
    key list `keys`. -/
def bbKeysFrom (salt szA lvl : Nat) (keys : List Nat) : Nat → List Nat
  | 0 => keys
  | j + 1 => bbKeysFrom salt szA (lvl + 1) (bbRedo salt lvl szA keys) j

/-- `K_ℓ`: the keys remaining at level `ℓ` of the serial construction. -/
def bbKeysAt (salt szA : Nat) (keys : List Nat) (l : Nat) : List Nat :=
  bbKeysFrom salt szA 0 keys l

/-! ## Bytes, endianness, and slice reinterpretation

`slices.go` (the zero-copy `[]byte` ↔ `[]uintNN` reinterpretations) is not
among the provided sources; the definitions below are modelled from the
spec: on the little-endian build being modelled, reinterpreting an integer
slice as bytes is little-endian serialisation, element by element. -/

/-- `w`-byte little-endian encoding of `x` (low byte first). -/
def toLEBytes : Nat → Nat → List Nat
  | 0, _ => []
  | w + 1, x => x % 256 :: toLEBytes w (x / 256)

/-- Little-endian decoding of a byte list. -/
def fromLEBytes : List Nat → Nat
  | [] => 0
  | b :: rest => b + 256 * fromLEBytes rest

/-- `w`-byte big-endian encoding (`encoding/binary.BigEndian.PutUintNN`). -/
def toBEBytes (w x : Nat) : List Nat := (toLEBytes w x).reverse

/-- Big-endian decoding (`encoding/binary.BigEndian.UintNN`). -/
def fromBEBytes (bs : List Nat) : Nat := fromLEBytes bs.reverse

/-- Modelled from the spec: slices.go `uNNsToByteSlice` — each element as
    `w` little-endian bytes, concatenated. -/
def uintsToBytes (w : Nat) (xs : List Nat) : List Nat :=
  (xs.map (toLEBytes w)).flatten

/-- Word grouping with the byte count as structural fuel (each step
    consumes `w ≥ 1` bytes, so `bs.length` steps always suffice). -/
def bytesToUintsAux (w : Nat) : Nat → List Nat → List Nat
  | 0, _ => []
  | fuel + 1, bs =>
    if w = 0 ∨ bs.length < w then []
    else fromLEBytes (bs.take w) :: bytesToUintsAux w fuel (bs.drop w)

/-- Modelled from the spec: slices.go `bsToUintNNSlice` — group the bytes
    in `w`-byte little-endian words; a trailing fragment shorter than `w`
    is dropped (the reinterpreted length is `len/w`). -/
def bytesToUints (w : Nat) (bs : List Nat) : List Nat :=
  bytesToUintsAux w bs.length bs

/-! ## SipHash-2-4 (external dependency `github.com/dchest/siphash`)

Modelled from the spec: the record checksum is "SipHash-2-4 with the
16-byte file salt as key"; the reference SipHash-2-4 algorithm follows. -/

/-- One SipRound, on four 64-bit words. -/
def sipRound : Nat × Nat × Nat × Nat → Nat × Nat × Nat × Nat
  | (v0, v1, v2, v3) =>
    let rotl (x b : Nat) : Nat := ((x <<< b) % U64) ||| (x >>> (64 - b))
    let v0 := (v0 + v1) % U64
    let v1 := rotl v1 13
    let v1 := v1 ^^^ v0
    let v0 := rotl v0 32
    let v2 := (v2 + v3) % U64
    let v3 := rotl v3 16
    let v3 := v3 ^^^ v2
    let v0 := (v0 + v3) % U64
    let v3 := rotl v3 21
    let v3 := v3 ^^^ v0
    let v2 := (v2 + v1) % U64
    let v1 := rotl v1 17
    let v1 := v1 ^^^ v2
    let v2 := rotl v2 32
    (v0, v1, v2, v3)

/-- Absorb the 8-byte blocks of the message (2 rounds each), with the
    byte count as structural fuel. -/
def sipBlocksAux : Nat → List Nat → Nat × Nat × Nat × Nat → Nat × Nat × Nat × Nat
  | 0, _, st => st
  | fuel + 1, bs, st =>
    if bs.length < 8 then st
    else
      let mi := fromLEBytes (bs.take 8)
      let (v0, v1, v2, v3) := st
      let st := sipRound (sipRound (v0, v1, v2, v3 ^^^ mi))
      sipBlocksAux fuel (bs.drop 8) (st.1 ^^^ mi, st.2.1, st.2.2.1, st.2.2.2)

/-- Absorb the 8-byte blocks of the message. -/
def sipBlocks (bs : List Nat) (st : Nat × Nat × Nat × Nat) : Nat × Nat × Nat × Nat :=
  sipBlocksAux bs.length bs st

/-- SipHash-2-4 of `data` under the 16-byte key `key` (two little-endian
    64-bit words), producing a 64-bit digest. -/
def siphash24 (key data : List Nat) : Nat :=
  let k0 := fromLEBytes (key.take 8)
  let k1 := fromLEBytes ((key.drop 8).take 8)
  let v0 := k0 ^^^ 0x736f6d6570736575
  let v1 := k1 ^^^ 0x646f72616e646f6d
  let v2 := k0 ^^^ 0x6c7967656e657261
  let v3 := k1 ^^^ 0x7465646279746573
  let full := (data.length / 8) * 8
  let st := sipBlocks (data.take full) (v0, v1, v2, v3)
  let last := fromLEBytes (data.drop full) + ((data.length % 256) <<< 56)
  let (v0, v1, v2, v3) := st
  let st := sipRound (sipRound (v0, v1, v2, v3 ^^^ last))
  let (v0, v1, v2, v3) := (st.1 ^^^ last, st.2.1, st.2.2.1, st.2.2.2)
  let st := sipRound (sipRound (sipRound (sipRound (v0, v1, v2 ^^^ 0xff, v3))))
  st.1 ^^^ st.2.1 ^^^ st.2.2.1 ^^^ st.2.2.2

/-! ## SHA-512/256 (external dependency `crypto/sha512`)

Modelled from the spec: the file trailer is the SHA-512/256 digest of the
metadata; the FIPS 180-4 algorithm follows (SHA-512 compression with the
SHA-512/256 initial hash value, truncated to 32 bytes). -/

/-- Right rotation of a 64-bit word. -/
def rotr64 (x b : Nat) : Nat := (x >>> b) ||| ((x <<< (64 - b)) % U64)

/-- The 80 SHA-512 round constants. -/
def shaK : List Nat :=
  [0x428a2f98d728ae22, 0x7137449123ef65cd, 0xb5c0fbcfec4d3b2f, 0xe9b5dba58189dbbc,
   0x3956c25bf348b538, 0x59f111f1b605d019, 0x923f82a4af194f9b, 0xab1c5ed5da6d8118] ++
  [0xd807aa98a3030242, 0x12835b0145706fbe, 0x243185be4ee4b28c, 0x550c7dc3d5ffb4e2,
   0x72be5d74f27b896f, 0x80deb1fe3b1696b1, 0x9bdc06a725c71235, 0xc19bf174cf692694] ++
  [0xe49b69c19ef14ad2, 0xefbe4786384f25e3, 0x0fc19dc68b8cd5b5, 0x240ca1cc77ac9c65,
   0x2de92c6f592b0275, 0x4a7484aa6ea6e483, 0x5cb0a9dcbd41fbd4, 0x76f988da831153b5] ++
  [0x983e5152ee66dfab, 0xa831c66d2db43210, 0xb00327c898fb213f, 0xbf597fc7beef0ee4,
   0xc6e00bf33da88fc2, 0xd5a79147930aa725, 0x06ca6351e003826f, 0x142929670a0e6e70] ++
  [0x27b70a8546d22ffc, 0x2e1b21385c26c926, 0x4d2c6dfc5ac42aed, 0x53380d139d95b3df,
   0x650a73548baf63de, 0x766a0abb3c77b2a8, 0x81c2c92e47edaee6, 0x92722c851482353b] ++
  [0xa2bfe8a14cf10364, 0xa81a664bbc423001, 0xc24b8b70d0f89791, 0xc76c51a30654be30,
   0xd192e819d6ef5218, 0xd69906245565a910, 0xf40e35855771202a, 0x106aa07032bbd1b8] ++
  [0x19a4c116b8d2d0c8, 0x1e376c085141ab53, 0x2748774cdf8eeb99, 0x34b0bcb5e19b48a8,
   0x391c0cb3c5c95a63, 0x4ed8aa4ae3418acb, 0x5b9cca4f7763e373, 0x682e6ff3d6b2b8a3] ++
  [0x748f82ee5defb2fc, 0x78a5636f43172f60, 0x84c87814a1f0ab72, 0x8cc702081a6439ec,
   0x90befffa23631e28, 0xa4506cebde82bde9, 0xbef9a3f7b2c67915, 0xc67178f2e372532b] ++
  [0xca273eceea26619c, 0xd186b8c721c0c207, 0xeada7dd6cde0eb1e, 0xf57d4f7fee6ed178,
   0x06f067aa72176fba, 0x0a637dc5a2c898a6, 0x113f9804bef90dae, 0x1b710b35131c471b] ++
  [0x28db77f523047d84, 0x32caab7b40c72493, 0x3c9ebe0a15c9bebc, 0x431d67c49c100d4c,
   0x4cc5d4becb3e42b6, 0x597f299cfc657e2a, 0x5fcb6fab3ad6faec, 0x6c44198c4a475817]

/-- The SHA-512/256 initial hash value (FIPS 180-4 §5.3.6.2). -/
def shaIV : List Nat :=
  [0x22312194fc2bf72c, 0x9f555fa3c84c64c2, 0x2393b86b6f53b151, 0x963877195940eabd,
   0x96283ee2a88effe3, 0xbe5e1e2553863992, 0x2b0199fc2c85b8aa, 0x0eb72ddc81c52ca2]

/-- Message-schedule extension: given the previous 16 words (most recent
    first), produce the next word. -/
def shaExtendWord (w : List Nat) : Nat :=
  let w15 := w.getD 14 0
  let w2 := w.getD 1 0
  let s0 := rotr64 w15 1 ^^^ rotr64 w15 8 ^^^ (w15 >>> 7)
  let s1 := rotr64 w2 19 ^^^ rotr64 w2 61 ^^^ (w2 >>> 6)
  (w.getD 15 0 + s0 + w.getD 6 0 + s1) % U64

/-- Produce the 80-word message schedule from a 16-word block. -/
def shaSchedule : Nat → List Nat → List Nat
  | 0, recent => recent.reverse
  | t + 1, recent => shaSchedule t (shaExtendWord recent :: recent)

/-- One round of the SHA-512 compression function: state
    `(a,b,c,d,e,f,g,h)`, with `kw = K_t + W_t`. -/
def shaRound (st : List Nat) (kw : Nat) : List Nat :=
  match st with
  | [a, b, c, d, e, f, g, h] =>
    let S1 := rotr64 e 14 ^^^ rotr64 e 18 ^^^ rotr64 e 41
    let ch := (e &&& f) ^^^ ((e ^^^ (U64 - 1)) &&& g)
    let t1 := (h + S1 + ch + kw) % U64
    let S0 := rotr64 a 28 ^^^ rotr64 a 34 ^^^ rotr64 a 39
    let maj := (a &&& b) ^^^ (a &&& c) ^^^ (b &&& c)
    let t2 := (S0 + maj) % U64
    [(t1 + t2) % U64, a, b, c, (d + t1) % U64, e, f, g]
  | st => st

/-- Compress one 128-byte block into the hash state. -/
def shaCompress (H : List Nat) (blk : List Nat) : List Nat :=
  let w16 := (List.range 16).map (fun i => fromBEBytes ((blk.drop (8 * i)).take 8))
  let w := shaSchedule 64 w16.reverse
  let st := (List.zipWith (fun k wt => (k + wt) % U64) shaK w).foldl shaRound H
  List.zipWith (fun h s => (h + s) % U64) H st

/-- Split into 128-byte blocks and compress each in order, with the byte
    count as structural fuel. -/
def shaBlocksAux : Nat → List Nat → List Nat → List Nat
  | 0, H, _ => H
  | fuel + 1, H, msg =>
    if msg.length < 128 then H
    else shaBlocksAux fuel (shaCompress H (msg.take 128)) (msg.drop 128)

/-- Split into 128-byte blocks and compress each in order. -/
def shaBlocks (H : List Nat) (msg : List Nat) : List Nat :=
  shaBlocksAux msg.length H msg

/-- SHA-512/256 of a byte string: pad with `0x80`, zeros, and the 128-bit
    big-endian bit length to a multiple of 128 bytes; compress; emit the
    first four state words big-endian (32 bytes). -/
def sha512_256 (msg : List Nat) : List Nat :=
  let ml := msg.length
  let padlen := (128 - (ml + 17) % 128) % 128
  let padded := msg ++ [0x80] ++ List.replicate padlen 0 ++ toBEBytes 16 (ml * 8)
  let H := shaBlocks shaIV padded
  ((H.take 4).map (toBEBytes 8)).flatten

/-! ## MPH marshalling (chd_marshal.go, the BBHash marshal file) -/

/-- chd.go `seeder.marshal`: the seed table as packed `ssize`-byte
    little-endian elements. -/
def seeder.marshalBytes (s : seeder) : List Nat :=
  (s.seeds.map (toLEBytes s.ssize)).flatten

/-- chd_marshal.go `chd.MarshalBinary`: 16-byte header
    `{version=1, seed_size, [2]resv, nseeds u32 LE, salt u64 LE}` followed
    by the packed seeds. -/
def chd.marshalBytes (c : chd) : List Nat :=
  1 :: c.seed.ssize :: 0 :: 0 :: (toLEBytes 4 c.seed.length ++ toLEBytes 8 c.salt)
    ++ c.seed.marshalBytes

/-- chd_marshal.go `newChd`: parse a marshalled CHD.  Go panics when the
    body is shorter than `n*size` (the `buf[:n*size]` reslice); that is
    modelled as `none`, as are the explicit error returns (bad version,
    odd body length, unknown seed size, seed-count mismatch — and the
    `return nil, nil` quirk on the unreachable 8-bit unmarshal failure). -/
def newChd (buf : List Nat) : Option chd :=
  if buf.length < 16 then none
  else
    let hdr := buf.take 16
    let body := buf.drop 16
    if hdr.getD 0 0 ≠ 1 then none
    else
      let size := hdr.getD 1 0
      let n := fromLEBytes ((hdr.drop 4).take 4)
      let salt := fromLEBytes ((hdr.drop 8).take 8)
      if body.length < n * size then none
      else
        let vals := body.take (n * size)
        let sd : Option seeder :=
          if size = 1 then some ⟨1, vals⟩
          else if size = 2 then
            if vals.length % 2 ≠ 0 then none else some ⟨2, bytesToUints 2 vals⟩
          else if size = 4 then
            if vals.length % 4 ≠ 0 then none else some ⟨4, bytesToUints 4 vals⟩
          else none
        sd.bind (fun sd => if n ≠ sd.length then none else some ⟨sd, salt⟩)

/-- bitvector.go `bitVector.MarshalBinary`: the word count as a
    little-endian `u64` followed by the words, little-endian. -/
def bitVector.marshalBytes (b : bitVector) : List Nat :=
  toLEBytes 8 b.Words ++ uintsToBytes 8 b.v

/-- bitvector.go `unmarshalBitVector`: read the word count (rejecting 0 or
    more than `2^32`), reinterpret the following bytes as words, and keep
    `bvlen` of them, also returning the number of bytes consumed.  Go
    panics when fewer than `bvlen` words are present (`bv[:bvlen]`). -/
def unmarshalBitVector (buf : List Nat) : Option (bitVector × Nat) :=
  if buf.length < 8 then none
  else
    let bvlen := fromLEBytes (buf.take 8)
    if bvlen = 0 ∨ bvlen > 2 ^ 32 then none
    else if (buf.length - 8) / 8 < bvlen then none
    else some (⟨(bytesToUints 8 (buf.drop 8)).take bvlen⟩, 8 + bvlen * 8)

/-- The BBHash marshal file `bbHash.MarshalBinary`: 16-byte header
    `{version=1, [3]resv, n_levels u32 LE, salt u64 LE}` followed by the
    marshalled level bit-vectors back to back. -/
def bbHash.marshalBytes (bb : bbHash) : List Nat :=
  1 :: 0 :: 0 :: 0 :: (toLEBytes 4 bb.bits.length ++ toLEBytes 8 bb.salt)
    ++ (bb.bits.map bitVector.marshalBytes).flatten

/-- The level-reading loop of `newBBHash`. -/
def unmarshalBVs : Nat → List Nat → Option (List bitVector)
  | 0, _ => some []
  | c + 1, buf =>
    (unmarshalBitVector buf).bind (fun p =>
      (unmarshalBVs c (buf.drop p.2)).map (fun rest => p.1 :: rest))

/-- The BBHash marshal file `newBBHash`: parse the header (Go reads the
    first 16 bytes unconditionally and panics on a shorter buffer), check
    `version = 1` and `0 < n_levels ≤ _MaxLevel`, read the level
    bit-vectors, and recompute the rank table.  The key count and gamma
    are not stored (the reconstructed struct has `n = 0`, `g = 0`). -/
def newBBHash (buf : List Nat) : Option bbHash :=
  if buf.length < 16 then none
  else
    let ver := buf.getD 0 0
    let nlev := fromLEBytes ((buf.drop 4).take 4)
    let salt := fromLEBytes ((buf.drop 8).take 8)
    if ver ≠ 1 then none
    else if nlev = 0 ∨ nlev > _MaxLevel then none
    else
      (unmarshalBVs nlev (buf.drop 16)).map
        (fun bits => ⟨bits, preComputeRank bits, salt, 0, 0⟩)

/-- mph.go `MPH`: the closed set of table variants behind the interface. -/
inductive Mph where
  | chdT : chd → Mph
  | bbT : bbHash → Mph
deriving Repr, DecidableEq

/-- Interface dispatch of `Find`. -/
def Mph.Find : Mph → Nat → Nat × Bool
  | .chdT c, k => c.Find k
  | .bbT b, k => b.Find k

/-- Interface dispatch of `Len`. -/
def Mph.Len : Mph → Nat
  | .chdT c => c.Len
  | .bbT b => b.Len

/-- Interface dispatch of `MarshalBinary`. -/
def Mph.marshalBytes : Mph → List Nat
  | .chdT c => c.marshalBytes
  | .bbT b => b.marshalBytes

/-! ## DB writer (dbwriter.go) -/

/-- errors.go: the error kinds surfaced by the library. -/
inductive DBErr where
  | frozen
  | valueTooLarge
  | keyExists
  | noKey
  | mphFail
  | tooSmall
  | badMagic
  | badVersion
  | corruptHeader
  | checksumFail
  | corruptRecord
  | ioErr
deriving Repr, DecidableEq

/-- dbwriter.go `value`: per-key record metadata. -/
structure value where
  off : Nat
  vlen : Nat
deriving Repr, DecidableEq

/-- dbwriter.go `DBWriter`.  The Go key map is modelled as an
    insertion-ordered association list (map iteration order is arbitrary
    in Go; every verified property is order-independent).  `keys` is the
    key list accumulated by the underlying `MPHBuilder`; `recData` is the
    bytes written after the 64-byte header hole. -/
structure DBWriter where
  keymap : List (Nat × value)
  keys : List Nat
  salt : List Nat
  off : Nat
  valSize : Nat
  recData : List Nat
  state : Int
deriving Repr, DecidableEq

/-- A fresh writer (`newDBWriter`): random 16-byte salt, offset 64, a
    64-byte zero hole at the start of the temp file. -/
def newDBWriter (salt : List Nat) : DBWriter :=
  ⟨[], [], salt, 64, 0, [], 0⟩

/-- Association-list lookup standing in for `w.keymap[key]`. -/
def lookupKey (m : List (Nat × value)) (k : Nat) : Option value :=
  (m.find? (fun p => p.1 == k)).map (·.2)

/-- The record checksum: SipHash-2-4 under the file salt over the
    big-endian 8-byte offset followed by the value bytes. -/
def recCksum (salt : List Nat) (off : Nat) (val : List Nat) : Nat :=
  siphash24 salt (toBEBytes 8 off ++ val)

/-- dbwriter.go `DBWriter.writeRecord`: append the 8-byte big-endian
    checksum then the value; advance the offset by `len(val) + 8`. -/
def DBWriter.writeRecord (w : DBWriter) (val : List Nat) (off : Nat) : DBWriter :=
  { w with recData := w.recData ++ toBEBytes 8 (recCksum w.salt off val) ++ val,
           off := w.off + val.length + 8 }

/-- dbwriter.go `DBWriter.addRecord`, returning the updated writer and the
    Go `(bool, error)` pair.  Both rejection paths return before any state
    change. -/
def DBWriter.addRecord (w : DBWriter) (key : Nat) (val : List Nat) : DBWriter × Bool × Option DBErr :=
  if val.length > 2 ^ 32 - 1 then (w, false, some .valueTooLarge)
  else if (lookupKey w.keymap key).isSome then (w, false, some .keyExists)
  else
    let v : value := ⟨w.off, val.length⟩
    let w := { w with keys := w.keys ++ [key], keymap := w.keymap ++ [(key, v)] }
    if val.length > 0 then
      let w := w.writeRecord val v.off
      ({ w with valSize := w.valSize + val.length }, true, none)
    else (w, true, none)

/-- dbwriter.go `DBWriter.Add`. -/
def DBWriter.Add (w : DBWriter) (key : Nat) (val : List Nat) : DBWriter × Option DBErr :=
  if w.state ≠ 0 then (w, some .frozen)
  else
    let r := w.addRecord key val
    (r.1, r.2.2)

/-- dbwriter.go `DBWriter.Len`. -/
def DBWriter.LenKeys (w : DBWriter) : Nat := w.keymap.length

/-- Round `off` up to the next multiple of the power of two `align`
    (`off + align-1 &^ (align-1)`). -/
def padTo (off align : Nat) : Nat := ((off + (align - 1)) / align) * align

/-- dbwriter.go `DBWriter.marshalOffsets` (keys+values): fill slot
    `i = mp.Find(k)` of the `2n`-word offset array with `(k, off_k)` and
    slot `i` of the `n`-word vlen array with `vlen_k`, then serialise both
    little-endian.  A `Find` miss is the source's "panic" error return; an
    index `≥ n` would make Go panic on the slice write — both are `none`. -/
def marshalOffsetsKV (n : Nat) (mp : Mph) : List (Nat × value) → List Nat → List Nat → Option (List Nat)
  | [], offset, vlen => some (uintsToBytes 8 offset ++ uintsToBytes 4 vlen)
  | (k, r) :: rest, offset, vlen =>
    let fr := mp.Find k
    if !fr.2 then none
    else
      let i := fr.1
      if i ≥ n then none
      else marshalOffsetsKV n mp rest ((offset.set (2 * i) k).set (2 * i + 1) r.off) (vlen.set i r.vlen)

/-- dbwriter.go `DBWriter.marshalKeys` (keys-only): slot `i = mp.Find(k)`
    of the `n`-word offset array holds the key. -/
def marshalKeysOnly (n : Nat) (mp : Mph) : List (Nat × value) → List Nat → Option (List Nat)
  | [], offset => some (uintsToBytes 8 offset)
  | (k, _) :: rest, offset =>
    let fr := mp.Find k
    if !fr.2 then none
    else
      let i := fr.1
      if i ≥ n then none
      else marshalKeysOnly n mp rest (offset.set i k)

/-- The offset-table block: keys-only when no value bytes were written. -/
def DBWriter.marshalOffsets (w : DBWriter) (mp : Mph) : Option (List Nat) :=
  if w.valSize = 0 then marshalKeysOnly mp.Len mp w.keymap (List.replicate mp.Len 0)
  else marshalOffsetsKV mp.Len mp w.keymap (List.replicate (2 * mp.Len) 0) (List.replicate mp.Len 0)

/-- dbwriter.go magic strings, as byte lists. -/
def magicCHD : List Nat := [0x4d, 0x50, 0x48, 0x43]

/-- "MPHB". -/
def magicBBH : List Nat := [0x4d, 0x50, 0x48, 0x42]

/-- dbwriter.go `DBWriter.Freeze` after the MPHF has been built
    (`mp = w.bb.Freeze()`), producing the final file bytes:
    header ‖ records ‖ page padding ‖ offset table ‖ 8-byte-alignment
    padding ‖ marshalled MPHF ‖ SHA-512/256 trailer.  The page size
    (`os.Getpagesize`, a power of two) is the parameter `pgsz`.  The page
    padding is written to the bare file descriptor, so the checksum covers
    the in-memory header and everything from `offtbl` on, exactly as the
    reader recomputes it. -/
def dbFreezeWith (w : DBWriter) (pgsz : Nat) (magic : List Nat) (mp : Mph) : Option (List Nat) :=
  let offtbl := padTo w.off pgsz
  let pad1 := List.replicate (offtbl - w.off) 0
  let flags := if w.valSize = 0 then 1 else 0
  let ehdr := magic ++ toBEBytes 4 flags ++ w.salt ++ toBEBytes 8 mp.Len ++ toBEBytes 8 offtbl
              ++ List.replicate 24 0
  (w.marshalOffsets mp).map (fun otbl =>
    let off2 := offtbl + otbl.length
    let pad2 := List.replicate (padTo off2 8 - off2) 0
    let mb := mp.marshalBytes
    let cksum := sha512_256 (ehdr ++ otbl ++ pad2 ++ mb)
    ehdr ++ w.recData ++ pad1 ++ otbl ++ pad2 ++ mb ++ cksum)

/-- `DBWriter.Freeze` for a CHD-backed writer (`NewChdDBWriter`): build
    the CHD over the accumulated keys, then emit the file. -/
def dbFreezeChd (w : DBWriter) (pgsz : Nat) (mphSalt : Nat) (load : ℚ) : Option (List Nat) :=
  (chdFreeze mphSalt load w.keys).bind (fun c => dbFreezeWith w pgsz magicCHD (.chdT c))

/-- `DBWriter.Freeze` for a BBHash-backed writer (`NewBBHashDBWriter`,
    serial construction path). -/
def dbFreezeBB (w : DBWriter) (pgsz : Nat) (mphSalt : Nat) (g : ℚ) : Option (List Nat) :=
  (bbFreeze mphSalt g w.keys).bind (fun b => dbFreezeWith w pgsz magicBBH (.bbT b))

/-! ## DB reader (dbreader.go) -/

/-- dbreader.go `DBReader` (the mmap handle, file descriptor and value
    cache carry no sequential semantics). -/
structure DBReader where
  flags : Nat
  offset : List Nat
  vlen : List Nat
  nkeys : Nat
  salt : List Nat
  offtbl : Nat
  mph : Mph
deriving Repr, DecidableEq

/-- dbreader.go `NewDBReader` on the little-endian build: size check,
    header decode (big-endian fields, `offtbl` bounds), SHA-512/256
    verification of `header ‖ bytes[offtbl, size−32)` against the trailer,
    table-size sanity check, reinterpretation of the mapped bytes as the
    offset and vlen arrays, and MPHF unmarshal dispatch on the magic. -/
def newDBReader (file : List Nat) : Option DBReader :=
  let sz := file.length
  if sz < 64 + 32 then none
  else
    let hdrb := file.take 64
    let magic := hdrb.take 4
    if magic ≠ magicCHD ∧ magic ≠ magicBBH then none
    else
      let flags := fromBEBytes ((hdrb.drop 4).take 4)
      let salt := (hdrb.drop 8).take 16
      let nkeys := fromBEBytes ((hdrb.drop 24).take 8)
      let offtbl := fromBEBytes ((hdrb.drop 32).take 8)
      if offtbl < 64 ∨ offtbl ≥ sz - 32 then none
      else
        let remsz := sz - offtbl - 32
        if sha512_256 (hdrb ++ (file.drop offtbl).take remsz) ≠ (file.drop (sz - 32)).take 32 then none
        else
          let tblsz := if flags &&& 1 > 0 then nkeys * 8 else nkeys * (8 + 8 + 4)
          if sz < 64 + 32 + tblsz then none
          else
            let mmapb := (file.drop offtbl).take remsz
            let offsz := if flags &&& 1 > 0 then nkeys * 8 else nkeys * (8 + 8)
            let vlensz := if flags &&& 1 > 0 then 0 else nkeys * 4
            let offs := bytesToUints 8 (mmapb.take offsz)
            let vl := bytesToUints 4 ((mmapb.drop offsz).take vlensz)
            let mb := mmapb.drop (offsz + vlensz)
            let mp : Option Mph :=
              if magic = magicCHD then (newChd mb).map Mph.chdT
              else (newBBHash mb).map Mph.bbT
            mp.map (fun mp => ⟨flags, offs, vl, nkeys, salt, offtbl, mp⟩)

/-- dbreader.go `DBReader.Len`: the stored `nkeys` header field ("not
    exactly the total number of keys"). -/
def DBReader.Len (rd : DBReader) : Nat := rd.nkeys

/-- dbreader.go `DBReader.decodeRecord`: positioned read of
    `8 + vlen` bytes at `off`; the first 8 bytes, big-endian, must equal
    the SipHash of the offset and value under the file salt. -/
def decodeRecord (salt : List Nat) (file : List Nat) (off vlen : Nat) : Except DBErr (List Nat) :=
  let data := (file.drop off).take (vlen + 8)
  if data.length < vlen + 8 then .error .ioErr
  else
    let csum := fromBEBytes (data.take 8)
    let exp := recCksum salt off (data.drop 8)
    if csum ≠ exp then .error .corruptRecord
    else .ok (data.drop 8)

/-- dbreader.go `DBReader.Find` on a cache miss (the ARC cache only
    replays previous results): MPH lookup, stored-key comparison, record
    decode.  Keys-only hits return the empty value. -/
def DBReader.Find (rd : DBReader) (file : List Nat) (key : Nat) : Except DBErr (List Nat) :=
  let fr := rd.mph.Find key
  if !fr.2 then .error .noKey
  else
    let i := fr.1
    if rd.flags &&& 1 > 0 then
      if rd.offset.getD i 0 ≠ key then .error .noKey else .ok []
    else
      let j := i * 2
      if rd.offset.getD j 0 ≠ key then .error .noKey
      else decodeRecord rd.salt file (rd.offset.getD (j + 1) 0) (rd.vlen.getD i 0)

/-- dbreader.go `DBReader.IterFunc`, keys+values arm, with the callback
    reified as the list of `(key, value)` pairs presented, in slot order;
    `i` counts up to `nkeys` with `rem` slots remaining.  Slots whose
    stored key is `0` are skipped; a record decode failure aborts. -/
def iterKVFrom (rd : DBReader) (file : List Nat) : Nat → Nat → Except DBErr (List (Nat × List Nat))
  | _, 0 => .ok []
  | i, rem + 1 =>
    let j := i * 2
    let k := rd.offset.getD j 0
    if k = 0 then iterKVFrom rd file (i + 1) rem
    else
      (decodeRecord rd.salt file (rd.offset.getD (j + 1) 0) (rd.vlen.getD i 0)).bind
        (fun v => (iterKVFrom rd file (i + 1) rem).map (fun rest => (k, v) :: rest))

/-- dbreader.go `DBReader.IterFunc`, keys-only arm: present `(k, nil)` for
    every nonzero stored key. -/
def iterKeysFrom (rd : DBReader) : Nat → Nat → List (Nat × List Nat)
  | _, 0 => []
  | i, rem + 1 =>
    let k := rd.offset.getD i 0
    if k = 0 then iterKeysFrom rd (i + 1) rem
    else (k, []) :: iterKeysFrom rd (i + 1) rem

/-- dbreader.go `DBReader.IterFunc`: the pairs presented, in slot order. -/
def DBReader.iterPairs (rd : DBReader) (file : List Nat) : Except DBErr (List (Nat × List Nat)) :=
  if rd.flags &&& 1 > 0 then .ok (iterKeysFrom rd 0 rd.nkeys)
  else iterKVFrom rd file 0 rd.nkeys

/-! ## Popcount lemmas -/

theorem popcountAux_eq_sum (w : Nat) : ∀ x : Nat,
    popcountAux w x = ∑ t ∈ Finset.range w, (if x.testBit t then 1 else 0) := by
  induction w with
  | zero => intro x; simp [popcountAux]
  | succ w ih =>
    intro x
    rw [Finset.sum_range_succ']
    have h0 : (if x.testBit 0 then 1 else 0) = x % 2 := by
      rcases Nat.mod_two_eq_zero_or_one x with h | h <;>
        simp [Nat.testBit_zero, h]
    have hs : ∀ t, x.testBit (t + 1) = (x / 2).testBit t := by
      intro t; rw [Nat.testBit_succ]
    simp only [popcountAux, ih (x / 2), h0, hs]
    omega

theorem popcount_eq_sum (x : Nat) :
    popcount x = ∑ t ∈ Finset.range 64, (if x.testBit t then 1 else 0) :=
  popcountAux_eq_sum 64 x

/-- The word contributed to `Rank` by the shifted high part: the number of
    bits of `w` strictly below `y`. -/
theorem popcount_shift_mod (w y : Nat) (hy : y ≤ 64) :
    popcount ((w <<< (64 - y)) % U64) =
      ∑ t ∈ Finset.range y, (if w.testBit t then 1 else 0) := by
  rw [popcount_eq_sum]
  have hbit : ∀ t, ((w <<< (64 - y)) % U64).testBit t =
      (decide (t < 64) && (w <<< (64 - y)).testBit t) := by
    intro t
    have : U64 = 2 ^ 64 := rfl
    rw [this, Nat.testBit_mod_two_pow]
  have hsh : ∀ t, (w <<< (64 - y)).testBit t =
      (decide (64 - y ≤ t) && w.testBit (t - (64 - y))) := by
    intro t; rw [Nat.testBit_shiftLeft]
  calc ∑ t ∈ Finset.range 64, (if ((w <<< (64 - y)) % U64).testBit t then 1 else 0)
      = ∑ t ∈ Finset.range 64, (if 64 - y ≤ t then (if w.testBit (t - (64 - y)) then 1 else 0) else 0) := by
        refine Finset.sum_congr rfl (fun t ht => ?_)
        rw [Finset.mem_range] at ht
        rw [hbit t, hsh t]
        by_cases hc : 64 - y ≤ t <;> simp [ht, hc]
    _ = ∑ t ∈ Finset.Ico (64 - y) 64, (if w.testBit (t - (64 - y)) then 1 else 0) := by
        rw [Finset.range_eq_Ico,
            ← Finset.Ico_union_Ico_eq_Ico (Nat.zero_le (64 - y)) (by omega : (64 : ℕ) - y ≤ 64),
            Finset.sum_union (Finset.Ico_disjoint_Ico_consecutive 0 (64 - y) 64)]
        have h0 : (∑ t ∈ Finset.Ico 0 (64 - y),
            (if 64 - y ≤ t then (if w.testBit (t - (64 - y)) then 1 else 0) else 0)) = 0 := by
          refine Finset.sum_eq_zero (fun t ht => ?_)
          rw [Finset.mem_Ico] at ht
          have : ¬ (64 - y ≤ t) := by omega
          simp [this]
        rw [h0, zero_add]
        refine Finset.sum_congr rfl (fun t ht => ?_)
        rw [Finset.mem_Ico] at ht
        simp [ht.1]
    _ = ∑ s ∈ Finset.range y, (if w.testBit s then 1 else 0) := by
        rw [Finset.sum_Ico_eq_sum_range]
        have h1 : 64 - (64 - y) = y := by omega
        rw [h1]
        refine Finset.sum_congr rfl (fun s _ => ?_)
        have h2 : 64 - y + s - (64 - y) = s := by omega
        rw [h2]

/-- popcount of a full word. -/
theorem popcount_word (w : Nat) (hw : w < U64) :
    popcount w = ∑ t ∈ Finset.range 64, (if w.testBit t then 1 else 0) :=
  popcount_eq_sum w

/-! ## Bit-vector specification lemmas -/

/-- Well-formedness: all words below `2^64`. -/
def bvWF (b : bitVector) : Prop := ∀ w ∈ b.v, w < U64

/-- The number of set bits at positions strictly below `i`. -/
def bvCount (b : bitVector) (i : Nat) : Nat :=
  ∑ j ∈ Finset.range i, (if b.IsSet j then 1 else 0)

theorem isSet_eq_testBit (b : bitVector) (i : Nat) :
    b.IsSet i = (b.v.getD (i / 64) 0).testBit (i % 64) := by
  have hz : ∀ z : Nat, 1 &&& z = z % 2 := fun z => by
    rw [Nat.land_comm]; exact Nat.and_one_is_mod z
  unfold bitVector.IsSet Nat.testBit
  rw [hz]
  rcases Nat.mod_two_eq_zero_or_one (b.v.getD (i / 64) 0 >>> (i % 64)) with h | h <;> rw [h] <;> rfl

/-- `Rank` unfolded. -/
theorem rank_def (b : bitVector) (i : Nat) :
    b.Rank i = ((b.v.take (i / 64)).map popcount).sum
      + popcount ((b.v.getD (i / 64) 0 <<< (64 - i % 64)) % U64) := rfl

theorem isSet_cons_low (w : Nat) (v : List Nat) (j : Nat) (hj : j < 64) :
    bitVector.IsSet ⟨w :: v⟩ j = w.testBit j := by
  rw [isSet_eq_testBit]
  simp [Nat.div_eq_of_lt hj, Nat.mod_eq_of_lt hj]

theorem isSet_cons_high (w : Nat) (v : List Nat) (j : Nat) (hj : 64 ≤ j) :
    bitVector.IsSet ⟨w :: v⟩ j = bitVector.IsSet ⟨v⟩ (j - 64) := by
  rw [isSet_eq_testBit, isSet_eq_testBit]
  have h1 : j / 64 = (j - 64) / 64 + 1 := by omega
  have h2 : j % 64 = (j - 64) % 64 := by omega
  rw [h1, h2]
  rfl

theorem bvCount_low (w : Nat) (v : List Nat) (i : Nat) (hi : i ≤ 64) :
    bvCount ⟨w :: v⟩ i = ∑ t ∈ Finset.range i, (if w.testBit t then 1 else 0) := by
  unfold bvCount
  refine Finset.sum_congr rfl (fun j hj => ?_)
  rw [Finset.mem_range] at hj
  rw [isSet_cons_low w v j (by omega)]

theorem bvCount_cons_head (w : Nat) (v : List Nat) (hw : w < U64) :
    (∑ j ∈ Finset.Ico 0 64, (if bitVector.IsSet ⟨w :: v⟩ j then 1 else 0)) = popcount w := by
  rw [← Finset.range_eq_Ico, popcount_word w hw]
  refine Finset.sum_congr rfl (fun j hj => ?_)
  rw [Finset.mem_range] at hj
  rw [isSet_cons_low w v j hj]

theorem bvCount_cons_tail (w : Nat) (v : List Nat) (i : Nat) :
    (∑ j ∈ Finset.Ico 64 i, (if bitVector.IsSet ⟨w :: v⟩ j then 1 else 0)) = bvCount ⟨v⟩ (i - 64) := by
  rw [Finset.sum_Ico_eq_sum_range]
  unfold bvCount
  refine Finset.sum_congr rfl (fun j _ => ?_)
  rw [isSet_cons_high w v (64 + j) (by omega)]
  have h64 : 64 + j - 64 = j := by omega
  rw [h64]

theorem bvCount_cons (w : Nat) (v : List Nat) (i : Nat) (hi : 64 ≤ i) (hw : w < U64) :
    bvCount ⟨w :: v⟩ i = popcount w + bvCount ⟨v⟩ (i - 64) := by
  have hsplit : bvCount ⟨w :: v⟩ i =
      (∑ j ∈ Finset.Ico 0 64, (if bitVector.IsSet ⟨w :: v⟩ j then 1 else 0))
      + ∑ j ∈ Finset.Ico 64 i, (if bitVector.IsSet ⟨w :: v⟩ j then 1 else 0) := by
    unfold bvCount
    rw [Finset.range_eq_Ico]
    exact (Finset.sum_Ico_consecutive (fun j => if bitVector.IsSet ⟨w :: v⟩ j then 1 else 0)
        (Nat.zero_le 64) hi).symm
  rw [hsplit, bvCount_cons_head w v hw, bvCount_cons_tail w v i]

/-- The `Rank` loop over whole words below `i/64` plus the shifted last
    word counts exactly the set bits below `i`. -/
theorem rank_eq_bvCount (v : List Nat) : ∀ i : Nat, (∀ w ∈ v, w < U64) →
    i < 64 * v.length →
    bitVector.Rank ⟨v⟩ i = bvCount ⟨v⟩ i := by
  induction v with
  | nil => intro i _ hi; simp at hi
  | cons w rest ih =>
    intro i hwf hi
    by_cases h64 : i < 64
    · have hx : i / 64 = 0 := Nat.div_eq_of_lt h64
      have hy : i % 64 = i := Nat.mod_eq_of_lt h64
      rw [rank_def]
      simp only [hx, hy, List.take_zero, List.map_nil, List.sum_nil, List.getD]
      rw [bvCount_low w rest i (by omega)]
      simpa using popcount_shift_mod w i (by omega)
    · push_neg at h64
      have hx : i / 64 = (i - 64) / 64 + 1 := by omega
      have hy : i % 64 = (i - 64) % 64 := by omega
      have hstep : bitVector.Rank ⟨w :: rest⟩ i = popcount w + bitVector.Rank ⟨rest⟩ (i - 64) := by
        rw [rank_def, rank_def]
        simp only [hx, hy, List.take_succ_cons, List.map_cons, List.sum_cons, List.getD_cons_succ]
        omega
      rw [hstep, bvCount_cons w rest i h64 (hwf w (by simp))]
      rw [ih (i - 64) (fun x hx2 => hwf x (by simp [hx2])) (by simp at hi; omega)]

/-- `ComputeRank` is the total number of set bits. -/
theorem computeRank_eq_bvCount (v : List Nat) (hwf : ∀ w ∈ v, w < U64) :
    bitVector.ComputeRank ⟨v⟩ = bvCount ⟨v⟩ (64 * v.length) := by
  induction v with
  | nil => simp [bitVector.ComputeRank, bvCount]
  | cons w rest ih =>
    have h1 : bitVector.ComputeRank ⟨w :: rest⟩ = popcount w + bitVector.ComputeRank ⟨rest⟩ := by
      simp [bitVector.ComputeRank]
    rw [h1, bvCount_cons w rest (64 * (w :: rest).length)
      (by simp only [List.length_cons]; omega) (hwf w (by simp))]
    have h2 : 64 * (w :: rest).length - 64 = 64 * rest.length := by
      simp only [List.length_cons]; omega
    rw [h2, ih (fun x hx => hwf x (by simp [hx]))]

/-! ## Claim C10: `Rank` counts the set bits strictly below the index -/

/-- C10: for every bit-vector (with 64-bit words, as Go guarantees) and
    every index `i < Size`, `Rank i` is exactly the number of set bits at
    positions strictly less than `i`; the case `i mod 64 = 0` is covered —
    the 64-bit shift contributes no bits from word `i/64`. -/
theorem C10_rank_counts_bits_below (b : bitVector) (hwf : bvWF b) (i : Nat) (hi : i < b.Size) :
    b.Rank i = ((Finset.range i).filter (fun j => b.IsSet j)).card := by
  have hcard : ((Finset.range i).filter (fun j => b.IsSet j)).card = bvCount b i := by
    unfold bvCount
    rw [Finset.card_filter]
  rw [hcard]
  have hb : b = ⟨b.v⟩ := rfl
  rw [hb]
  exact rank_eq_bvCount b.v i hwf (by unfold bitVector.Size at hi; omega)

/-- Witness for C10: a concrete two-word vector, queried at `i = 64`
    (the `i mod 64 = 0` edge) and at `i = 66`. -/
theorem C10_witness :
    (bvWF ⟨[2 ^ 63 + 5, 9]⟩ ∧ 64 < bitVector.Size ⟨[2 ^ 63 + 5, 9]⟩) ∧
      bitVector.Rank ⟨[2 ^ 63 + 5, 9]⟩ 64 =
        ((Finset.range 64).filter (fun j => bitVector.IsSet ⟨[2 ^ 63 + 5, 9]⟩ j)).card ∧
      bitVector.Rank ⟨[2 ^ 63 + 5, 9]⟩ 66 =
        ((Finset.range 66).filter (fun j => bitVector.IsSet ⟨[2 ^ 63 + 5, 9]⟩ j)).card := by
  refine ⟨⟨?_, ?_⟩, ?_, ?_⟩
  · intro w hw
    simp only [List.mem_cons, List.not_mem_nil, or_false] at hw
    rcases hw with h | h <;> rw [h] <;> decide
  · decide
  · exact C10_rank_counts_bits_below ⟨[2 ^ 63 + 5, 9]⟩
      (by intro w hw
          simp only [List.mem_cons, List.not_mem_nil, or_false] at hw
          rcases hw with h | h <;> rw [h] <;> decide) 64 (by decide)
  · exact C10_rank_counts_bits_below ⟨[2 ^ 63 + 5, 9]⟩
      (by intro w hw
          simp only [List.mem_cons, List.not_mem_nil, or_false] at hw
          rcases hw with h | h <;> rw [h] <;> decide) 66 (by decide)

/-! ## Claim C9: the rank prefix invariant -/

theorem preComputeRankAux_length (p : Nat) (bits : List bitVector) :
    (preComputeRankAux p bits).length = bits.length := by
  induction bits generalizing p with
  | nil => rfl
  | cons bv rest ih => simp [preComputeRankAux, ih]

theorem preComputeRankAux_head (p : Nat) (bv : bitVector) (rest : List bitVector) :
    (preComputeRankAux p (bv :: rest)).getD 0 0 = p := rfl

theorem preComputeRankAux_succ (p : Nat) (bits : List bitVector) :
    ∀ l, l + 1 < bits.length →
      (preComputeRankAux p bits).getD (l + 1) 0 =
        (preComputeRankAux p bits).getD l 0 + (bits.getD l ⟨[]⟩).ComputeRank := by
  induction bits generalizing p with
  | nil => intro l hl; simp at hl
  | cons bv rest ih =>
    intro l hl
    match l with
    | 0 =>
      simp only [preComputeRankAux, List.getD_cons_succ, List.getD_cons_zero]
      match rest, hl with
      | bv2 :: rest2, _ => rfl
    | l + 1 =>
      simp only [preComputeRankAux, List.getD_cons_succ]
      exact ih (p + bv.ComputeRank) l (by simp at hl; omega)

/-- The rank prefix property of a BBHash table. -/
def ranksProp (bb : bbHash) : Prop :=
  (0 < bb.bits.length → bb.ranks.getD 0 0 = 0) ∧
    ∀ l, l + 1 < bb.bits.length →
      bb.ranks.getD (l + 1) 0 = bb.ranks.getD l 0 + (bb.bits.getD l ⟨[]⟩).ComputeRank

theorem ranksProp_of_preComputeRank (bb : bbHash) (h : bb.ranks = preComputeRank bb.bits) :
    ranksProp bb := by
  constructor
  · intro hlen
    rw [h]
    match hb : bb.bits, hlen with
    | bv :: rest, _ => exact preComputeRankAux_head 0 bv rest
  · intro l hl
    rw [h]
    exact preComputeRankAux_succ 0 bb.bits l hl

/-- C9: after construction (`Freeze`, which ends in `preComputeRank`) and
    after unmarshalling (`newBBHash`, which recomputes the table), the
    rank prefix array satisfies `ranks[0] = 0` and
    `ranks[ℓ+1] = ranks[ℓ] + popcount(levels[ℓ])` (where the total
    popcount of a level is its `ComputeRank`). -/
theorem C9_rank_prefix_invariant (bb : bbHash)
    (h : (∃ salt g keys, bbFreeze salt g keys = some bb) ∨ ∃ buf, newBBHash buf = some bb) :
    (0 < bb.bits.length → bb.ranks.getD 0 0 = 0) ∧
      ∀ l, l + 1 < bb.bits.length →
        bb.ranks.getD (l + 1) 0 = bb.ranks.getD l 0 + (bb.bits.getD l ⟨[]⟩).ComputeRank := by
  have hranks : bb.ranks = preComputeRank bb.bits := by
    rcases h with ⟨salt, g, keys, hf⟩ | ⟨buf, hu⟩
    · simp only [bbFreeze] at hf
      split at hf
      · exact absurd hf (by simp)
      · simp only [Option.some.injEq] at hf
        rw [← hf]
    · simp only [newBBHash] at hu
      split at hu
      · exact absurd hu (by simp)
      · split at hu
        · exact absurd hu (by simp)
        · split at hu
          · exact absurd hu (by simp)
          · rw [Option.map_eq_some'] at hu
            obtain ⟨bits, _, hbb⟩ := hu
            rw [← hbb]
  exact ranksProp_of_preComputeRank bb hranks

/-- Witness for C9: the frozen table over keys `{1,2,3}` with salt 0,
    gamma 2. -/
theorem C9_witness :
    bbFreeze 16 2 [1, 2, 3, 4, 5, 6] = some ((bbFreeze 16 2 [1, 2, 3, 4, 5, 6]).getD ⟨[], [], 0, 0, 0⟩) ∧
      (((bbFreeze 16 2 [1, 2, 3, 4, 5, 6]).getD ⟨[], [], 0, 0, 0⟩).ranks.getD 0 0 = 0 ∧
        ((bbFreeze 16 2 [1, 2, 3, 4, 5, 6]).getD ⟨[], [], 0, 0, 0⟩).ranks.getD 1 0 =
          ((bbFreeze 16 2 [1, 2, 3, 4, 5, 6]).getD ⟨[], [], 0, 0, 0⟩).ranks.getD 0 0 +
            (((bbFreeze 16 2 [1, 2, 3, 4, 5, 6]).getD ⟨[], [], 0, 0, 0⟩).bits.getD 0 ⟨[]⟩).ComputeRank) := by
  have hf : bbFreeze 16 2 [1, 2, 3, 4, 5, 6] =
      some ((bbFreeze 16 2 [1, 2, 3, 4, 5, 6]).getD ⟨[], [], 0, 0, 0⟩) := by
    decide
  refine ⟨hf, ?_, ?_⟩
  · exact (C9_rank_prefix_invariant _ (Or.inl ⟨16, 2, [1, 2, 3, 4, 5, 6], hf⟩)).1 (by decide)
  · exact (C9_rank_prefix_invariant _ (Or.inl ⟨16, 2, [1, 2, 3, 4, 5, 6], hf⟩)).2 0 (by decide)

/-! ## BBHash construction structure -/

theorem set_length (b : bitVector) (i : Nat) : (b.Set i).v.length = b.v.length := by
  simp [bitVector.Set]

theorem set_size (b : bitVector) (i : Nat) : (b.Set i).Size = b.Size := by
  simp [bitVector.Size, set_length]

theorem reset_eq_new (b : bitVector) : b.Reset = ⟨List.replicate b.v.length 0⟩ := rfl

theorem newBitVector_length (sz : Nat) : (newBitVector sz).v.length = (sz + 63) / 64 := by
  simp [newBitVector]

theorem bbPreprocess_lengths (salt lvl : Nat) :
    ∀ (keys : List Nat) (A coll : bitVector),
      ((bbPreprocess salt lvl keys A coll).1.v.length = A.v.length ∧
        (bbPreprocess salt lvl keys A coll).2.v.length = coll.v.length) := by
  intro keys
  induction keys with
  | nil => intro A coll; exact ⟨rfl, rfl⟩
  | cons k rest ih =>
    intro A coll
    unfold bbPreprocess
    by_cases h1 : coll.IsSet (bhash k salt lvl % A.Size) = true
    · rw [if_pos h1]
      exact ih A coll
    · rw [if_neg h1]
      by_cases h2 : A.IsSet (bhash k salt lvl % A.Size) = true
      · rw [if_pos h2]
        rcases ih A (coll.Set (bhash k salt lvl % A.Size)) with ⟨ha, hc⟩
        exact ⟨ha, by rw [hc, set_length]⟩
      · rw [if_neg h2]
        rcases ih (A.Set (bhash k salt lvl % A.Size)) coll with ⟨ha, hc⟩
        exact ⟨by rw [ha, set_length], hc⟩

theorem bbAssign_A_length (salt lvl : Nat) :
    ∀ (keys : List Nat) (A coll : bitVector) (redo : List Nat),
      (bbAssign salt lvl keys A coll redo).1.v.length = A.v.length := by
  intro keys
  induction keys with
  | nil => intro A coll redo; rfl
  | cons k rest ih =>
    intro A coll redo
    unfold bbAssign
    by_cases h1 : coll.IsSet (bhash k salt lvl % A.Size) = true
    · rw [if_pos h1]
      exact ih A coll (redo ++ [k])
    · rw [if_neg h1]
      rw [ih (A.Set (bhash k salt lvl % A.Size)) coll redo, set_length]

theorem bbLevelVec_length (salt lvl szA : Nat) (keys : List Nat) :
    (bbLevelVec salt lvl szA keys).v.length = (szA + 63) / 64 := by
  unfold bbLevelVec
  rw [bbAssign_A_length]
  simp [bitVector.Reset, (bbPreprocess_lengths salt lvl keys _ _).1, newBitVector_length]

theorem bbKeysFrom_shift (salt szA lvl : Nat) (keys : List Nat) :
    ∀ j, bbKeysFrom salt szA (lvl + 1) (bbRedo salt lvl szA keys) j =
      bbKeysFrom salt szA lvl keys (j + 1) := by
  intro j
  rfl

/-- The shape of a successful `singleThread` run: the accumulated level
    list extends by one `bbLevelVec` per level, following the
    `bbKeysFrom` recurrence, until a level leaves no redo keys. -/
theorem bbLoop_structure (salt szA : Nat) :
    ∀ (fuel lvl : Nat) (keys : List Nat) (acc bits : List bitVector),
      bbLoop salt szA fuel lvl keys (newBitVector szA) (newBitVector szA) acc = some bits →
      ∃ L, 0 < L ∧
        bits = acc ++ (List.range L).map (fun j => bbLevelVec salt (lvl + j) szA (bbKeysFrom salt szA lvl keys j)) ∧
        bbKeysFrom salt szA lvl keys L = [] ∧
        (∀ j, 0 < j → j < L → bbKeysFrom salt szA lvl keys j ≠ []) ∧
        (keys ≠ [] → 0 < szA) := by
  intro fuel
  induction fuel with
  | zero => intro lvl keys acc bits h; exact absurd h (by simp [bbLoop])
  | succ fuel ih =>
    intro lvl keys acc bits h
    unfold bbLoop at h
    by_cases hguard : keys ≠ [] ∧ (newBitVector szA).Size = 0
    · rw [if_pos hguard] at h
      exact absurd h (by simp)
    · rw [if_neg hguard] at h
      have hsz : keys ≠ [] → 0 < szA := by
        intro hk
        by_contra hz
        push_neg at hz
        interval_cases szA
        exact hguard ⟨hk, rfl⟩
      rcases hpre : bbPreprocess salt lvl keys (newBitVector szA) (newBitVector szA) with ⟨A1, coll1⟩
      rw [hpre] at h
      dsimp only [] at h
      rcases hass : bbAssign salt lvl keys A1.Reset coll1 [] with ⟨A2, redo⟩
      rw [hass] at h
      dsimp only [] at h
      have hA2 : bbLevelVec salt lvl szA keys = A2 := by
        unfold bbLevelVec
        rw [hpre]
        dsimp only []
        rw [hass]
      have hredo : bbRedo salt lvl szA keys = redo := by
        unfold bbRedo
        rw [hpre]
        dsimp only []
        rw [hass]
      by_cases hdone : redo = []
      · rw [if_pos hdone] at h
        simp only [Option.some.injEq] at h
        refine ⟨1, by omega, ?_, ?_, ?_, hsz⟩
        · rw [← h]
          have hmap : List.map (fun j => bbLevelVec salt (lvl + j) szA (bbKeysFrom salt szA lvl keys j))
              (List.range 1) = [A2] := by
            rw [show List.range 1 = [0] from rfl, List.map_cons, List.map_nil, ← hA2]
            rfl
          rw [hmap]
        · show bbRedo salt lvl szA keys = []
          rw [hredo, hdone]
        · intro j hj0 hj1; omega
      · rw [if_neg hdone] at h
        by_cases hmax : lvl + 1 > _MaxLevel
        · rw [if_pos hmax] at h
          exact absurd h (by simp)
        · rw [if_neg hmax] at h
          have hcollReset : coll1.Reset = newBitVector szA := by
            have hlen := (bbPreprocess_lengths salt lvl keys (newBitVector szA) (newBitVector szA)).2
            rw [hpre] at hlen
            rw [reset_eq_new, hlen, newBitVector_length]
            rfl
          rw [hcollReset] at h
          rcases ih (lvl + 1) redo (acc ++ [A2]) bits h with ⟨L, hL0, hbits, hend, hne, _⟩
          refine ⟨L + 1, by omega, ?_, ?_, ?_, hsz⟩
          · rw [hbits, ← hredo]
            rw [List.append_assoc]
            congr 1
            rw [List.range_succ_eq_map, List.map_cons, List.map_map, List.singleton_append]
            congr 1
            · rw [← hA2]
              simp [bbKeysFrom]
            · refine List.map_congr_left (fun j _ => ?_)
              simp only [Function.comp]
              rw [bbKeysFrom_shift salt szA lvl keys j]
              congr 1
              omega
          · rw [← bbKeysFrom_shift, hredo]
            exact hend
          · intro j hj0 hjL
            match j, hj0 with
            | 1, _ =>
              show bbKeysFrom salt szA lvl keys 1 ≠ []
              have h1 : bbKeysFrom salt szA lvl keys 1 = bbRedo salt lvl szA keys := rfl
              rw [h1, hredo]
              exact hdone
            | j + 2, _ =>
              rw [← bbKeysFrom_shift, hredo]
              exact hne (j + 1) (by omega) (by omega)

/-- The shape of a successful serial `Freeze`. -/
theorem bbFreeze_structure (salt : Nat) (g : ℚ) (keys : List Nat) (bb : bbHash)
    (h : bbFreeze salt g keys = some bb) :
    ∃ L, 0 < L ∧
      bb.bits = (List.range L).map
        (fun j => bbLevelVec salt j (bbBvSize keys.length g) (bbKeysAt salt (bbBvSize keys.length g) keys j)) ∧
      bbKeysAt salt (bbBvSize keys.length g) keys L = [] ∧
      (∀ j, 0 < j → j < L → bbKeysAt salt (bbBvSize keys.length g) keys j ≠ []) ∧
      (keys ≠ [] → 0 < bbBvSize keys.length g) ∧
      bb.ranks = preComputeRank bb.bits ∧ bb.salt = salt ∧ bb.n = keys.length := by
  simp only [bbFreeze] at h
  set szA := bbBvSize keys.length g with hszA
  cases hloop : bbLoop salt szA (_MaxLevel + 2) 0 keys (newBitVector szA) (newBitVector szA) [] with
  | none => rw [hloop] at h; exact absurd h (by simp)
  | some bits =>
    rw [hloop] at h
    simp only [Option.some.injEq] at h
    rcases bbLoop_structure salt szA (_MaxLevel + 2) 0 keys [] bits hloop with
      ⟨L, hL0, hbits, hend, hne, hsz⟩
    refine ⟨L, hL0, ?_, hend, hne, hsz, ?_, ?_, ?_⟩
    · rw [← h]
      simpa [bbKeysAt] using hbits
    · rw [← h]
    · rw [← h]
    · rw [← h]

/-- Every level bit-vector of a frozen BBHash has
    `64⌈bvSize/64⌉ = 64⌈⌊n·γ⌋/64⌉` bits, where `n` is the size of the
    original key set. -/
theorem bbFreeze_level_sizes (salt : Nat) (g : ℚ) (keys : List Nat) (bb : bbHash)
    (h : bbFreeze salt g keys = some bb) :
    ∀ bv ∈ bb.bits, bv.Size = 64 * ((bbBvSize keys.length g + 63) / 64) := by
  rcases bbFreeze_structure salt g keys bb h with ⟨L, _, hbits, _⟩
  intro bv hbv
  rw [hbits] at hbv
  rcases List.mem_map.mp hbv with ⟨j, _, hj⟩
  rw [← hj]
  unfold bitVector.Size
  rw [bbLevelVec_length]
  omega

/-! ## Claim C4 (corrected): the builder does not coerce γ ≤ 1

`NewBBHashBuilder` stores `g` verbatim and `bbHashBuilder.Freeze` uses it
unchanged in `bvSize`; the coercion of `γ ≤ 1.0` to `2.0` exists only in
the unexported, unreachable constructors `newSerial`/`newConcurrent`. -/

/-- C4 (amended): for every expansion factor `g ≤ 1.0` passed to the
    builder, a successful `Freeze` sizes every bit-vector from the *given*
    `g` — `64⌈⌊n·g⌋/64⌉` bits — not from the coerced value 2.0; the
    coercion to 2.0 happens only in `newSerial` (and `newConcurrent`). -/
theorem C4_no_gamma_coercion_in_builder (salt : Nat) (g : ℚ) (keys : List Nat) (bb : bbHash)
    (hg : g ≤ 1) (h : bbFreeze salt g keys = some bb) :
    (∀ bv ∈ bb.bits, bv.Size = 64 * ((u64mulTrunc keys.length g + 63) / 64)) ∧
      newSerial g salt keys = bbFreeze salt 2 keys := by
  constructor
  · exact bbFreeze_level_sizes salt g keys bb h
  · unfold newSerial
    rw [if_pos hg]

/-- Counterexample to C4 as stated: with γ = 1.0 and 64 keys, `Freeze`
    succeeds and allocates 64-bit levels (`⌊64·1.0⌋ = 64`), while the
    claimed coerced γ = 2.0 would allocate 128-bit levels at every size
    computation. -/
theorem C4_counterexample :
    (bbFreeze 0 1 ((List.range 64).map (· + 1))).map (fun bb => bb.bits.map bitVector.Size) =
        some [64, 64, 64] ∧
      64 * ((bbBvSize 64 2 + 63) / 64) = 128 ∧ (1 : ℚ) ≤ 1 := by
  refine ⟨by decide, by decide, le_refl 1⟩

/-- Witness for C4: the γ = 1.0, 64-key run. -/
theorem C4_witness :
    bbFreeze 0 1 ((List.range 64).map (· + 1)) =
        some ((bbFreeze 0 1 ((List.range 64).map (· + 1))).getD ⟨[], [], 0, 0, 0⟩) ∧
      (∀ bv ∈ ((bbFreeze 0 1 ((List.range 64).map (· + 1))).getD ⟨[], [], 0, 0, 0⟩).bits,
        bv.Size = 64 * ((u64mulTrunc ((List.range 64).map (· + 1)).length 1 + 63) / 64)) ∧
      newSerial 1 0 ((List.range 64).map (· + 1)) = bbFreeze 0 2 ((List.range 64).map (· + 1)) := by
  have hf : bbFreeze 0 1 ((List.range 64).map (· + 1)) =
      some ((bbFreeze 0 1 ((List.range 64).map (· + 1))).getD ⟨[], [], 0, 0, 0⟩) := by decide
  have hc := C4_no_gamma_coercion_in_builder 0 1 ((List.range 64).map (· + 1)) _ (le_refl 1) hf
  exact ⟨hf, hc.1, hc.2⟩

/-! ## Claim C5 (corrected): level sizes use the original key count

`bvSize` is `uint64(float64(bb.n) * bb.g)` with `bb.n` the original key
count; `nextLevel` allocates every level's `A` with it, and `coll` is
allocated once at the same size and merely reset between levels. -/

/-- C5 (amended): at every level `ℓ` of a successful serial construction,
    the level's bit-vector has `64⌈⌊n·γ⌋/64⌉` bits where `n` is the
    *original* key count — not `⌈|K_ℓ|·γ⌉` rounded up. -/
theorem C5_level_size_from_original_count (salt : Nat) (g : ℚ) (keys : List Nat) (bb : bbHash)
    (h : bbFreeze salt g keys = some bb) :
    ∀ l, l < bb.bits.length →
      (bb.bits.getD l ⟨[]⟩).Size = 64 * ((u64mulTrunc keys.length g + 63) / 64) := by
  intro l hl
  refine bbFreeze_level_sizes salt g keys bb h (bb.bits.getD l ⟨[]⟩) ?_
  rw [List.getD_eq_getElem bb.bits ⟨[]⟩ hl]
  exact List.getElem_mem hl

/-- Counterexample to C5 as stated: with salt 7, γ = 2.0 and the 33 keys
    `1..33`, the construction succeeds in two levels, `|K₁| = 2`, yet
    level 1 is sized `64⌈⌊33·2⌋/64⌉ = 128` bits — not
    `⌈|K₁|·γ⌉ = 4` rounded up to 64. -/
theorem C5_counterexample :
    (bbFreeze 7 2 ((List.range 33).map (· + 1))).map (fun bb => bb.bits.map bitVector.Size) =
        some [128, 128] ∧
      (bbKeysAt 7 (bbBvSize 33 2) ((List.range 33).map (· + 1)) 1).length = 2 ∧
      (bbFreeze 7 2 ((List.range 33).map (· + 1))).map (fun bb => bb.bits.getD 1 ⟨[]⟩) =
        some (bbLevelVec 7 1 (bbBvSize 33 2) (bbKeysAt 7 (bbBvSize 33 2) ((List.range 33).map (· + 1)) 1)) ∧
      ¬ (128 = 64 * ((2 * 2 + 63) / 64)) := by
  refine ⟨by decide, by decide, by decide, by decide⟩

/-- Witness for C5: the same two-level run. -/
theorem C5_witness :
    bbFreeze 7 2 ((List.range 33).map (· + 1)) =
        some ((bbFreeze 7 2 ((List.range 33).map (· + 1))).getD ⟨[], [], 0, 0, 0⟩) ∧
      (((bbFreeze 7 2 ((List.range 33).map (· + 1))).getD ⟨[], [], 0, 0, 0⟩).bits.getD 1 ⟨[]⟩).Size =
        64 * ((u64mulTrunc ((List.range 33).map (· + 1)).length 2 + 63) / 64) := by
  have hf : bbFreeze 7 2 ((List.range 33).map (· + 1)) =
      some ((bbFreeze 7 2 ((List.range 33).map (· + 1))).getD ⟨[], [], 0, 0, 0⟩) := by decide
  exact ⟨hf, C5_level_size_from_original_count 7 2 _ _ hf 1 (by decide)⟩

/-! ## Claim C6 (corrected): the value-size bound is `2^32 − 1` -/

/-- C6 (amended): `DBWriter.Add` on an open writer returns `ValueTooLarge`
    exactly when `len(value) > 2^32 − 1`; in particular a value of exactly
    `2^32 − 1` bytes is accepted (its length still fits the `uint32`
    length field). -/
theorem C6_value_too_large_iff (w : DBWriter) (key : Nat) (val : List Nat)
    (hopen : w.state = 0) :
    (w.Add key val).2 = some DBErr.valueTooLarge ↔ val.length > 2 ^ 32 - 1 := by
  unfold DBWriter.Add
  rw [if_neg (by rw [hopen]; exact fun hc => hc rfl)]
  unfold DBWriter.addRecord
  constructor
  · intro h
    by_contra hlen
    rw [if_neg hlen] at h
    by_cases hdup : (lookupKey w.keymap key).isSome = true
    · rw [if_pos hdup] at h
      exact absurd h (by simp)
    · rw [if_neg hdup] at h
      by_cases hpos : val.length > 0
      · rw [if_pos hpos] at h
        exact absurd h (by simp)
      · rw [if_neg hpos] at h
        exact absurd h (by simp)
  · intro h
    rw [if_pos h]

/-- On an open writer, `Add` reports exactly `addRecord`'s error. -/
theorem add_eq_addRecord (w : DBWriter) (key : Nat) (val : List Nat) (hopen : w.state = 0) :
    (w.Add key val).2 = (w.addRecord key val).2.2 := by
  unfold DBWriter.Add
  rw [if_neg (by rw [hopen]; exact fun hc => hc rfl)]

/-- `addRecord` never reports `ValueTooLarge` for a value within the
    actual bound `2^32 − 1`. -/
theorem addRecord_no_vtl_of_le (w : DBWriter) (key : Nat) (val : List Nat)
    (hlen : val.length ≤ 2 ^ 32 - 1) :
    (w.addRecord key val).2.2 ≠ some DBErr.valueTooLarge := by
  unfold DBWriter.addRecord
  rw [if_neg (by omega)]
  by_cases hdup : (lookupKey w.keymap key).isSome = true
  · rw [if_pos hdup]
    simp
  · rw [if_neg hdup]
    by_cases hpos : val.length > 0
    · rw [if_pos hpos]
      simp
    · rw [if_neg hpos]
      simp

/-- Counterexample to C6 as stated: a fresh writer does not reject a value
    of exactly `2^32 − 1` bytes, though the claim requires rejection there
    (`2^32 − 1 > 2^32 − 2`). -/
theorem C6_counterexample :
    ((newDBWriter (List.replicate 16 0)).Add 1 (List.replicate (2 ^ 32 - 1) 0)).2 ≠
        some DBErr.valueTooLarge ∧
      (2 ^ 32 - 1 : Nat) > 2 ^ 32 - 2 := by
  constructor
  · rw [add_eq_addRecord _ _ _ rfl]
    exact addRecord_no_vtl_of_le (newDBWriter (List.replicate 16 0)) 1
      (List.replicate (2 ^ 32 - 1) 0) (by rw [List.length_replicate])
  · decide

/-- Witness for C6: on a fresh writer, a `2^32` byte value is rejected and
    a 3-byte value is not. -/
theorem C6_witness :
    (newDBWriter (List.replicate 16 0)).state = 0 ∧
      (((newDBWriter (List.replicate 16 0)).Add 1 (List.replicate (2 ^ 32) 0)).2 =
          some DBErr.valueTooLarge ↔ (List.replicate (2 ^ 32) (0 : Nat)).length > 2 ^ 32 - 1) ∧
      (((newDBWriter (List.replicate 16 0)).Add 1 [10, 20, 30]).2 =
          some DBErr.valueTooLarge ↔ ([10, 20, 30] : List Nat).length > 2 ^ 32 - 1) := by
  refine ⟨rfl, ?_, ?_⟩
  · exact C6_value_too_large_iff (newDBWriter (List.replicate 16 0)) 1 (List.replicate (2 ^ 32) 0) rfl
  · exact C6_value_too_large_iff (newDBWriter (List.replicate 16 0)) 1 [10, 20, 30] rfl

/-! ## Bit-vector update semantics -/

theorem getD_set_list (l : List Nat) (i j : Nat) (a : Nat) :
    (l.set i a).getD j 0 = if i = j ∧ i < l.length then a else l.getD j 0 := by
  rw [List.getD_eq_getElem?_getD, List.getD_eq_getElem?_getD, List.getElem?_set]
  by_cases hij : i = j
  · subst hij
    by_cases hlen : i < l.length
    · simp [hlen]
    · rw [List.getElem?_eq_none (by omega)]
      simp [hlen]
  · simp [hij]

theorem isSet_new (sz j : Nat) : (newBitVector sz).IsSet j = false := by
  rw [isSet_eq_testBit]
  have h : (newBitVector sz).v.getD (j / 64) 0 = 0 := by
    unfold newBitVector
    rw [List.getD_eq_getElem?_getD]
    by_cases hlt : j / 64 < (sz + 63) / 64
    · rw [List.getElem?_replicate]
      simp [hlt]
    · rw [List.getElem?_eq_none (by simpa using hlt)]
      rfl
  rw [h]
  exact Nat.zero_testBit _

theorem isSet_set (b : bitVector) (i j : Nat) (hi : i < b.Size) :
    (b.Set i).IsSet j = (b.IsSet j || i == j) := by
  have hiw : i / 64 < b.v.length := by
    unfold bitVector.Size at hi
    omega
  rw [isSet_eq_testBit, isSet_eq_testBit]
  unfold bitVector.Set
  simp only []
  rw [getD_set_list]
  by_cases hw : i / 64 = j / 64
  · rw [if_pos ⟨hw, hiw⟩]
    rw [show (1 <<< (i % 64)) = 2 ^ (i % 64) from by rw [Nat.shiftLeft_eq, one_mul]]
    rw [Nat.testBit_or, Nat.testBit_two_pow]
    rw [hw]
    by_cases hr : i % 64 = j % 64
    · have : i = j := by omega
      simp [hr, this]
    · have : ¬ i = j := by
        intro hc
        exact hr (by rw [hc])
      simp [hr, this]
  · rw [if_neg (fun hc => hw hc.1)]
    have : ¬ i = j := fun hc => hw (by rw [hc])
    simp [this]

theorem merge_length (a o : bitVector) : (a.Merge o).v.length = a.v.length := by
  simp [bitVector.Merge]

theorem getD_map_range (n j : Nat) (f : Nat → Nat) :
    ((List.range n).map f).getD j 0 = if j < n then f j else 0 := by
  rw [List.getD_eq_getElem?_getD]
  by_cases hj : j < n
  · rw [List.getElem?_map]
    simp [List.getElem?_range hj, hj]
  · rw [List.getElem?_eq_none (by simpa using hj)]
    simp [hj]

theorem isSet_merge (a o : bitVector) (hlen : a.v.length = o.v.length) (j : Nat) :
    (a.Merge o).IsSet j = (a.IsSet j || o.IsSet j) := by
  rw [isSet_eq_testBit, isSet_eq_testBit, isSet_eq_testBit]
  unfold bitVector.Merge
  simp only []
  rw [getD_map_range]
  by_cases hj : j / 64 < a.v.length
  · rw [if_pos hj, Nat.testBit_or]
  · rw [if_neg hj]
    have ha : a.v.getD (j / 64) 0 = 0 := by
      rw [List.getD_eq_getElem?_getD, List.getElem?_eq_none (by omega)]
      rfl
    have ho : o.v.getD (j / 64) 0 = 0 := by
      rw [List.getD_eq_getElem?_getD, List.getElem?_eq_none (by omega)]
      rfl
    rw [ha, ho]
    simp [Nat.zero_testBit]

/-- The masked `rhash` value is below the (power-of-two) table size. -/
theorem rhash_lt (seed key sz salt : Nat) (h0 : 0 < sz) (h1 : sz ≤ U64) :
    rhash seed key sz salt < sz := by
  unfold rhash
  have hmask : (sz + (U64 - 1)) % U64 = sz - 1 := by
    have hU : 0 < U64 := by unfold U64; positivity
    have : sz + (U64 - 1) = (sz - 1) + U64 := by omega
    rw [this, Nat.add_mod_right]
    exact Nat.mod_eq_of_lt (by omega)
  rw [hmask]
  have := Nat.and_le_right (n := rhashFull seed key salt) (m := sz - 1)
  omega

/-! ## CHD greedy construction: specification -/

theorem trySeed_spec (occ : bitVector) (m salt s : Nat) (h0 : 0 < m) (h1 : m ≤ U64) :
    ∀ (bkeys : List Nat) (bOcc bOcc' : bitVector), m ≤ bOcc.Size →
      trySeed occ m salt s bkeys bOcc = some bOcc' →
      bOcc'.v.length = bOcc.v.length ∧
      (∀ j, bOcc'.IsSet j = (bOcc.IsSet j || bkeys.any (fun k => rhash s k m salt == j))) ∧
      (∀ k ∈ bkeys, occ.IsSet (rhash s k m salt) = false ∧ bOcc.IsSet (rhash s k m salt) = false) ∧
      List.Pairwise (fun k1 k2 => rhash s k1 m salt ≠ rhash s k2 m salt) bkeys := by
  intro bkeys
  induction bkeys with
  | nil =>
    intro bOcc bOcc' _ h
    unfold trySeed at h
    simp only [Option.some.injEq] at h
    refine ⟨by rw [← h], fun j => by simp [← h], fun k hk => absurd hk (List.not_mem_nil k), List.Pairwise.nil⟩
  | cons k rest ih =>
    intro bOcc bOcc' hsz h
    unfold trySeed at h
    by_cases hc : (occ.IsSet (rhash s k m salt) || bOcc.IsSet (rhash s k m salt)) = true
    · rw [if_pos hc] at h
      exact absurd h (by simp)
    · rw [if_neg hc] at h
      rw [Bool.or_eq_true] at hc
      push_neg at hc
      have hocc : occ.IsSet (rhash s k m salt) = false := Bool.eq_false_iff.mpr hc.1
      have hbocc : bOcc.IsSet (rhash s k m salt) = false := Bool.eq_false_iff.mpr hc.2
      have hp : rhash s k m salt < bOcc.Size := lt_of_lt_of_le (rhash_lt s k m salt h0 h1) hsz
      rcases ih (bOcc.Set (rhash s k m salt)) bOcc' (by rw [set_size]; exact hsz) h with
        ⟨hlen, hchar, hfree, hpw⟩
      refine ⟨by rw [hlen, set_length], ?_, ?_, ?_⟩
      · intro j
        rw [hchar j, isSet_set bOcc _ _ hp]
        simp only [List.any_cons]
        by_cases hj : rhash s k m salt = j
        · simp [hj]
        · have : (rhash s k m salt == j) = false := by
            simp [hj]
          rw [this]
          simp
      · intro k2 hk2
        rcases List.mem_cons.mp hk2 with he | hr
        · subst he
          exact ⟨hocc, hbocc⟩
        · rcases hfree k2 hr with ⟨ho2, hb2⟩
          rw [isSet_set bOcc _ _ hp] at hb2
          rcases Bool.or_eq_false_iff.mp hb2 with ⟨hb3, _⟩
          exact ⟨ho2, hb3⟩
      · refine List.Pairwise.cons ?_ hpw
        intro k2 hk2
        rcases hfree k2 hk2 with ⟨_, hb2⟩
        rw [isSet_set bOcc _ _ hp] at hb2
        rcases Bool.or_eq_false_iff.mp hb2 with ⟨_, hb4⟩
        intro hcontra
        rw [hcontra] at hb4
        simp at hb4

theorem findSeedFrom_spec (occ : bitVector) (m salt : Nat) (bkeys : List Nat) :
    ∀ (fuel s s' : Nat) (bOcc' : bitVector),
      findSeedFrom occ m salt bkeys s fuel = some (s', bOcc') →
      trySeed occ m salt s' bkeys (newBitVector m) = some bOcc' ∧ s ≤ s' ∧ s' < s + fuel := by
  intro fuel
  induction fuel with
  | zero => intro s s' bOcc' h; exact absurd h (by simp [findSeedFrom])
  | succ fuel ih =>
    intro s s' bOcc' h
    unfold findSeedFrom at h
    cases htry : trySeed occ m salt s bkeys (newBitVector m) with
    | some bOcc2 =>
      rw [htry] at h
      simp only [Option.some.injEq, Prod.mk.injEq] at h
      rw [← h.1, ← h.2]
      exact ⟨htry, le_refl s, by omega⟩
    | none =>
      rw [htry] at h
      rcases ih (s + 1) s' bOcc' h with ⟨ht, hs1, hs2⟩
      exact ⟨ht, by omega, by omega⟩

/-- The bucket loop invariant: a successful `chdAssign` run assigns every
    bucket a seed in `[1, _MaxSeed)`, recorded at the bucket's slot, whose
    key positions avoid the incoming occupancy and are globally pairwise
    distinct. -/
theorem chdAssign_spec (m salt : Nat) (h0 : 0 < m) (h1 : m ≤ U64) :
    ∀ (bl : List bucket) (occ : bitVector) (seeds0 : List Nat) (mx0 : Nat)
      (seeds' : List Nat) (mx' : Nat),
      chdAssign m salt bl occ seeds0 mx0 = some (seeds', mx') →
      occ.v.length = (m + 63) / 64 →
      (bl.map bucket.slot).Nodup →
      (∀ b ∈ bl, b.slot < seeds0.length) →
      seeds'.length = seeds0.length ∧
      mx0 ≤ mx' ∧
      (mx0 < _MaxSeed → mx' < _MaxSeed) ∧
      (∀ i, (∀ b ∈ bl, b.slot ≠ i) → seeds'.getD i 0 = seeds0.getD i 0) ∧
      (∀ b ∈ bl, 1 ≤ seeds'.getD b.slot 0 ∧ seeds'.getD b.slot 0 ≤ mx' ∧
        seeds'.getD b.slot 0 < _MaxSeed) ∧
      (∀ b ∈ bl, ∀ k ∈ b.keys,
        occ.IsSet (rhash (seeds'.getD b.slot 0) k m salt) = false) ∧
      (∀ b1 ∈ bl, ∀ b2 ∈ bl, ∀ k1 ∈ b1.keys, ∀ k2 ∈ b2.keys,
        b1 ≠ b2 ∨ k1 ≠ k2 →
        rhash (seeds'.getD b1.slot 0) k1 m salt ≠ rhash (seeds'.getD b2.slot 0) k2 m salt) := by
  intro bl
  induction bl with
  | nil =>
    intro occ seeds0 mx0 seeds' mx' h _ _ _
    unfold chdAssign at h
    simp only [Option.some.injEq, Prod.mk.injEq] at h
    rw [← h.1, ← h.2]
    exact ⟨rfl, le_refl _, fun hmx => hmx, fun i _ => rfl, by simp, by simp, by simp⟩
  | cons b rest ih =>
    intro occ seeds0 mx0 seeds' mx' h hocclen hnodup hslots
    unfold chdAssign at h
    cases hfind : findSeedFrom occ m salt b.keys 1 (_MaxSeed - 1) with
    | none => rw [hfind] at h; exact absurd h (by simp)
    | some pr =>
      rcases pr with ⟨s, bOcc⟩
      rw [hfind] at h
      dsimp only [] at h
      rcases findSeedFrom_spec occ m salt b.keys (_MaxSeed - 1) 1 s bOcc hfind with ⟨htry, hs1, hs2⟩
      have hsB : s < _MaxSeed := by
        have hms : 2 ≤ _MaxSeed := by decide
        omega
      rcases trySeed_spec occ m salt s h0 h1 b.keys (newBitVector m) bOcc
          (by unfold bitVector.Size; rw [newBitVector_length]; omega) htry with
        ⟨hblen, hbchar, hbfree, hbpw⟩
      have hbOcclen : bOcc.v.length = occ.v.length := by
        rw [hblen, newBitVector_length, hocclen]
      have hmergelen : (occ.Merge bOcc).v.length = (m + 63) / 64 := by
        rw [merge_length, hocclen]
      have hslots1 : ∀ b2 ∈ rest, b2.slot < (seeds0.set b.slot s).length := by
        intro b2 hb2
        rw [List.length_set]
        exact hslots b2 (List.mem_cons_of_mem b hb2)
      have hnodup1 : (rest.map bucket.slot).Nodup := (List.nodup_cons.mp hnodup).2
      have hbslotnotin : b.slot ∉ rest.map bucket.slot := (List.nodup_cons.mp hnodup).1
      rcases ih (occ.Merge bOcc) (seeds0.set b.slot s) (max mx0 s) seeds' mx' h hmergelen
          hnodup1 hslots1 with ⟨hlen, hmx, hmxB, huntouched, hassigned, hfresh, hinj⟩
      -- the final seed of bucket `b` is `s`
      have hbslot : seeds'.getD b.slot 0 = s := by
        rw [huntouched b.slot (fun b2 hb2 hc => hbslotnotin (hc ▸ List.mem_map_of_mem bucket.slot hb2))]
        rw [getD_set_list]
        rw [if_pos ⟨rfl, hslots b (List.mem_cons_self b rest)⟩]
      -- `bOcc` holds exactly the positions of `b`'s keys
      have hbOccIsSet : ∀ k ∈ b.keys, bOcc.IsSet (rhash s k m salt) = true := by
        intro k hk
        rw [hbchar]
        have : b.keys.any (fun k2 => rhash s k2 m salt == rhash s k m salt) = true := by
          rw [List.any_eq_true]
          exact ⟨k, hk, by simp⟩
        rw [this]
        simp
      -- fresh positions of the rest avoid `bOcc`
      have hrestAvoid : ∀ b2 ∈ rest, ∀ k2 ∈ b2.keys,
          bOcc.IsSet (rhash (seeds'.getD b2.slot 0) k2 m salt) = false := by
        intro b2 hb2 k2 hk2
        have h2 := hfresh b2 hb2 k2 hk2
        rw [isSet_merge occ bOcc hbOcclen.symm] at h2
        exact (Bool.or_eq_false_iff.mp h2).2
      refine ⟨by rw [hlen, List.length_set], by omega, fun hmx0B => hmxB (by omega), ?_, ?_, ?_, ?_⟩
      · intro i hi
        rw [huntouched i (fun b2 hb2 => hi b2 (List.mem_cons_of_mem b hb2))]
        rw [getD_set_list]
        rw [if_neg (fun hc => hi b (List.mem_cons_self b rest) hc.1)]
      · intro b2 hb2
        rcases List.mem_cons.mp hb2 with he | hr
        · subst he
          rw [hbslot]
          exact ⟨hs1, by omega, hsB⟩
        · exact hassigned b2 hr
      · intro b2 hb2 k2 hk2
        rcases List.mem_cons.mp hb2 with he | hr
        · subst he
          rw [hbslot]
          exact (hbfree k2 hk2).1
        · have h2 := hfresh b2 hr k2 hk2
          rw [isSet_merge occ bOcc hbOcclen.symm] at h2
          exact (Bool.or_eq_false_iff.mp h2).1
      · intro b1 hb1 b2 hb2 k1 hk1 k2 hk2 hne
        rcases List.mem_cons.mp hb1 with he1 | hr1 <;> rcases List.mem_cons.mp hb2 with he2 | hr2
        · -- both are the head bucket: within-bucket distinctness
          subst he1; subst he2
          have hk12 : k1 ≠ k2 := by
            rcases hne with hc | hc
            · exact absurd rfl hc
            · exact hc
          rw [hbslot]
          have hsymm : Symmetric (fun k1 k2 => rhash s k1 m salt ≠ rhash s k2 m salt) :=
            fun a b hab => (Ne.symm hab)
          exact List.Pairwise.forall hsymm hbpw hk1 hk2 hk12
        · -- head vs rest: the rest's positions avoid bOcc, which holds k1's
          subst he1
          rw [hbslot]
          intro hcontra
          have hin := hbOccIsSet k1 hk1
          rw [hcontra] at hin
          rw [hrestAvoid b2 hr2 k2 hk2] at hin
          exact Bool.false_ne_true hin
        · -- rest vs head: symmetric
          subst he2
          rw [hbslot]
          intro hcontra
          have hin := hbOccIsSet k2 hk2
          rw [← hcontra] at hin
          rw [hrestAvoid b1 hr1 k1 hk1] at hin
          exact Bool.false_ne_true hin
        · exact hinj b1 hr1 b2 hr2 k1 hk1 k2 hk2 hne

/-! ## CHD bucket structure and seed packing -/

theorem insertBucket_perm (b : bucket) (l : List bucket) : (insertBucket b l).Perm (b :: l) := by
  induction l with
  | nil => exact List.Perm.refl _
  | cons c rest ih =>
    unfold insertBucket
    by_cases hc : b.keys.length ≤ c.keys.length
    · rw [if_pos hc]
      exact (List.Perm.cons c ih).trans (List.Perm.swap b c rest)
    · rw [if_neg hc]

theorem sortBuckets_perm (bs : List bucket) : (sortBuckets bs).Perm bs := by
  induction bs with
  | nil => exact List.Perm.refl _
  | cons b rest ih =>
    have h1 : sortBuckets (b :: rest) = insertBucket b (sortBuckets rest) := rfl
    rw [h1]
    exact (insertBucket_perm b (sortBuckets rest)).trans (List.Perm.cons b ih)

theorem chdBuckets_slots (salt m : Nat) (keys : List Nat) :
    (chdBuckets salt m keys).map bucket.slot = List.range m := by
  unfold chdBuckets
  rw [List.map_map]
  have hcomp : (bucket.slot ∘ fun i => (⟨i, keys.filter (fun k => rhash 0 k m salt == i)⟩ : bucket)) = id := by
    funext i
    rfl
  rw [hcomp, List.map_id]

theorem chdBuckets_mem (salt m : Nat) (keys : List Nat) (b : bucket) :
    b ∈ chdBuckets salt m keys ↔
      b.slot < m ∧ b = ⟨b.slot, keys.filter (fun k => rhash 0 k m salt == b.slot)⟩ := by
  unfold chdBuckets
  rw [List.mem_map]
  constructor
  · rintro ⟨i, hi, hb⟩
    rw [List.mem_range] at hi
    rw [← hb]
    exact ⟨hi, rfl⟩
  · rintro ⟨hlt, hb⟩
    exact ⟨b.slot, List.mem_range.mpr hlt, hb.symm⟩

theorem getD_map_zero (s : List Nat) (f : Nat → Nat) (hf : f 0 = 0) (i : Nat) :
    (s.map f).getD i 0 = f (s.getD i 0) := by
  rw [List.getD_eq_getElem?_getD, List.getD_eq_getElem?_getD, List.getElem?_map]
  cases h : s[i]? with
  | none => simp [hf]
  | some x => simp

theorem makeSeeds_length (s : List Nat) (mx : Nat) : (makeSeeds s mx).seeds.length = s.length := by
  unfold makeSeeds
  by_cases h1 : mx < 256
  · rw [if_pos h1]
    exact List.length_map s _
  · rw [if_neg h1]
    by_cases h2 : mx < 65536
    · rw [if_pos h2]
      exact List.length_map s _
    · rw [if_neg h2]

/-- Seed packing is lossless: the chosen width always holds the seeds. -/
theorem makeSeeds_seedAt (s : List Nat) (mx : Nat) (helem : ∀ x ∈ s, x ≤ mx) (i : Nat) :
    (makeSeeds s mx).seedAt i = s.getD i 0 := by
  have hval : ∀ c : Nat, mx < c → s.getD i 0 % c = s.getD i 0 := by
    intro c hc
    apply Nat.mod_eq_of_lt
    rw [List.getD_eq_getElem?_getD]
    cases h : s[i]? with
    | none => simp; omega
    | some x =>
      have hx : x ∈ s := List.getElem?_mem h
      have := helem x hx
      simp
      omega
  unfold makeSeeds seeder.seedAt
  by_cases h1 : mx < 256
  · rw [if_pos h1]
    simp only []
    rw [getD_map_zero s _ (by omega) i]
    exact hval 256 h1
  · rw [if_neg h1]
    by_cases h2 : mx < 65536
    · rw [if_pos h2]
      simp only []
      rw [getD_map_zero s _ (by omega) i]
      exact hval 65536 h2
    · rw [if_neg h2]

/-- The full specification of a successful CHD `Freeze`: the table length
    is `m = nextpow2(⌊n/load⌋)`; every key (original or not) is reported
    found with an index `< m`; and on the construction keys the index map
    is injective. -/
theorem chdFreeze_spec (salt : Nat) (load : ℚ) (keys : List Nat) (c : chd)
    (h : chdFreeze salt load keys = some c)
    (hm0 : 0 < chdTableSize load keys.length)
    (hm1 : chdTableSize load keys.length ≤ U64) :
    c.Len = chdTableSize load keys.length ∧
      (∀ k, (c.Find k).2 = true ∧ (c.Find k).1 < chdTableSize load keys.length) ∧
      (∀ k1 ∈ keys, ∀ k2 ∈ keys, k1 ≠ k2 → (c.Find k1).1 ≠ (c.Find k2).1) := by
  unfold chdFreeze at h
  generalize chdTableSize load keys.length = m at h hm0 hm1 ⊢
  dsimp only [] at h
  rw [Option.map_eq_some'] at h
  obtain ⟨⟨seeds', mx'⟩, hassign, h⟩ := h
  dsimp only [] at h
  · have hperm : (sortBuckets (chdBuckets salt m keys)).Perm (chdBuckets salt m keys) :=
      sortBuckets_perm _
    have hnodup : ((sortBuckets (chdBuckets salt m keys)).map bucket.slot).Nodup := by
      refine (List.Perm.nodup_iff (List.Perm.map bucket.slot hperm)).mpr ?_
      rw [chdBuckets_slots]
      exact List.nodup_range m
    have hslots : ∀ b ∈ sortBuckets (chdBuckets salt m keys), b.slot < (List.replicate m 0).length := by
      intro b hb
      rw [List.length_replicate]
      exact ((chdBuckets_mem salt m keys b).mp (hperm.mem_iff.mp hb)).1
    rcases chdAssign_spec m salt hm0 hm1 (sortBuckets (chdBuckets salt m keys)) (newBitVector m)
        (List.replicate m 0) 0 seeds' mx' hassign (newBitVector_length m) hnodup hslots with
      ⟨hlen, _, hmxB, _, hassigned, _, hinj⟩
    have hlenm : seeds'.length = m := by rw [hlen, List.length_replicate]
    -- every slot is some bucket's slot, so every seed element is bounded
    have hbucketOf : ∀ i, i < m → ∃ b ∈ sortBuckets (chdBuckets salt m keys),
        b.slot = i ∧ b.keys = keys.filter (fun k => rhash 0 k m salt == i) := by
      intro i hi
      refine ⟨⟨i, keys.filter (fun k => rhash 0 k m salt == i)⟩, ?_, rfl, rfl⟩
      exact hperm.mem_iff.mpr ((chdBuckets_mem salt m keys _).mpr ⟨hi, rfl⟩)
    have helem : ∀ x ∈ seeds', x ≤ mx' := by
      intro x hx
      rcases List.mem_iff_getElem.mp hx with ⟨i, hilt, hieq⟩
      rcases hbucketOf i (by omega) with ⟨b, hb, hbslot, _⟩
      have := (hassigned b hb).2.1
      rw [hbslot] at this
      rw [List.getD_eq_getElem seeds' 0 hilt, hieq] at this
      exact this
    -- `Find` in terms of the raw seed table
    have hL : (makeSeeds seeds' mx').length = m := by
      unfold seeder.length
      rw [makeSeeds_length]
      exact hlenm
    have hfind : ∀ k, c.Find k =
        (rhash (seeds'.getD (rhash 0 k m salt) 0) k m salt, true) := by
      intro k
      rw [← h]
      unfold chd.Find
      dsimp only []
      rw [hL, makeSeeds_seedAt seeds' mx' helem]
    -- the bucket holding key k has slot rhash 0 k m salt
    have hkeybucket : ∀ k ∈ keys, ∃ b ∈ sortBuckets (chdBuckets salt m keys),
        b.slot = rhash 0 k m salt ∧ k ∈ b.keys := by
      intro k hk
      rcases hbucketOf (rhash 0 k m salt) (rhash_lt 0 k m salt hm0 hm1) with ⟨b, hb, hbslot, hbkeys⟩
      refine ⟨b, hb, hbslot, ?_⟩
      rw [hbkeys]
      rw [List.mem_filter]
      exact ⟨hk, by simp⟩
    refine ⟨?_, ?_, ?_⟩
    · rw [← h]
      unfold chd.Len
      exact (makeSeeds_length seeds' mx').trans hlenm
    · intro k
      rw [hfind k]
      exact ⟨rfl, rhash_lt _ k m salt hm0 hm1⟩
    · intro k1 hk1 k2 hk2 hne
      rcases hkeybucket k1 hk1 with ⟨b1, hb1, hslot1, hkin1⟩
      rcases hkeybucket k2 hk2 with ⟨b2, hb2, hslot2, hkin2⟩
      rw [hfind k1, hfind k2]
      simp only []
      rw [← hslot1, ← hslot2]
      exact hinj b1 hb1 b2 hb2 k1 hkin1 k2 hkin2 (Or.inr hne)

/-- C7: calling `DBWriter.Add` on an open writer with a key that is already
    present (and a value of admissible length) returns the `Exists` error and
    leaves the writer completely unchanged — the returned writer is exactly
    the input writer, so no bytes are appended, the offset does not advance,
    and the key map and builder key list keep only the first entry; a
    subsequent `Freeze` (CHD- or BBHash-backed, any page size, MPH salt and
    load/gamma) therefore produces the same DB file as if the duplicate
    `Add` had never happened, with a single record for that key. -/
theorem C7_duplicate_add_unchanged (w : DBWriter) (key : Nat) (val : List Nat)
    (hopen : w.state = 0)
    (hdup : (lookupKey w.keymap key).isSome = true)
    (hlen : val.length ≤ 2 ^ 32 - 1) :
    w.Add key val = (w, some DBErr.keyExists) ∧
      (∀ pgsz mphSalt load, dbFreezeChd (w.Add key val).1 pgsz mphSalt load
          = dbFreezeChd w pgsz mphSalt load) ∧
      (∀ pgsz mphSalt g, dbFreezeBB (w.Add key val).1 pgsz mphSalt g
          = dbFreezeBB w pgsz mphSalt g) := by
  have hAdd : w.Add key val = (w, some DBErr.keyExists) := by
    unfold DBWriter.Add
    rw [if_neg (not_not_intro hopen)]
    dsimp only []
    unfold DBWriter.addRecord
    rw [if_neg (not_lt.mpr hlen), if_pos hdup]
  refine ⟨hAdd, ?_, ?_⟩
  · intro pgsz mphSalt load
    rw [hAdd]
  · intro pgsz mphSalt g
    rw [hAdd]

/-- A concrete writer holding key 5: a fresh writer after `Add 5 [97]`. -/
def c7writer : DBWriter := ((newDBWriter (List.replicate 16 0)).Add 5 [97]).1

theorem C7_witness :
    c7writer.state = 0 ∧
      (lookupKey c7writer.keymap 5).isSome = true ∧
      ([98] : List Nat).length ≤ 2 ^ 32 - 1 ∧
      (c7writer.Add 5 [98] = (c7writer, some DBErr.keyExists) ∧
        (∀ pgsz mphSalt load, dbFreezeChd (c7writer.Add 5 [98]).1 pgsz mphSalt load
            = dbFreezeChd c7writer pgsz mphSalt load) ∧
        (∀ pgsz mphSalt g, dbFreezeBB (c7writer.Add 5 [98]).1 pgsz mphSalt g
            = dbFreezeBB c7writer pgsz mphSalt g)) :=
  ⟨by decide, by decide, by decide,
    C7_duplicate_add_unchanged c7writer 5 [98] (by decide) (by decide) (by decide)⟩

/-- A writer over three keys whose middle value is empty while the others
    are not (the keys make the CHD greedy succeed with table size 4). -/
def c2writer : DBWriter :=
  (((((newDBWriter (List.replicate 16 0)).Add 0xe91360642d6f4547 [97, 98]).1).Add
      0x5c6f5d775eef1260 []).1.Add 0x47610f361672b321 [120, 121, 122]).1

/-- The frozen CHD-backed DB file of `c2writer` (page size 64, MPH salt 0,
    load 1). -/
def c2file : List Nat := (dbFreezeChd c2writer 64 0 1).getD []

set_option maxRecDepth 40000 in
/-- C2 (code bug): the DB round-trip fails for an empty value stored among
    non-empty ones.  All three `Add` calls succeed (the middle one with the
    empty value), the freeze produces a file the reader opens, and the two
    non-empty values round-trip — but `Find` on the key whose value is empty
    returns the corrupt-record error instead of the empty value: `addRecord`
    records an offset/length for the key yet writes no record bytes for it,
    so `decodeRecord` reads whatever bytes sit at that offset (here the next
    record) and the siphash check fails. -/
theorem C2_empty_value_breaks_roundtrip :
    ((((newDBWriter (List.replicate 16 0)).Add 0xe91360642d6f4547 [97, 98]).1).Add
        0x5c6f5d775eef1260 []).2 = none ∧
      (newDBReader c2file).isSome = true ∧
      (newDBReader c2file).map (fun rd => rd.Find c2file 0xe91360642d6f4547)
          = some (.ok [97, 98]) ∧
      (newDBReader c2file).map (fun rd => rd.Find c2file 0x47610f361672b321)
          = some (.ok [120, 121, 122]) ∧
      (newDBReader c2file).map (fun rd => rd.Find c2file 0x5c6f5d775eef1260)
          = some (.error .corruptRecord) := by
  exact ⟨rfl, rfl, rfl, rfl, rfl⟩

/-! ## Marshalling round-trips -/

theorem toLEBytes_length (w x : Nat) : (toLEBytes w x).length = w := by
  induction w generalizing x with
  | zero => rfl
  | succ w ih =>
    unfold toLEBytes
    rw [List.length_cons, ih]

theorem fromLEBytes_toLEBytes (w x : Nat) (h : x < 256 ^ w) :
    fromLEBytes (toLEBytes w x) = x := by
  induction w generalizing x with
  | zero =>
    interval_cases x
    rfl
  | succ w ih =>
    unfold toLEBytes fromLEBytes
    rw [ih (x / 256) (by rw [pow_succ] at h; omega)]
    omega

theorem uintsToBytes_length (w : Nat) (xs : List Nat) :
    (uintsToBytes w xs).length = xs.length * w := by
  induction xs with
  | nil => simp [uintsToBytes]
  | cons x xs ih =>
    unfold uintsToBytes at ih ⊢
    rw [List.map_cons, List.flatten_cons, List.length_append, ih, toLEBytes_length,
      List.length_cons]
    ring

theorem uintsToBytes_cons (w x : Nat) (xs : List Nat) :
    uintsToBytes w (x :: xs) = toLEBytes w x ++ uintsToBytes w xs := by
  unfold uintsToBytes
  rw [List.map_cons, List.flatten_cons]

theorem bytesToUintsAux_step (w fuel : Nat) (bs : List Nat) (hw : 0 < w)
    (hlen : w ≤ bs.length) :
    bytesToUintsAux w (fuel + 1) bs
      = fromLEBytes (bs.take w) :: bytesToUintsAux w fuel (bs.drop w) := by
  show (if w = 0 ∨ bs.length < w then []
    else fromLEBytes (bs.take w) :: bytesToUintsAux w fuel (bs.drop w)) = _
  rw [if_neg (by omega)]

theorem bytesToUintsAux_nil (w fuel : Nat) (hw : 0 < w) :
    bytesToUintsAux w fuel [] = [] := by
  cases fuel with
  | zero => rfl
  | succ f =>
    unfold bytesToUintsAux
    rw [if_pos (Or.inr (by simpa using hw))]

theorem bytesToUintsAux_front (w : Nat) (hw : 0 < w) (xs : List Nat) :
    ∀ (rest : List Nat) (fuel : Nat), (∀ x ∈ xs, x < 256 ^ w) → xs.length ≤ fuel →
      bytesToUintsAux w fuel (uintsToBytes w xs ++ rest)
        = xs ++ bytesToUintsAux w (fuel - xs.length) rest := by
  induction xs with
  | nil =>
    intro rest fuel _ _
    rw [show uintsToBytes w [] = [] from rfl, List.nil_append, List.nil_append,
      List.length_nil, Nat.sub_zero]
  | cons x xs ih =>
    intro rest fuel hb hf
    rw [List.length_cons] at hf
    obtain ⟨f, rfl⟩ : ∃ f, fuel = f + 1 := ⟨fuel - 1, by omega⟩
    rw [uintsToBytes_cons, List.append_assoc]
    have hlen : (toLEBytes w x ++ (uintsToBytes w xs ++ rest)).length = w + (uintsToBytes w xs ++ rest).length := by
      rw [List.length_append, toLEBytes_length]
    rw [bytesToUintsAux_step w f _ hw (by omega)]
    have htake : (toLEBytes w x ++ (uintsToBytes w xs ++ rest)).take w = toLEBytes w x := by
      rw [List.take_append_of_le_length (by rw [toLEBytes_length]),
        List.take_of_length_le (by rw [toLEBytes_length])]
    have hdrop : (toLEBytes w x ++ (uintsToBytes w xs ++ rest)).drop w = uintsToBytes w xs ++ rest := by
      rw [List.drop_append_of_le_length (by rw [toLEBytes_length]),
        List.drop_of_length_le (by rw [toLEBytes_length]), List.nil_append]
    rw [htake, hdrop, fromLEBytes_toLEBytes w x (hb x (List.mem_cons_self x xs)),
      ih rest f (fun y hy => hb y (List.mem_cons_of_mem x hy)) (by omega),
      List.cons_append, List.length_cons]
    have heq : f + 1 - (xs.length + 1) = f - xs.length := by omega
    rw [heq]

theorem bytesToUints_append (w : Nat) (hw : 0 < w) (xs rest : List Nat)
    (hb : ∀ x ∈ xs, x < 256 ^ w) :
    bytesToUints w (uintsToBytes w xs ++ rest)
      = xs ++ bytesToUintsAux w ((uintsToBytes w xs ++ rest).length - xs.length) rest := by
  unfold bytesToUints
  rw [bytesToUintsAux_front w hw xs rest _ hb
    (by rw [List.length_append, uintsToBytes_length]; nlinarith)]

theorem bytesToUints_exact (w : Nat) (hw : 0 < w) (xs : List Nat)
    (hb : ∀ x ∈ xs, x < 256 ^ w) :
    bytesToUints w (uintsToBytes w xs) = xs := by
  have h := bytesToUints_append w hw xs [] hb
  rw [List.append_nil] at h
  rw [h, bytesToUintsAux_nil w _ hw, List.append_nil]

theorem bvWF_new (sz : Nat) : bvWF (newBitVector sz) := by
  intro w hw
  rw [List.eq_of_mem_replicate hw]
  unfold U64
  positivity

theorem bvWF_reset (b : bitVector) : bvWF b.Reset := by
  intro w hw
  rw [List.eq_of_mem_replicate hw]
  unfold U64
  positivity

theorem bvWF_getD (b : bitVector) (h : bvWF b) (i : Nat) : b.v.getD i 0 < U64 := by
  rw [List.getD_eq_getElem?_getD]
  cases hg : b.v[i]? with
  | none => unfold U64; positivity
  | some x => exact h x (List.getElem?_mem hg)

theorem bvWF_set (b : bitVector) (i : Nat) (h : bvWF b) : bvWF (b.Set i) := by
  intro w hw
  rcases List.mem_or_eq_of_mem_set hw with hmem | rfl
  · exact h w hmem
  · have h1 : b.v.getD (i / 64) 0 < U64 := bvWF_getD b h _
    have h2 : 1 <<< (i % 64) < U64 := by
      rw [Nat.shiftLeft_eq, one_mul]
      exact Nat.pow_lt_pow_right (by norm_num) (Nat.mod_lt _ (by norm_num))
    exact Nat.or_lt_two_pow h1 h2

theorem bvWF_assign (salt lvl : Nat) : ∀ (keys : List Nat) (A coll : bitVector)
    (redo : List Nat), bvWF A → bvWF (bbAssign salt lvl keys A coll redo).1 := by
  intro keys
  induction keys with
  | nil => intro A coll redo hA; exact hA
  | cons k rest ih =>
    intro A coll redo hA
    unfold bbAssign
    by_cases hc : coll.IsSet (bhash k salt lvl % A.Size) = true
    · rw [if_pos hc]
      exact ih A coll (redo ++ [k]) hA
    · rw [if_neg hc]
      exact ih _ coll redo (bvWF_set A _ hA)

theorem bvWF_levelVec (salt lvl szA : Nat) (keys : List Nat) :
    bvWF (bbLevelVec salt lvl szA keys) := by
  unfold bbLevelVec
  exact bvWF_assign salt lvl keys _ _ [] (bvWF_reset _)

theorem unmarshalBitVector_append (v rest : List Nat)
    (h1 : 0 < v.length) (h2 : v.length ≤ 2 ^ 32) (hwf : ∀ x ∈ v, x < U64) :
    unmarshalBitVector ((toLEBytes 8 v.length ++ uintsToBytes 8 v) ++ rest)
        = some (⟨v⟩, 8 + v.length * 8) ∧
      ((toLEBytes 8 v.length ++ uintsToBytes 8 v) ++ rest).drop (8 + v.length * 8)
        = rest := by
  have hwf8 : ∀ x ∈ v, x < 256 ^ 8 := by
    intro x hx
    have := hwf x hx
    unfold U64 at this
    omega
  rw [List.append_assoc]
  have hbuflen : (toLEBytes 8 v.length ++ (uintsToBytes 8 v ++ rest)).length
      = 8 + (v.length * 8 + rest.length) := by
    rw [List.length_append, List.length_append, toLEBytes_length, uintsToBytes_length]
  have htake8 : (toLEBytes 8 v.length ++ (uintsToBytes 8 v ++ rest)).take 8
      = toLEBytes 8 v.length := by
    have := List.take_left (toLEBytes 8 v.length) (uintsToBytes 8 v ++ rest)
    rwa [toLEBytes_length] at this
  have hdrop8 : (toLEBytes 8 v.length ++ (uintsToBytes 8 v ++ rest)).drop 8
      = uintsToBytes 8 v ++ rest := by
    have := List.drop_left (toLEBytes 8 v.length) (uintsToBytes 8 v ++ rest)
    rwa [toLEBytes_length] at this
  have hfrom : fromLEBytes (toLEBytes 8 v.length) = v.length :=
    fromLEBytes_toLEBytes 8 v.length (by norm_num; omega)
  constructor
  · unfold unmarshalBitVector
    rw [if_neg (by omega)]
    dsimp only []
    rw [htake8, hfrom, if_neg (by omega), if_neg (by omega), hdrop8,
      bytesToUints_append 8 (by norm_num) v rest hwf8]
    rw [List.take_left v _]
  · have hstep : ∀ i, (toLEBytes 8 v.length ++ (uintsToBytes 8 v ++ rest)).drop (8 + i)
        = (uintsToBytes 8 v ++ rest).drop i := by
      intro i
      have := @List.drop_append _ (toLEBytes 8 v.length) (uintsToBytes 8 v ++ rest) i
      rwa [toLEBytes_length] at this
    rw [hstep (v.length * 8)]
    have := List.drop_left (uintsToBytes 8 v) rest
    rwa [uintsToBytes_length] at this

theorem unmarshalBitVector_marshal (b : bitVector) (rest : List Nat)
    (h1 : 0 < b.v.length) (h2 : b.v.length ≤ 2 ^ 32) (hwf : bvWF b) :
    unmarshalBitVector (b.marshalBytes ++ rest) = some (b, 8 + b.v.length * 8) ∧
      (b.marshalBytes ++ rest).drop (8 + b.v.length * 8) = rest := by
  have h := unmarshalBitVector_append b.v rest h1 h2 hwf
  rwa [show toLEBytes 8 b.v.length ++ uintsToBytes 8 b.v = b.marshalBytes from rfl] at h

theorem unmarshalBVs_marshal (bvs : List bitVector)
    (h : ∀ b ∈ bvs, 0 < b.v.length ∧ b.v.length ≤ 2 ^ 32 ∧ bvWF b) :
    unmarshalBVs bvs.length (bvs.map bitVector.marshalBytes).flatten = some bvs := by
  induction bvs with
  | nil => rfl
  | cons b bvs ih =>
    rw [List.map_cons, List.flatten_cons, List.length_cons]
    show (unmarshalBitVector (b.marshalBytes ++ (bvs.map bitVector.marshalBytes).flatten)).bind _
      = some (b :: bvs)
    rcases h b (List.mem_cons_self b bvs) with ⟨hb1, hb2, hb3⟩
    rcases unmarshalBitVector_marshal b ((bvs.map bitVector.marshalBytes).flatten) hb1 hb2 hb3
      with ⟨hparse, hdrop⟩
    rw [hparse, Option.some_bind]
    dsimp only []
    rw [hdrop, ih (fun x hx => h x (List.mem_cons_of_mem b hx)), Option.map_some']

theorem uintsToBytes_one (xs : List Nat) (h : ∀ x ∈ xs, x < 256) :
    uintsToBytes 1 xs = xs := by
  induction xs with
  | nil => rfl
  | cons x xs ih =>
    rw [uintsToBytes_cons, ih (fun y hy => h y (List.mem_cons_of_mem x hy))]
    show [x % 256] ++ xs = x :: xs
    rw [Nat.mod_eq_of_lt (h x (List.mem_cons_self x xs))]
    rfl

theorem newChd_marshal (c : chd)
    (hsz : c.seed.ssize = 1 ∨ c.seed.ssize = 2 ∨ c.seed.ssize = 4)
    (hn : c.seed.seeds.length < 2 ^ 32)
    (hsalt : c.salt < U64)
    (helem : ∀ x ∈ c.seed.seeds, x < 256 ^ c.seed.ssize) :
    newChd c.marshalBytes = some c := by
  have hsalt8 : c.salt < 256 ^ 8 := by
    unfold U64 at hsalt
    omega
  have hbody : c.seed.marshalBytes = uintsToBytes c.seed.ssize c.seed.seeds := rfl
  have hblen : c.seed.marshalBytes.length = c.seed.seeds.length * c.seed.ssize := by
    rw [hbody, uintsToBytes_length]
  have hY : (toLEBytes 4 c.seed.length ++ toLEBytes 8 c.salt).length = 12 := by
    rw [List.length_append, toLEBytes_length, toLEBytes_length]
  have hbuf : c.marshalBytes = 1 :: c.seed.ssize :: 0 :: 0 ::
      ((toLEBytes 4 c.seed.length ++ toLEBytes 8 c.salt) ++ c.seed.marshalBytes) := rfl
  have hlen : c.marshalBytes.length = 16 + c.seed.seeds.length * c.seed.ssize := by
    rw [hbuf]
    simp only [List.length_cons, List.length_append]
    rw [toLEBytes_length, toLEBytes_length, hblen]
    omega
  have htake : c.marshalBytes.take 16 = 1 :: c.seed.ssize :: 0 :: 0 ::
      (toLEBytes 4 c.seed.length ++ toLEBytes 8 c.salt) := by
    rw [hbuf]
    show 1 :: c.seed.ssize :: 0 :: 0 ::
        ((toLEBytes 4 c.seed.length ++ toLEBytes 8 c.salt) ++ c.seed.marshalBytes).take 12 = _
    have := List.take_left (toLEBytes 4 c.seed.length ++ toLEBytes 8 c.salt) c.seed.marshalBytes
    rw [hY] at this
    rw [this]
  have hdropb : c.marshalBytes.drop 16 = c.seed.marshalBytes := by
    rw [hbuf]
    show ((toLEBytes 4 c.seed.length ++ toLEBytes 8 c.salt) ++ c.seed.marshalBytes).drop 12 = _
    have := List.drop_left (toLEBytes 4 c.seed.length ++ toLEBytes 8 c.salt) c.seed.marshalBytes
    rw [hY] at this
    rw [this]
  have hslen : c.seed.length = c.seed.seeds.length := rfl
  have hhdr4 : (1 :: c.seed.ssize :: 0 :: 0 ::
      (toLEBytes 4 c.seed.length ++ toLEBytes 8 c.salt) : List Nat).drop 4
      = toLEBytes 4 c.seed.length ++ toLEBytes 8 c.salt := rfl
  have hhdr8 : (1 :: c.seed.ssize :: 0 :: 0 ::
      (toLEBytes 4 c.seed.length ++ toLEBytes 8 c.salt) : List Nat).drop 8
      = (toLEBytes 4 c.seed.length ++ toLEBytes 8 c.salt).drop 4 := rfl
  have hN : fromLEBytes (((1 :: c.seed.ssize :: 0 :: 0 ::
      (toLEBytes 4 c.seed.length ++ toLEBytes 8 c.salt) : List Nat).drop 4).take 4)
      = c.seed.seeds.length := by
    rw [hhdr4]
    have ht := List.take_left (toLEBytes 4 c.seed.length) (toLEBytes 8 c.salt)
    rw [toLEBytes_length] at ht
    rw [ht, hslen]
    exact fromLEBytes_toLEBytes 4 _ (by norm_num; omega)
  have hS : fromLEBytes (((1 :: c.seed.ssize :: 0 :: 0 ::
      (toLEBytes 4 c.seed.length ++ toLEBytes 8 c.salt) : List Nat).drop 8).take 8)
      = c.salt := by
    rw [hhdr8]
    have hd := List.drop_left (toLEBytes 4 c.seed.length) (toLEBytes 8 c.salt)
    rw [toLEBytes_length] at hd
    rw [hd, List.take_of_length_le (by rw [toLEBytes_length])]
    exact fromLEBytes_toLEBytes 8 _ hsalt8
  unfold newChd
  rw [if_neg (by rw [hlen]; omega)]
  dsimp only []
  rw [htake, hdropb, hN, hS]
  rw [show ((1 : Nat) :: c.seed.ssize :: 0 :: 0 ::
    (toLEBytes 4 c.seed.length ++ toLEBytes 8 c.salt)).getD 0 0 = 1 from rfl]
  rw [if_neg (by omega)]
  rw [show ((1 : Nat) :: c.seed.ssize :: 0 :: 0 ::
    (toLEBytes 4 c.seed.length ++ toLEBytes 8 c.salt)).getD 1 0 = c.seed.ssize from rfl]
  rw [if_neg (by rw [hblen]; omega)]
  rw [List.take_of_length_le (by rw [hblen]), hbody]
  rcases hsz with hs | hs | hs
  · rw [hs]
    rw [if_pos rfl]
    rw [uintsToBytes_one c.seed.seeds (by intro x hx; have := helem x hx; rw [hs] at this; simpa using this)]
    rw [Option.some_bind]
    rw [if_neg (by rw [show (⟨1, c.seed.seeds⟩ : seeder).length = c.seed.seeds.length from rfl]; omega)]
    rw [show (⟨1, c.seed.seeds⟩ : seeder) = c.seed from by rw [← hs]]
  · rw [hs]
    rw [if_neg (by omega), if_pos rfl]
    rw [if_neg (by rw [uintsToBytes_length]; omega)]
    rw [bytesToUints_exact 2 (by norm_num) c.seed.seeds
      (by intro x hx; have := helem x hx; rwa [hs] at this)]
    rw [Option.some_bind]
    rw [if_neg (by rw [show (⟨2, c.seed.seeds⟩ : seeder).length = c.seed.seeds.length from rfl]; omega)]
    rw [show (⟨2, c.seed.seeds⟩ : seeder) = c.seed from by rw [← hs]]
  · rw [hs]
    rw [if_neg (by omega), if_neg (by omega), if_pos rfl]
    rw [if_neg (by rw [uintsToBytes_length]; omega)]
    rw [bytesToUints_exact 4 (by norm_num) c.seed.seeds
      (by intro x hx; have := helem x hx; rwa [hs] at this)]
    rw [Option.some_bind]
    rw [if_neg (by rw [show (⟨4, c.seed.seeds⟩ : seeder).length = c.seed.seeds.length from rfl]; omega)]
    rw [show (⟨4, c.seed.seeds⟩ : seeder) = c.seed from by rw [← hs]]

theorem newBBHash_marshal (bb : bbHash)
    (hne : bb.bits ≠ [])
    (hlev : bb.bits.length ≤ _MaxLevel)
    (hsalt : bb.salt < U64)
    (h : ∀ b ∈ bb.bits, 0 < b.v.length ∧ b.v.length ≤ 2 ^ 32 ∧ bvWF b) :
    newBBHash bb.marshalBytes
      = some ⟨bb.bits, preComputeRank bb.bits, bb.salt, 0, 0⟩ := by
  have hpos : 0 < bb.bits.length := List.length_pos.mpr hne
  have hsalt8 : bb.salt < 256 ^ 8 := by
    unfold U64 at hsalt
    omega
  have hML : _MaxLevel = 4000 := rfl
  have hY : (toLEBytes 4 bb.bits.length ++ toLEBytes 8 bb.salt).length = 12 := by
    rw [List.length_append, toLEBytes_length, toLEBytes_length]
  have hbuf : bb.marshalBytes = 1 :: 0 :: 0 :: 0 ::
      ((toLEBytes 4 bb.bits.length ++ toLEBytes 8 bb.salt)
        ++ (bb.bits.map bitVector.marshalBytes).flatten) := rfl
  have hlen : 16 ≤ bb.marshalBytes.length := by
    rw [hbuf]
    simp only [List.length_cons, List.length_append]
    rw [toLEBytes_length, toLEBytes_length]
    omega
  have hd4 : bb.marshalBytes.drop 4 = (toLEBytes 4 bb.bits.length ++ toLEBytes 8 bb.salt)
      ++ (bb.bits.map bitVector.marshalBytes).flatten := by
    rw [hbuf]
    rfl
  have hN : fromLEBytes ((bb.marshalBytes.drop 4).take 4) = bb.bits.length := by
    rw [hd4, List.append_assoc]
    have ht := List.take_left (toLEBytes 4 bb.bits.length)
      (toLEBytes 8 bb.salt ++ (bb.bits.map bitVector.marshalBytes).flatten)
    rw [toLEBytes_length] at ht
    rw [ht]
    exact fromLEBytes_toLEBytes 4 _ (by rw [hML] at hlev; norm_num; omega)
  have hd8 : bb.marshalBytes.drop 8
      = toLEBytes 8 bb.salt ++ (bb.bits.map bitVector.marshalBytes).flatten := by
    have h1 : bb.marshalBytes.drop 8
        = ((toLEBytes 4 bb.bits.length ++ toLEBytes 8 bb.salt)
            ++ (bb.bits.map bitVector.marshalBytes).flatten).drop 4 := by
      rw [hbuf]
      rfl
    rw [h1, List.append_assoc]
    have := List.drop_left (toLEBytes 4 bb.bits.length)
      (toLEBytes 8 bb.salt ++ (bb.bits.map bitVector.marshalBytes).flatten)
    rwa [toLEBytes_length] at this
  have hS : fromLEBytes ((bb.marshalBytes.drop 8).take 8) = bb.salt := by
    rw [hd8]
    have ht := List.take_left (toLEBytes 8 bb.salt)
      ((bb.bits.map bitVector.marshalBytes).flatten)
    rw [toLEBytes_length] at ht
    rw [ht]
    exact fromLEBytes_toLEBytes 8 _ hsalt8
  have hd16 : bb.marshalBytes.drop 16 = (bb.bits.map bitVector.marshalBytes).flatten := by
    have h1 : bb.marshalBytes.drop 16
        = ((toLEBytes 4 bb.bits.length ++ toLEBytes 8 bb.salt)
            ++ (bb.bits.map bitVector.marshalBytes).flatten).drop 12 := by
      rw [hbuf]
      rfl
    rw [h1]
    have := List.drop_left (toLEBytes 4 bb.bits.length ++ toLEBytes 8 bb.salt)
      ((bb.bits.map bitVector.marshalBytes).flatten)
    rwa [hY] at this
  have hV : bb.marshalBytes.getD 0 0 = 1 := by
    rw [hbuf]
    rfl
  unfold newBBHash
  rw [if_neg (by omega)]
  dsimp only []
  rw [hV, hN, hS, hd16]
  rw [if_neg (by omega), if_neg (by omega)]
  rw [unmarshalBVs_marshal bb.bits h, Option.map_some']

theorem makeSeeds_parts (s : List Nat) (mx : Nat) (hmx : mx < _MaxSeed)
    (helem : ∀ x ∈ s, x ≤ mx) :
    ((makeSeeds s mx).ssize = 1 ∨ (makeSeeds s mx).ssize = 2 ∨ (makeSeeds s mx).ssize = 4) ∧
      (∀ x ∈ (makeSeeds s mx).seeds, x < 256 ^ (makeSeeds s mx).ssize) := by
  unfold makeSeeds
  by_cases h1 : mx < 256
  · rw [if_pos h1]
    refine ⟨Or.inl rfl, ?_⟩
    intro x hx
    rcases List.mem_map.mp hx with ⟨y, _, hy⟩
    rw [← hy]
    have := Nat.mod_lt y (show 0 < 256 by norm_num)
    simpa using this
  · rw [if_neg h1]
    by_cases h2 : mx < 65536
    · rw [if_pos h2]
      refine ⟨Or.inr (Or.inl rfl), ?_⟩
      intro x hx
      rcases List.mem_map.mp hx with ⟨y, _, hy⟩
      rw [← hy]
      have := Nat.mod_lt y (show 0 < 65536 by norm_num)
      simpa using this
    · rw [if_neg h2]
      refine ⟨Or.inr (Or.inr rfl), ?_⟩
      intro x hx
      have h3 := helem x hx
      have h4 : _MaxSeed = 131072 := rfl
      norm_num
      omega

/-- The packed seed table of a frozen CHD: width 1, 2 or 4 with all seeds
    in range, `m` seeds, and the construction salt. -/
theorem chdFreeze_seed_parts (mphSalt : Nat) (load : ℚ) (keys : List Nat) (c : chd)
    (h : chdFreeze mphSalt load keys = some c)
    (hm0 : 0 < chdTableSize load keys.length)
    (hm1 : chdTableSize load keys.length ≤ U64) :
    (c.seed.ssize = 1 ∨ c.seed.ssize = 2 ∨ c.seed.ssize = 4) ∧
      (∀ x ∈ c.seed.seeds, x < 256 ^ c.seed.ssize) ∧
      c.seed.seeds.length = chdTableSize load keys.length ∧
      c.salt = mphSalt := by
  unfold chdFreeze at h
  generalize chdTableSize load keys.length = m at h hm0 hm1 ⊢
  dsimp only [] at h
  rw [Option.map_eq_some'] at h
  obtain ⟨⟨seeds', mx'⟩, hassign, h⟩ := h
  dsimp only [] at h
  have hperm : (sortBuckets (chdBuckets mphSalt m keys)).Perm (chdBuckets mphSalt m keys) :=
    sortBuckets_perm _
  have hnodup : ((sortBuckets (chdBuckets mphSalt m keys)).map bucket.slot).Nodup := by
    refine (List.Perm.nodup_iff (List.Perm.map bucket.slot hperm)).mpr ?_
    rw [chdBuckets_slots]
    exact List.nodup_range m
  have hslots : ∀ b ∈ sortBuckets (chdBuckets mphSalt m keys), b.slot < (List.replicate m 0).length := by
    intro b hb
    rw [List.length_replicate]
    exact ((chdBuckets_mem mphSalt m keys b).mp (hperm.mem_iff.mp hb)).1
  rcases chdAssign_spec m mphSalt hm0 hm1 (sortBuckets (chdBuckets mphSalt m keys)) (newBitVector m)
      (List.replicate m 0) 0 seeds' mx' hassign (newBitVector_length m) hnodup hslots with
    ⟨hlen, _, hmxB, _, hassigned, _, _⟩
  have hlenm : seeds'.length = m := by rw [hlen, List.length_replicate]
  have hmx : mx' < _MaxSeed := hmxB (by norm_num [_MaxSeed])
  have helem : ∀ x ∈ seeds', x ≤ mx' := by
    intro x hx
    rcases List.mem_iff_getElem.mp hx with ⟨i, hilt, hieq⟩
    have him : i < m := by omega
    have hbm : (⟨i, keys.filter (fun k => rhash 0 k m mphSalt == i)⟩ : bucket)
        ∈ sortBuckets (chdBuckets mphSalt m keys) :=
      hperm.mem_iff.mpr ((chdBuckets_mem mphSalt m keys
        ⟨i, keys.filter (fun k => rhash 0 k m mphSalt == i)⟩).mpr ⟨him, rfl⟩)
    have hv := (hassigned _ hbm).2.1
    dsimp only [] at hv
    rw [List.getD_eq_getElem seeds' 0 hilt, hieq] at hv
    exact hv
  rcases makeSeeds_parts seeds' mx' hmx helem with ⟨hsz, hel⟩
  rw [← h]
  exact ⟨hsz, hel, (makeSeeds_length seeds' mx').trans hlenm, rfl⟩

/-- The marshal round-trip of a frozen CHD is exact. -/
theorem chdFreeze_roundtrip (mphSalt : Nat) (load : ℚ) (keys : List Nat) (c : chd)
    (h : chdFreeze mphSalt load keys = some c)
    (hm0 : 0 < chdTableSize load keys.length)
    (hm32 : chdTableSize load keys.length < 2 ^ 32)
    (hsalt : mphSalt < U64) :
    newChd c.marshalBytes = some c := by
  have hm1 : chdTableSize load keys.length ≤ U64 := by
    unfold U64
    omega
  rcases chdFreeze_seed_parts mphSalt load keys c h hm0 hm1 with ⟨hsz, hel, hlen, hcsalt⟩
  exact newChd_marshal c hsz (by omega) (by rwa [hcsalt]) hel

/-- The marshal round-trip of a frozen BBHash rebuilds the same levels,
    rank table and salt (with `n` and `g` zeroed), hence the same `Find`. -/
theorem bbFreeze_roundtrip (mphSalt : Nat) (g : ℚ) (keys : List Nat) (bb : bbHash)
    (h : bbFreeze mphSalt g keys = some bb)
    (hne : keys ≠ [])
    (hwords : (bbBvSize keys.length g + 63) / 64 ≤ 2 ^ 32)
    (hlev : bb.bits.length ≤ _MaxLevel)
    (hsalt : mphSalt < U64) :
    newBBHash bb.marshalBytes = some ⟨bb.bits, bb.ranks, bb.salt, 0, 0⟩ ∧
      ∀ k, (⟨bb.bits, bb.ranks, bb.salt, 0, 0⟩ : bbHash).Find k = bb.Find k := by
  rcases bbFreeze_structure mphSalt g keys bb h with
    ⟨L, hL0, hbits, _, _, hszA, hranks, hbsalt, _⟩
  have hszA0 : 0 < bbBvSize keys.length g := hszA hne
  have hbne : bb.bits ≠ [] := by
    intro hnil
    rw [hnil] at hbits
    have := congrArg List.length hbits
    rw [List.length_nil, List.length_map, List.length_range] at this
    omega
  have hcond : ∀ b ∈ bb.bits, 0 < b.v.length ∧ b.v.length ≤ 2 ^ 32 ∧ bvWF b := by
    intro b hb
    rw [hbits] at hb
    rcases List.mem_map.mp hb with ⟨j, _, hj⟩
    rw [← hj]
    rw [bbLevelVec_length]
    refine ⟨by omega, hwords, bvWF_levelVec _ _ _ _⟩
  have hmain := newBBHash_marshal bb hbne hlev (by rwa [hbsalt]) hcond
  refine ⟨?_, fun k => rfl⟩
  rw [hranks]
  exact hmain

/-- C8 (amended): the marshal round-trip preserves `Find` for every frozen
    MPHF built over a *non-empty* key set, under the representability side
    conditions of the binary headers (CHD table size below `2^32`; BBHash
    level word count at most `2^32`, level count at most `_MaxLevel`, salt
    below `2^64`).  The CHD round-trip rebuilds the identical structure;
    the BBHash round-trip rebuilds the levels, ranks and salt (with the
    unserialised `n` and `g` fields zeroed), so every `Find` agrees.  For
    the empty key set the claim fails (see the counterexample). -/
theorem C8_marshal_roundtrip_find (mphSalt : Nat) (load g : ℚ) (keys : List Nat)
    (hsalt : mphSalt < U64) :
    (∀ c, chdFreeze mphSalt load keys = some c →
        0 < chdTableSize load keys.length → chdTableSize load keys.length < 2 ^ 32 →
        ∃ c2, newChd c.marshalBytes = some c2 ∧ ∀ k, c2.Find k = c.Find k) ∧
      (∀ bb, bbFreeze mphSalt g keys = some bb → keys ≠ [] →
        (bbBvSize keys.length g + 63) / 64 ≤ 2 ^ 32 → bb.bits.length ≤ _MaxLevel →
        ∃ bb2, newBBHash bb.marshalBytes = some bb2 ∧ ∀ k, bb2.Find k = bb.Find k) := by
  constructor
  · intro c hc hm0 hm32
    exact ⟨c, chdFreeze_roundtrip mphSalt load keys c hc hm0 hm32 hsalt, fun k => rfl⟩
  · intro bb hbb hne hwords hlev
    rcases bbFreeze_roundtrip mphSalt g keys bb hbb hne hwords hlev hsalt with ⟨hm, hf⟩
    exact ⟨_, hm, hf⟩

/-- Counterexample to C8 as stated: freezing the BBHash over the *empty*
    key set succeeds (one empty level), but unmarshalling its marshalled
    bytes fails — `unmarshalBitVector` rejects a level with zero words —
    so no `X'` is produced at all. -/
theorem C8_counterexample :
    (bbFreeze 3 2 []).isSome = true ∧
      (bbFreeze 3 2 []).map (fun bb => (newBBHash bb.marshalBytes).isSome) = some false := by
  exact ⟨rfl, rfl⟩

/-- Witness for C8: salt 16, keys `{1..6}`, CHD load 1 (table size 8) and
    BBHash γ = 2 (two one-word levels). -/
theorem C8_witness :
    ((16 : Nat) < U64 ∧
        chdFreeze 16 1 [1, 2, 3, 4, 5, 6]
          = some ((chdFreeze 16 1 [1, 2, 3, 4, 5, 6]).getD ⟨⟨0, []⟩, 0⟩) ∧
        0 < chdTableSize 1 [1, 2, 3, 4, 5, 6].length ∧
        chdTableSize 1 [1, 2, 3, 4, 5, 6].length < 2 ^ 32 ∧
        bbFreeze 16 2 [1, 2, 3, 4, 5, 6]
          = some ((bbFreeze 16 2 [1, 2, 3, 4, 5, 6]).getD ⟨[], [], 0, 0, 0⟩) ∧
        [1, 2, 3, 4, 5, 6] ≠ ([] : List Nat) ∧
        (bbBvSize [1, 2, 3, 4, 5, 6].length 2 + 63) / 64 ≤ 2 ^ 32 ∧
        ((bbFreeze 16 2 [1, 2, 3, 4, 5, 6]).getD ⟨[], [], 0, 0, 0⟩).bits.length ≤ _MaxLevel) ∧
      (∃ c2, newChd ((chdFreeze 16 1 [1, 2, 3, 4, 5, 6]).getD ⟨⟨0, []⟩, 0⟩).marshalBytes = some c2 ∧
        ∀ k, c2.Find k = ((chdFreeze 16 1 [1, 2, 3, 4, 5, 6]).getD ⟨⟨0, []⟩, 0⟩).Find k) ∧
      (∃ bb2, newBBHash ((bbFreeze 16 2 [1, 2, 3, 4, 5, 6]).getD ⟨[], [], 0, 0, 0⟩).marshalBytes = some bb2 ∧
        ∀ k, bb2.Find k = ((bbFreeze 16 2 [1, 2, 3, 4, 5, 6]).getD ⟨[], [], 0, 0, 0⟩).Find k) := by
  have h := C8_marshal_roundtrip_find 16 1 2 [1, 2, 3, 4, 5, 6] (by decide)
  exact ⟨⟨by decide, by decide, by decide, by decide, by decide, by decide, by decide, by decide⟩,
    h.1 _ (by decide) (by decide) (by decide),
    h.2 _ (by decide) (by decide) (by decide) (by decide)⟩

/-! ## BBHash: per-level semantics of preprocess and assign -/

/-- `preprocess` marks in `coll` every position already set in `A` that a
    key hits, and every position hit twice, monotonically. -/
theorem bbPreprocess_coll_spec (salt lvl S : Nat) :
    ∀ (K : List Nat) (A coll : bitVector), A.Size = S → coll.Size = S →
      ∀ i, i < S →
      (coll.IsSet i = true → (bbPreprocess salt lvl K A coll).2.IsSet i = true) ∧
      (A.IsSet i = true → 1 ≤ K.countP (fun k => bhash k salt lvl % S == i) →
        (bbPreprocess salt lvl K A coll).2.IsSet i = true) ∧
      (2 ≤ K.countP (fun k => bhash k salt lvl % S == i) →
        (bbPreprocess salt lvl K A coll).2.IsSet i = true) := by
  intro K
  induction K with
  | nil =>
    intro A coll hA hcoll i hi
    refine ⟨fun h => h, fun _ h1 => absurd h1 (by simp), fun h2 => absurd h2 (by simp)⟩
  | cons k K ih =>
    intro A coll hA hcoll i hi
    rw [show bbPreprocess salt lvl (k :: K) A coll =
      (let p := bhash k salt lvl % A.Size
       if coll.IsSet p then bbPreprocess salt lvl K A coll
       else if A.IsSet p then bbPreprocess salt lvl K A (coll.Set p)
       else bbPreprocess salt lvl K (A.Set p) coll) from rfl]
    dsimp only []
    rw [hA]
    have hcnt : ∀ p : Nat → Bool, (k :: K).countP p
        = K.countP p + if p k then 1 else 0 := by
      intro p
      rw [List.countP_cons]
    by_cases hc : coll.IsSet (bhash k salt lvl % S) = true
    · rw [if_pos hc]
      rcases ih A coll hA hcoll i hi with ⟨m, c1, c2⟩
      refine ⟨m, ?_, ?_⟩
      · intro hAi h1
        by_cases hpi : bhash k salt lvl % S = i
        · exact m (by rwa [hpi] at hc)
        · refine c1 hAi ?_
          rw [hcnt] at h1
          rw [if_neg (by simpa using hpi)] at h1
          omega
      · intro h2
        by_cases hpi : bhash k salt lvl % S = i
        · exact m (by rwa [hpi] at hc)
        · refine c2 ?_
          rw [hcnt] at h2
          rw [if_neg (by simpa using hpi)] at h2
          omega
    · rw [if_neg hc]
      by_cases ha : A.IsSet (bhash k salt lvl % S) = true
      · rw [if_pos ha]
        have hset : (coll.Set (bhash k salt lvl % S)).Size = S := by
          rw [set_size, hcoll]
        rcases ih A (coll.Set (bhash k salt lvl % S)) hA hset i hi with ⟨m, c1, c2⟩
        have hmono : coll.IsSet i = true → (coll.Set (bhash k salt lvl % S)).IsSet i = true := by
          intro h
          rw [isSet_set coll _ i (by rw [hcoll]; exact Nat.mod_lt _ (by omega))]
          rw [h]
          rfl
        have hself : bhash k salt lvl % S = i →
            (coll.Set (bhash k salt lvl % S)).IsSet i = true := by
          intro hpi
          rw [isSet_set coll _ i (by rw [hcoll]; exact Nat.mod_lt _ (by omega))]
          simp [hpi]
        refine ⟨fun h => m (hmono h), ?_, ?_⟩
        · intro hAi h1
          by_cases hpi : bhash k salt lvl % S = i
          · exact m (hself hpi)
          · refine c1 hAi ?_
            rw [hcnt] at h1
            rw [if_neg (by simpa using hpi)] at h1
            omega
        · intro h2
          by_cases hpi : bhash k salt lvl % S = i
          · exact m (hself hpi)
          · refine c2 ?_
            rw [hcnt] at h2
            rw [if_neg (by simpa using hpi)] at h2
            omega
      · rw [if_neg ha]
        have hsetA : (A.Set (bhash k salt lvl % S)).Size = S := by
          rw [set_size, hA]
        rcases ih (A.Set (bhash k salt lvl % S)) coll hsetA hcoll i hi with ⟨m, c1, c2⟩
        refine ⟨m, ?_, ?_⟩
        · intro hAi h1
          by_cases hpi : bhash k salt lvl % S = i
          · exact absurd hAi (by rw [← hpi]; exact ha)
          · refine c1 ?_ ?_
            · rw [isSet_set A _ i (by rw [hA]; exact Nat.mod_lt _ (by omega)), hAi]
              rfl
            · rw [hcnt] at h1
              rw [if_neg (by simpa using hpi)] at h1
              omega
        · intro h2
          by_cases hpi : bhash k salt lvl % S = i
          · refine c1 ?_ ?_
            · rw [isSet_set A _ i (by rw [hA]; exact Nat.mod_lt _ (by omega))]
              simp [hpi]
            · rw [hcnt, if_pos (by simpa using hpi)] at h2
              omega
          · refine c2 ?_
            rw [hcnt] at h2
            rw [if_neg (by simpa using hpi)] at h2
            omega

/-- `assign` pushes exactly the colliding keys (in order) to the redo list
    and sets exactly the positions of the kept keys. -/
theorem bbAssign_spec2 (salt lvl S : Nat) :
    ∀ (K : List Nat) (A coll : bitVector) (redo : List Nat), A.Size = S → 0 < S →
      (bbAssign salt lvl K A coll redo).1.Size = S ∧
      (bbAssign salt lvl K A coll redo).2
          = redo ++ K.filter (fun k => coll.IsSet (bhash k salt lvl % S)) ∧
      (∀ i, i < S →
        ((bbAssign salt lvl K A coll redo).1.IsSet i = true ↔
          A.IsSet i = true ∨ ∃ k ∈ K, coll.IsSet (bhash k salt lvl % S) = false ∧
            bhash k salt lvl % S = i)) := by
  intro K
  induction K with
  | nil =>
    intro A coll redo hA hS
    refine ⟨hA, by rw [List.filter_nil, List.append_nil]; rfl, fun i hi => ?_⟩
    show A.IsSet i = true ↔ _
    constructor
    · exact fun h => Or.inl h
    · rintro (h | ⟨k, hk, _⟩)
      · exact h
      · exact absurd hk (List.not_mem_nil k)
  | cons k K ih =>
    intro A coll redo hA hS
    rw [show bbAssign salt lvl (k :: K) A coll redo =
      (let p := bhash k salt lvl % A.Size
       if coll.IsSet p then bbAssign salt lvl K A coll (redo ++ [k])
       else bbAssign salt lvl K (A.Set p) coll redo) from rfl]
    dsimp only []
    rw [hA]
    by_cases hc : coll.IsSet (bhash k salt lvl % S) = true
    · rw [if_pos hc]
      rcases ih A coll (redo ++ [k]) hA hS with ⟨hsz, hredo, hbits⟩
      refine ⟨hsz, ?_, ?_⟩
      · rw [hredo, List.filter_cons_of_pos (by simpa using hc), List.append_assoc]
        rfl
      · intro i hi
        rw [hbits i hi]
        constructor
        · rintro (h | ⟨k2, hk2, hh⟩)
          · exact Or.inl h
          · exact Or.inr ⟨k2, List.mem_cons_of_mem k hk2, hh⟩
        · rintro (h | ⟨k2, hk2, hh⟩)
          · exact Or.inl h
          · rcases List.mem_cons.mp hk2 with rfl | hk2
            · exact absurd hc (by rw [hh.1]; simp)
            · exact Or.inr ⟨k2, hk2, hh⟩
    · rw [if_neg hc]
      have hsetA : (A.Set (bhash k salt lvl % S)).Size = S := by
        rw [set_size, hA]
      rcases ih (A.Set (bhash k salt lvl % S)) coll redo hsetA hS with ⟨hsz, hredo, hbits⟩
      refine ⟨hsz, ?_, ?_⟩
      · rw [hredo, List.filter_cons_of_neg (by simpa using hc)]
      · intro i hi
        rw [hbits i hi]
        have hset : (A.Set (bhash k salt lvl % S)).IsSet i
            = (A.IsSet i || bhash k salt lvl % S == i) := by
          exact isSet_set A _ i (by rw [hA]; exact Nat.mod_lt _ hS)
        constructor
        · rintro (h | ⟨k2, hk2, hh⟩)
          · rw [hset] at h
            rcases Bool.or_eq_true_iff.mp h with h | h
            · exact Or.inl h
            · exact Or.inr ⟨k, List.mem_cons_self k K,
                Bool.eq_false_iff.mpr hc, by simpa using h⟩
          · exact Or.inr ⟨k2, List.mem_cons_of_mem k hk2, hh⟩
        · rintro (h | ⟨k2, hk2, hh⟩)
          · refine Or.inl ?_
            rw [hset, h]
            rfl
          · rcases List.mem_cons.mp hk2 with rfl | hk2
            · refine Or.inl ?_
              rw [hset, hh.2]
              simp
            · exact Or.inr ⟨k2, hk2, hh⟩

theorem isSet_zero_replicate (n j : Nat) :
    bitVector.IsSet ⟨List.replicate n 0⟩ j = false := by
  unfold bitVector.IsSet
  rw [List.getD_eq_getElem?_getD, List.getElem?_replicate]
  have hz : ((if j / 64 < n then some 0 else none).getD 0 : Nat) = 0 := by
    by_cases h : j / 64 < n <;> simp [h]
  rw [hz, Nat.zero_shiftRight]
  rfl

/-- The per-level summary of `singleThread`'s body: the redo list is the
    ordered sublist of colliding keys, the level vector sets exactly the
    positions of the kept keys, kept keys occupy distinct positions, and
    the level popcount plus the redo count is the level's key count. -/
theorem bbLevel_spec (salt lvl szA : Nat) (hszA : 0 < szA) (K : List Nat) (hnd : K.Nodup) :
    (∃ q : Nat → Bool, bbRedo salt lvl szA K
        = K.filter (fun k => q (bhash k salt lvl % (((szA + 63) / 64) * 64)))) ∧
      (∀ i, i < ((szA + 63) / 64) * 64 →
        ((bbLevelVec salt lvl szA K).IsSet i = true ↔
          ∃ k ∈ K, k ∉ bbRedo salt lvl szA K ∧
            bhash k salt lvl % (((szA + 63) / 64) * 64) = i)) ∧
      (∀ k1 ∈ K, ∀ k2 ∈ K, k1 ∉ bbRedo salt lvl szA K → k2 ∉ bbRedo salt lvl szA K →
        k1 ≠ k2 →
        bhash k1 salt lvl % (((szA + 63) / 64) * 64)
          ≠ bhash k2 salt lvl % (((szA + 63) / 64) * 64)) ∧
      (bbLevelVec salt lvl szA K).ComputeRank + (bbRedo salt lvl szA K).length = K.length := by
  set S := ((szA + 63) / 64) * 64 with hSdef
  have hS0 : 0 < S := by
    have h1 : 1 ≤ (szA + 63) / 64 := by omega
    omega
  have hA0size : (newBitVector szA).Size = S := by
    unfold bitVector.Size
    rw [newBitVector_length]
  have hcollsize : (bbPreprocess salt lvl K (newBitVector szA) (newBitVector szA)).2.Size = S := by
    unfold bitVector.Size
    rw [(bbPreprocess_lengths salt lvl K (newBitVector szA) (newBitVector szA)).2,
      newBitVector_length]
  have hRsize : (bbPreprocess salt lvl K (newBitVector szA) (newBitVector szA)).1.Reset.Size = S := by
    unfold bitVector.Size
    rw [reset_eq_new]
    show (List.replicate _ (0 : Nat)).length * 64 = S
    rw [List.length_replicate,
      (bbPreprocess_lengths salt lvl K (newBitVector szA) (newBitVector szA)).1,
      newBitVector_length]
  have hRfalse : ∀ j, (bbPreprocess salt lvl K (newBitVector szA) (newBitVector szA)).1.Reset.IsSet j = false := by
    intro j
    rw [reset_eq_new]
    exact isSet_zero_replicate _ j
  rcases bbAssign_spec2 salt lvl S K
      (bbPreprocess salt lvl K (newBitVector szA) (newBitVector szA)).1.Reset
      (bbPreprocess salt lvl K (newBitVector szA) (newBitVector szA)).2
      [] hRsize hS0 with ⟨hsz2, hredo, hbits⟩
  have hredo' : bbRedo salt lvl szA K = K.filter (fun k =>
      (bbPreprocess salt lvl K (newBitVector szA) (newBitVector szA)).2.IsSet
        (bhash k salt lvl % S)) := by
    show (bbAssign salt lvl K (bbPreprocess salt lvl K (newBitVector szA) (newBitVector szA)).1.Reset
        (bbPreprocess salt lvl K (newBitVector szA) (newBitVector szA)).2 []).2 = _
    rw [hredo, List.nil_append]
  have hmem_redo : ∀ k ∈ K, (k ∉ bbRedo salt lvl szA K ↔
      (bbPreprocess salt lvl K (newBitVector szA) (newBitVector szA)).2.IsSet
        (bhash k salt lvl % S) = false) := by
    intro k hk
    rw [hredo']
    simp only [List.mem_filter]
    constructor
    · intro hnm
      cases hcase : (bbPreprocess salt lvl K (newBitVector szA) (newBitVector szA)).2.IsSet
          (bhash k salt lvl % S) with
      | false => rfl
      | true => exact absurd ⟨hk, hcase⟩ hnm
    · rintro hfalse ⟨_, htrue⟩
      rw [hfalse] at htrue
      exact Bool.false_ne_true htrue
  have hVecIsSet : ∀ i, i < S →
      ((bbLevelVec salt lvl szA K).IsSet i = true ↔
        ∃ k ∈ K, k ∉ bbRedo salt lvl szA K ∧ bhash k salt lvl % S = i) := by
    intro i hi
    have hbi := hbits i hi
    rw [show (bbAssign salt lvl K (bbPreprocess salt lvl K (newBitVector szA) (newBitVector szA)).1.Reset
        (bbPreprocess salt lvl K (newBitVector szA) (newBitVector szA)).2 []).1
        = bbLevelVec salt lvl szA K from rfl] at hbi
    rw [hbi, hRfalse i]
    constructor
    · rintro (h | ⟨k, hk, hc, hp⟩)
      · exact absurd h (by simp)
      · exact ⟨k, hk, (hmem_redo k hk).mpr hc, hp⟩
    · rintro ⟨k, hk, hnr, hp⟩
      exact Or.inr ⟨k, hk, (hmem_redo k hk).mp hnr, hp⟩
  -- kept keys have pairwise distinct positions
  have hinj : ∀ k1 ∈ K, ∀ k2 ∈ K, k1 ∉ bbRedo salt lvl szA K → k2 ∉ bbRedo salt lvl szA K →
      k1 ≠ k2 → bhash k1 salt lvl % S ≠ bhash k2 salt lvl % S := by
    intro k1 hk1 k2 hk2 hr1 _ hne heq
    -- both map to i; the filter of keys at that position has two distinct members
    set i := bhash k1 salt lvl % S with hidef
    have hi : i < S := Nat.mod_lt _ hS0
    have hcnt2 : 2 ≤ K.countP (fun k => bhash k salt lvl % S == i) := by
      rw [List.countP_eq_length_filter]
      have hmem1 : k1 ∈ K.filter (fun k => bhash k salt lvl % S == i) :=
        List.mem_filter.mpr ⟨hk1, by simp [hidef]⟩
      have hmem2 : k2 ∈ K.filter (fun k => bhash k salt lvl % S == i) :=
        List.mem_filter.mpr ⟨hk2, by simp [← heq, hidef]⟩
      have hndf : (K.filter (fun k => bhash k salt lvl % S == i)).Nodup := hnd.filter _
      have hsub : ({k1, k2} : Finset Nat) ⊆ (K.filter (fun k => bhash k salt lvl % S == i)).toFinset := by
        intro x hx
        rcases Finset.mem_insert.mp hx with rfl | hx
        · exact List.mem_toFinset.mpr hmem1
        · rw [Finset.mem_singleton.mp hx]
          exact List.mem_toFinset.mpr hmem2
      have hcard : ({k1, k2} : Finset Nat).card = 2 := by
        rw [Finset.card_insert_of_not_mem (by simpa using hne), Finset.card_singleton]
      calc 2 = ({k1, k2} : Finset Nat).card := hcard.symm
        _ ≤ (K.filter (fun k => bhash k salt lvl % S == i)).toFinset.card :=
            Finset.card_le_card hsub
        _ = (K.filter (fun k => bhash k salt lvl % S == i)).length :=
            List.toFinset_card_of_nodup hndf
    have hcoll := ((bbPreprocess_coll_spec salt lvl S K (newBitVector szA) (newBitVector szA)
        hA0size hA0size i hi).2.2) hcnt2
    have := (hmem_redo k1 hk1).mp hr1
    rw [← hidef] at this
    rw [this] at hcoll
    exact Bool.false_ne_true hcoll
  refine ⟨⟨_, hredo'⟩, hVecIsSet, hinj, ?_⟩
  -- popcount counts the kept keys
  have hlen : (bbLevelVec salt lvl szA K).v.length = (szA + 63) / 64 := bbLevelVec_length _ _ _ _
  have hwf : bvWF (bbLevelVec salt lvl szA K) := bvWF_levelVec _ _ _ _
  have hpop : (bbLevelVec salt lvl szA K).ComputeRank = bvCount (bbLevelVec salt lvl szA K) S := by
    have h2 := computeRank_eq_bvCount (bbLevelVec salt lvl szA K).v hwf
    rw [hlen] at h2
    rw [show 64 * ((szA + 63) / 64) = S from by omega] at h2
    exact h2
  set keptL := K.filter (fun k =>
      !((bbPreprocess salt lvl K (newBitVector szA) (newBitVector szA)).2.IsSet
        (bhash k salt lvl % S))) with hkeptdef
  have hkept_mem : ∀ k, k ∈ keptL ↔ k ∈ K ∧ k ∉ bbRedo salt lvl szA K := by
    intro k
    rw [hkeptdef]
    simp only [List.mem_filter, Bool.not_eq_true']
    constructor
    · rintro ⟨hk, hf⟩
      exact ⟨hk, (hmem_redo k hk).mpr hf⟩
    · rintro ⟨hk, hnr⟩
      exact ⟨hk, (hmem_redo k hk).mp hnr⟩
  have hset_eq : (Finset.range S).filter (fun j => (bbLevelVec salt lvl szA K).IsSet j)
      = (keptL.map (fun k => bhash k salt lvl % S)).toFinset := by
    ext i
    simp only [Finset.mem_filter, Finset.mem_range, List.mem_toFinset, List.mem_map]
    constructor
    · rintro ⟨hi, hset⟩
      rcases (hVecIsSet i hi).mp hset with ⟨k, hk, hnr, hp⟩
      exact ⟨k, (hkept_mem k).mpr ⟨hk, hnr⟩, hp⟩
    · rintro ⟨k, hk, hp⟩
      rcases (hkept_mem k).mp hk with ⟨hkK, hnr⟩
      have hiS : i < S := by rw [← hp]; exact Nat.mod_lt _ hS0
      exact ⟨hiS, (hVecIsSet i hiS).mpr ⟨k, hkK, hnr, hp⟩⟩
  have hnodupmap : (keptL.map (fun k => bhash k salt lvl % S)).Nodup := by
    refine List.Nodup.map_on ?_ (hnd.filter _)
    intro x hx y hy hxy
    by_contra hne
    rcases (hkept_mem x).mp hx with ⟨hxK, hxnr⟩
    rcases (hkept_mem y).mp hy with ⟨hyK, hynr⟩
    exact hinj x hxK y hyK hxnr hynr hne hxy
  have hcard : bvCount (bbLevelVec salt lvl szA K) S
      = ((Finset.range S).filter (fun j => (bbLevelVec salt lvl szA K).IsSet j)).card := by
    unfold bvCount
    rw [Finset.card_filter]
  have hkcount : bvCount (bbLevelVec salt lvl szA K) S = keptL.length := by
    rw [hcard, hset_eq, List.toFinset_card_of_nodup hnodupmap, List.length_map]
  have hsplit : K.length
      = (K.filter (fun k => (bbPreprocess salt lvl K (newBitVector szA) (newBitVector szA)).2.IsSet
          (bhash k salt lvl % S))).length
        + (K.filter (fun k => !((bbPreprocess salt lvl K (newBitVector szA) (newBitVector szA)).2.IsSet
            (bhash k salt lvl % S)))).length :=
    List.length_eq_length_filter_add _
  rw [hpop, hkcount, hredo', hkeptdef]
  omega

/-- Peeling the key chain from the right: the next level's keys are the
    redo list of the current level. -/
theorem bbKeysFrom_succ (salt szA : Nat) : ∀ (j lvl : Nat) (keys : List Nat),
    bbKeysFrom salt szA lvl keys (j + 1)
      = bbRedo salt (lvl + j) szA (bbKeysFrom salt szA lvl keys j) := by
  intro j
  induction j with
  | zero =>
    intro lvl keys
    rw [Nat.add_zero]
    rfl
  | succ j ih =>
    intro lvl keys
    show bbKeysFrom salt szA (lvl + 1) (bbRedo salt lvl szA keys) (j + 1) = _
    rw [ih (lvl + 1) (bbRedo salt lvl szA keys)]
    rw [show lvl + 1 + j = lvl + (j + 1) from by omega]
    rfl

theorem bbKeysAt_succ (salt szA : Nat) (keys : List Nat) (j : Nat) :
    bbKeysAt salt szA keys (j + 1) = bbRedo salt j szA (bbKeysAt salt szA keys j) := by
  unfold bbKeysAt
  rw [bbKeysFrom_succ]
  rw [Nat.zero_add]

theorem bbRedo_sublist (salt lvl szA : Nat) (hszA : 0 < szA) (K : List Nat) (hnd : K.Nodup) :
    (bbRedo salt lvl szA K).Sublist K := by
  rcases (bbLevel_spec salt lvl szA hszA K hnd).1 with ⟨q, hq⟩
  rw [hq]
  exact List.filter_sublist K

theorem bbKeysAt_nodup (salt szA : Nat) (hszA : 0 < szA) (keys : List Nat) (hnd : keys.Nodup) :
    ∀ j, (bbKeysAt salt szA keys j).Nodup := by
  intro j
  induction j with
  | zero => exact hnd
  | succ j ih =>
    rw [bbKeysAt_succ]
    exact (bbRedo_sublist salt j szA hszA _ ih).nodup ih

/-- The accumulated rank table: entry `l` is the sum of the level
    popcounts before `l`. -/
theorem preComputeRankAux_getD (bits : List bitVector) : ∀ (p l : Nat), l < bits.length →
    (preComputeRankAux p bits).getD l 0
      = p + ∑ t ∈ Finset.range l, (bits.getD t ⟨[]⟩).ComputeRank := by
  induction bits with
  | nil =>
    intro p l hl
    exact absurd hl (by simp)
  | cons bv rest ih =>
    intro p l hl
    cases l with
    | zero =>
      rw [show (preComputeRankAux p (bv :: rest)).getD 0 0 = p from rfl]
      rw [Finset.range_zero, Finset.sum_empty, Nat.add_zero]
    | succ l =>
      rw [show preComputeRankAux p (bv :: rest)
        = p :: preComputeRankAux (p + bv.ComputeRank) rest from rfl]
      rw [List.getD_cons_succ]
      rw [ih (p + bv.ComputeRank) l (by simpa using hl)]
      rw [Finset.sum_range_succ']
      have hshift : ∀ t, ((bv :: rest).getD (t + 0 + 1) ⟨[]⟩).ComputeRank
          = (rest.getD t ⟨[]⟩).ComputeRank := by
        intro t
        rw [show t + 0 + 1 = t + 1 from by omega, List.getD_cons_succ]
      have hsum : (∑ t ∈ Finset.range l, ((bv :: rest).getD (t + 1) ⟨[]⟩).ComputeRank)
          = ∑ t ∈ Finset.range l, (rest.getD t ⟨[]⟩).ComputeRank := by
        refine Finset.sum_congr rfl (fun t _ => ?_)
        rw [List.getD_cons_succ]
      rw [hsum]
      rw [show ((bv :: rest).getD 0 ⟨[]⟩).ComputeRank = bv.ComputeRank from rfl]
      omega

theorem ranks_getD_of_preComputeRank (bits : List bitVector) (l : Nat) (hl : l < bits.length) :
    (preComputeRank bits).getD l 0
      = ∑ t ∈ Finset.range l, (bits.getD t ⟨[]⟩).ComputeRank := by
  unfold preComputeRank
  rw [preComputeRankAux_getD bits 0 l hl, Nat.zero_add]

/-- Telescoping the per-level counts: the level popcounts up to `L` plus
    the keys still alive at level `L` account for every original key. -/
theorem bbLevels_total (salt szA : Nat) (hszA : 0 < szA) (keys : List Nat) (hnd : keys.Nodup) :
    ∀ L, (∑ j ∈ Finset.range L,
        (bbLevelVec salt j szA (bbKeysAt salt szA keys j)).ComputeRank)
        + (bbKeysAt salt szA keys L).length = keys.length := by
  intro L
  induction L with
  | zero =>
    rw [Finset.range_zero, Finset.sum_empty, Nat.zero_add]
    rfl
  | succ L ih =>
    rw [Finset.sum_range_succ, bbKeysAt_succ]
    have hlev := (bbLevel_spec salt L szA hszA (bbKeysAt salt szA keys L)
      (bbKeysAt_nodup salt szA hszA keys hnd L)).2.2.2
    omega

/-- The `Find` loop, walked over the level vectors of a successful
    construction: every key of the original set is found at the first
    level that keeps it, with value `ranks[l] + Rank(position)`. -/
theorem bbFindFrom_walk (salt szA : Nat) (keys ranks : List Nat) (L : Nat)
    (hszA : 0 < szA) (hnd : keys.Nodup)
    (hL : bbKeysAt salt szA keys L = []) :
    ∀ (d lvl : Nat), lvl + d = L →
      ∀ k, k ∈ bbKeysAt salt szA keys lvl →
      ∃ l, lvl ≤ l ∧ l < L ∧ k ∈ bbKeysAt salt szA keys l ∧
        k ∉ bbKeysAt salt szA keys (l + 1) ∧
        bbFindFrom salt k ranks
          ((List.range d).map (fun t => bbLevelVec salt (lvl + t) szA
            (bbKeysAt salt szA keys (lvl + t)))) lvl
          = (ranks.getD l 0 + (bbLevelVec salt l szA (bbKeysAt salt szA keys l)).Rank
              (bhash k salt l % (((szA + 63) / 64) * 64)), true) := by
  intro d
  induction d with
  | zero =>
    intro lvl hdl k hk
    rw [Nat.add_zero] at hdl
    rw [hdl, hL] at hk
    exact absurd hk (List.not_mem_nil k)
  | succ d ih =>
    intro lvl hdl k hk
    have hmap : (List.range (d + 1)).map (fun t => bbLevelVec salt (lvl + t) szA
        (bbKeysAt salt szA keys (lvl + t)))
        = bbLevelVec salt lvl szA (bbKeysAt salt szA keys lvl) ::
          (List.range d).map (fun t => bbLevelVec salt ((lvl + 1) + t) szA
            (bbKeysAt salt szA keys ((lvl + 1) + t))) := by
      rw [List.range_succ_eq_map, List.map_cons, List.map_map]
      rw [Nat.add_zero]
      refine congrArg _ ?_
      refine List.map_congr_left (fun t _ => ?_)
      show bbLevelVec salt (lvl + (t + 1)) szA (bbKeysAt salt szA keys (lvl + (t + 1))) = _
      rw [show lvl + (t + 1) = lvl + 1 + t from by omega]
    rw [hmap]
    have hbvs : (bbLevelVec salt lvl szA (bbKeysAt salt szA keys lvl)).Size
        = ((szA + 63) / 64) * 64 := by
      unfold bitVector.Size
      rw [bbLevelVec_length]
    have hi : bhash k salt lvl % (((szA + 63) / 64) * 64) < ((szA + 63) / 64) * 64 := by
      refine Nat.mod_lt _ ?_
      have h1 : 1 ≤ (szA + 63) / 64 := by omega
      omega
    have hlvlL : lvl < L := by omega
    have hndl := bbKeysAt_nodup salt szA hszA keys hnd lvl
    rcases bbLevel_spec salt lvl szA hszA (bbKeysAt salt szA keys lvl) hndl with
      ⟨⟨q, hq⟩, hVec, _, _⟩
    rw [show bbFindFrom salt k ranks
        (bbLevelVec salt lvl szA (bbKeysAt salt szA keys lvl) ::
          (List.range d).map (fun t => bbLevelVec salt ((lvl + 1) + t) szA
            (bbKeysAt salt szA keys ((lvl + 1) + t)))) lvl
      = (let i := bhash k salt lvl %
            (bbLevelVec salt lvl szA (bbKeysAt salt szA keys lvl)).Size
         if (bbLevelVec salt lvl szA (bbKeysAt salt szA keys lvl)).IsSet i then
           (1 + ranks.getD lvl 0 +
             (bbLevelVec salt lvl szA (bbKeysAt salt szA keys lvl)).Rank i - 1, true)
         else bbFindFrom salt k ranks
           ((List.range d).map (fun t => bbLevelVec salt ((lvl + 1) + t) szA
             (bbKeysAt salt szA keys ((lvl + 1) + t)))) (lvl + 1)) from rfl]
    dsimp only []
    rw [hbvs]
    by_cases hred : k ∈ bbKeysAt salt szA keys (lvl + 1)
    · -- k collides at this level: its bit is not set, walk on
      have hqk : q (bhash k salt lvl % (((szA + 63) / 64) * 64)) = true := by
        rw [bbKeysAt_succ, hq] at hred
        exact (List.mem_filter.mp hred).2
      have hnotset : (bbLevelVec salt lvl szA (bbKeysAt salt szA keys lvl)).IsSet
          (bhash k salt lvl % (((szA + 63) / 64) * 64)) = false := by
        cases hcase : (bbLevelVec salt lvl szA (bbKeysAt salt szA keys lvl)).IsSet
            (bhash k salt lvl % (((szA + 63) / 64) * 64)) with
        | false => rfl
        | true =>
          rcases (hVec _ hi).mp hcase with ⟨k2, hk2, hk2nr, hp2⟩
          have hq2 : q (bhash k2 salt lvl % (((szA + 63) / 64) * 64)) = false := by
            cases hc2 : q (bhash k2 salt lvl % (((szA + 63) / 64) * 64)) with
            | false => rfl
            | true =>
              rw [hq] at hk2nr
              exact absurd (List.mem_filter.mpr ⟨hk2, hc2⟩) hk2nr
          rw [hp2] at hq2
          rw [hqk] at hq2
          exact absurd hq2 (by simp)
      rw [if_neg (by rw [hnotset]; exact Bool.false_ne_true)]
      rcases ih (lvl + 1) (by omega) k hred with ⟨l, hl1, hl2, hl3, hl4, hl5⟩
      exact ⟨l, by omega, hl2, hl3, hl4, hl5⟩
    · -- k is kept at this level: its bit is set, return here
      have hknr : k ∉ bbRedo salt lvl szA (bbKeysAt salt szA keys lvl) := by
        rw [← bbKeysAt_succ]
        exact hred
      have hset : (bbLevelVec salt lvl szA (bbKeysAt salt szA keys lvl)).IsSet
          (bhash k salt lvl % (((szA + 63) / 64) * 64)) = true :=
        (hVec _ hi).mpr ⟨k, hk, hknr, rfl⟩
      rw [if_pos hset]
      refine ⟨lvl, le_refl lvl, hlvlL, hk, hred, ?_⟩
      have harith : 1 + ranks.getD lvl 0 +
          (bbLevelVec salt lvl szA (bbKeysAt salt szA keys lvl)).Rank
            (bhash k salt lvl % (((szA + 63) / 64) * 64)) - 1
          = ranks.getD lvl 0 +
            (bbLevelVec salt lvl szA (bbKeysAt salt szA keys lvl)).Rank
              (bhash k salt lvl % (((szA + 63) / 64) * 64)) := by
        omega
      rw [harith]

theorem bvCount_mono (b : bitVector) (i j : Nat) (hij : i ≤ j) : bvCount b i ≤ bvCount b j := by
  unfold bvCount
  exact Finset.sum_le_sum_of_subset (Finset.range_subset.mpr hij)

theorem bvCount_succ (b : bitVector) (i : Nat) :
    bvCount b (i + 1) = bvCount b i + (if b.IsSet i then 1 else 0) := by
  unfold bvCount
  rw [Finset.sum_range_succ]

/-- The serial BBHash `Find`, over the original keys of a successful
    construction, is found, bounded by the key count, injective, and
    surjective onto `[0, N)` — a bijection. -/
theorem bbFreeze_find_bijection (salt : Nat) (g : ℚ) (keys : List Nat) (bb : bbHash)
    (h : bbFreeze salt g keys = some bb) (hnd : keys.Nodup) (hne : keys ≠ []) :
    (∀ k ∈ keys, (bb.Find k).2 = true ∧ (bb.Find k).1 < keys.length) ∧
      (∀ k1 ∈ keys, ∀ k2 ∈ keys, k1 ≠ k2 → (bb.Find k1).1 ≠ (bb.Find k2).1) ∧
      (∀ t, t < keys.length → ∃ k ∈ keys, (bb.Find k).1 = t) := by
  rcases bbFreeze_structure salt g keys bb h with
    ⟨L, hL0, hbits, hKL, _, hszA, hranks, hsalt, _⟩
  have hszA0 : 0 < bbBvSize keys.length g := hszA hne
  have hS0 : 0 < ((bbBvSize keys.length g + 63) / 64) * 64 := by
    have h1 : 1 ≤ (bbBvSize keys.length g + 63) / 64 := by omega
    omega
  have hbitslen : bb.bits.length = L := by
    rw [hbits, List.length_map, List.length_range]
  have hgetD : ∀ t, t < L → bb.bits.getD t ⟨[]⟩
      = bbLevelVec salt t (bbBvSize keys.length g)
        (bbKeysAt salt (bbBvSize keys.length g) keys t) := by
    intro t ht
    rw [hbits, List.getD_eq_getElem _ _ (by rw [List.length_map, List.length_range]; omega)]
    rw [List.getElem_map, List.getElem_range]
  have hranksl : ∀ l, l < L → bb.ranks.getD l 0
      = ∑ t ∈ Finset.range l, (bbLevelVec salt t (bbBvSize keys.length g)
          (bbKeysAt salt (bbBvSize keys.length g) keys t)).ComputeRank := by
    intro l hl
    rw [hranks, ranks_getD_of_preComputeRank _ l (by omega)]
    refine Finset.sum_congr rfl (fun t ht => ?_)
    rw [Finset.mem_range] at ht
    rw [hgetD t (by omega)]
  have hlenv : ∀ l, (bbLevelVec salt l (bbBvSize keys.length g)
      (bbKeysAt salt (bbBvSize keys.length g) keys l)).v.length
      = (bbBvSize keys.length g + 63) / 64 := fun l => bbLevelVec_length _ _ _ _
  have hpos : ∀ l k, bhash k salt l % (((bbBvSize keys.length g + 63) / 64) * 64)
      < ((bbBvSize keys.length g + 63) / 64) * 64 := fun l k => Nat.mod_lt _ hS0
  have hrank_eq : ∀ l k, (bbLevelVec salt l (bbBvSize keys.length g)
      (bbKeysAt salt (bbBvSize keys.length g) keys l)).Rank
        (bhash k salt l % (((bbBvSize keys.length g + 63) / 64) * 64))
      = bvCount (bbLevelVec salt l (bbBvSize keys.length g)
          (bbKeysAt salt (bbBvSize keys.length g) keys l))
        (bhash k salt l % (((bbBvSize keys.length g + 63) / 64) * 64)) := by
    intro l k
    have hr := rank_eq_bvCount (bbLevelVec salt l (bbBvSize keys.length g)
        (bbKeysAt salt (bbBvSize keys.length g) keys l)).v
      (bhash k salt l % (((bbBvSize keys.length g + 63) / 64) * 64))
      (bvWF_levelVec _ _ _ _)
      (by rw [hlenv l]; have := hpos l k; omega)
    exact hr
  have hpopS : ∀ l, (bbLevelVec salt l (bbBvSize keys.length g)
      (bbKeysAt salt (bbBvSize keys.length g) keys l)).ComputeRank
      = bvCount (bbLevelVec salt l (bbBvSize keys.length g)
          (bbKeysAt salt (bbBvSize keys.length g) keys l))
        (((bbBvSize keys.length g + 63) / 64) * 64) := by
    intro l
    have hc := computeRank_eq_bvCount (bbLevelVec salt l (bbBvSize keys.length g)
        (bbKeysAt salt (bbBvSize keys.length g) keys l)).v (bvWF_levelVec _ _ _ _)
    rw [hlenv l] at hc
    rw [show 64 * ((bbBvSize keys.length g + 63) / 64)
      = ((bbBvSize keys.length g + 63) / 64) * 64 from by omega] at hc
    exact hc
  have hIsSet : ∀ l, l < L → ∀ k ∈ bbKeysAt salt (bbBvSize keys.length g) keys l,
      k ∉ bbKeysAt salt (bbBvSize keys.length g) keys (l + 1) →
      (bbLevelVec salt l (bbBvSize keys.length g)
        (bbKeysAt salt (bbBvSize keys.length g) keys l)).IsSet
        (bhash k salt l % (((bbBvSize keys.length g + 63) / 64) * 64)) = true := by
    intro l _ k hk hnr
    rcases bbLevel_spec salt l (bbBvSize keys.length g) hszA0
        (bbKeysAt salt (bbBvSize keys.length g) keys l)
        (bbKeysAt_nodup salt (bbBvSize keys.length g) hszA0 keys hnd l) with ⟨_, hVec, _, _⟩
    refine (hVec _ (hpos l k)).mpr ⟨k, hk, ?_, rfl⟩
    rw [← bbKeysAt_succ]
    exact hnr
  have hwalk : ∀ k ∈ keys, ∃ l, l < L ∧
      k ∈ bbKeysAt salt (bbBvSize keys.length g) keys l ∧
      k ∉ bbKeysAt salt (bbBvSize keys.length g) keys (l + 1) ∧
      bb.Find k = (bb.ranks.getD l 0 + (bbLevelVec salt l (bbBvSize keys.length g)
          (bbKeysAt salt (bbBvSize keys.length g) keys l)).Rank
          (bhash k salt l % (((bbBvSize keys.length g + 63) / 64) * 64)), true) := by
    intro k hk
    have hk0 : k ∈ bbKeysAt salt (bbBvSize keys.length g) keys 0 := hk
    rcases bbFindFrom_walk salt (bbBvSize keys.length g) keys bb.ranks L hszA0 hnd hKL
        L 0 (by omega) k hk0 with ⟨l, _, hl2, hl3, hl4, hl5⟩
    refine ⟨l, hl2, hl3, hl4, ?_⟩
    unfold bbHash.Find
    rw [hsalt, hbits]
    have hm : (List.range L).map (fun j => bbLevelVec salt j (bbBvSize keys.length g)
        (bbKeysAt salt (bbBvSize keys.length g) keys j))
        = (List.range L).map (fun t => bbLevelVec salt (0 + t) (bbBvSize keys.length g)
          (bbKeysAt salt (bbBvSize keys.length g) keys (0 + t))) := by
      refine List.map_congr_left (fun t _ => ?_)
      rw [Nat.zero_add]
    rw [hm]
    exact hl5
  -- the index of a key found at level l lies in [R l, R (l+1))
  have hidx_lb : ∀ l, l < L → ∀ k,
      bb.ranks.getD l 0 ≤ bb.ranks.getD l 0 + (bbLevelVec salt l (bbBvSize keys.length g)
        (bbKeysAt salt (bbBvSize keys.length g) keys l)).Rank
        (bhash k salt l % (((bbBvSize keys.length g + 63) / 64) * 64)) :=
    fun l _ k => Nat.le_add_right _ _
  have hidx_ub : ∀ l, l < L → ∀ k ∈ bbKeysAt salt (bbBvSize keys.length g) keys l,
      k ∉ bbKeysAt salt (bbBvSize keys.length g) keys (l + 1) →
      bb.ranks.getD l 0 + (bbLevelVec salt l (bbBvSize keys.length g)
        (bbKeysAt salt (bbBvSize keys.length g) keys l)).Rank
        (bhash k salt l % (((bbBvSize keys.length g + 63) / 64) * 64))
      < (∑ t ∈ Finset.range (l + 1), (bbLevelVec salt t (bbBvSize keys.length g)
          (bbKeysAt salt (bbBvSize keys.length g) keys t)).ComputeRank) := by
    intro l hl k hk hnr
    rw [hranksl l hl, Finset.sum_range_succ, hrank_eq]
    have hset := hIsSet l hl k hk hnr
    have hstep : bvCount (bbLevelVec salt l (bbBvSize keys.length g)
        (bbKeysAt salt (bbBvSize keys.length g) keys l))
        (bhash k salt l % (((bbBvSize keys.length g + 63) / 64) * 64)) + 1
        ≤ (bbLevelVec salt l (bbBvSize keys.length g)
            (bbKeysAt salt (bbBvSize keys.length g) keys l)).ComputeRank := by
      rw [hpopS l]
      have h1 := bvCount_succ (bbLevelVec salt l (bbBvSize keys.length g)
          (bbKeysAt salt (bbBvSize keys.length g) keys l))
        (bhash k salt l % (((bbBvSize keys.length g + 63) / 64) * 64))
      rw [hset] at h1
      rw [if_pos rfl] at h1
      have h2 := bvCount_mono (bbLevelVec salt l (bbBvSize keys.length g)
          (bbKeysAt salt (bbBvSize keys.length g) keys l))
        (bhash k salt l % (((bbBvSize keys.length g + 63) / 64) * 64) + 1)
        (((bbBvSize keys.length g + 63) / 64) * 64) (hpos l k)
      omega
    omega
  have hRmono : ∀ l1 l2 : Nat, l1 ≤ l2 →
      (∑ t ∈ Finset.range l1, (bbLevelVec salt t (bbBvSize keys.length g)
          (bbKeysAt salt (bbBvSize keys.length g) keys t)).ComputeRank)
      ≤ ∑ t ∈ Finset.range l2, (bbLevelVec salt t (bbBvSize keys.length g)
          (bbKeysAt salt (bbBvSize keys.length g) keys t)).ComputeRank :=
    fun l1 l2 h12 => Finset.sum_le_sum_of_subset (Finset.range_subset.mpr h12)
  have hRtotal : (∑ t ∈ Finset.range L, (bbLevelVec salt t (bbBvSize keys.length g)
      (bbKeysAt salt (bbBvSize keys.length g) keys t)).ComputeRank) = keys.length := by
    have := bbLevels_total salt (bbBvSize keys.length g) hszA0 keys hnd L
    rw [hKL] at this
    simpa using this
  have hfound : ∀ k ∈ keys, (bb.Find k).2 = true ∧ (bb.Find k).1 < keys.length := by
    intro k hk
    rcases hwalk k hk with ⟨l, hl, hkl, hnr, hfk⟩
    rw [hfk]
    refine ⟨rfl, ?_⟩
    show bb.ranks.getD l 0 + _ < keys.length
    have h1 := hidx_ub l hl k hkl hnr
    have h2 := hRmono (l + 1) L (by omega)
    omega
  have hinj : ∀ k1 ∈ keys, ∀ k2 ∈ keys, k1 ≠ k2 → (bb.Find k1).1 ≠ (bb.Find k2).1 := by
    intro k1 hk1 k2 hk2 hne12
    rcases hwalk k1 hk1 with ⟨l1, hl1, hkl1, hnr1, hfk1⟩
    rcases hwalk k2 hk2 with ⟨l2, hl2, hkl2, hnr2, hfk2⟩
    rw [hfk1, hfk2]
    dsimp only []
    rcases Nat.lt_trichotomy l1 l2 with hlt | heq | hgt
    · -- different levels: disjoint index ranges
      have h1 := hidx_ub l1 hl1 k1 hkl1 hnr1
      have h2 := hRmono (l1 + 1) l2 (by omega)
      rw [hranksl l2 hl2]
      have h3 := hidx_lb l2 hl2 k2
      rw [hranksl l2 hl2] at h3
      omega
    · -- same level: distinct positions, strictly different ranks
      subst heq
      rcases bbLevel_spec salt l1 (bbBvSize keys.length g) hszA0
          (bbKeysAt salt (bbBvSize keys.length g) keys l1)
          (bbKeysAt_nodup salt (bbBvSize keys.length g) hszA0 keys hnd l1) with
        ⟨_, _, hinjpos, _⟩
    -- positions differ
      have hnr1' : k1 ∉ bbRedo salt l1 (bbBvSize keys.length g)
          (bbKeysAt salt (bbBvSize keys.length g) keys l1) := by
        rw [← bbKeysAt_succ]; exact hnr1
      have hnr2' : k2 ∉ bbRedo salt l1 (bbBvSize keys.length g)
          (bbKeysAt salt (bbBvSize keys.length g) keys l1) := by
        rw [← bbKeysAt_succ]; exact hnr2
      have hpne := hinjpos k1 hkl1 k2 hkl2 hnr1' hnr2' hne12
      -- wlog via trichotomy on the positions
      intro habs
      have habs' : (bbLevelVec salt l1 (bbBvSize keys.length g)
          (bbKeysAt salt (bbBvSize keys.length g) keys l1)).Rank
            (bhash k1 salt l1 % (((bbBvSize keys.length g + 63) / 64) * 64))
          = (bbLevelVec salt l1 (bbBvSize keys.length g)
            (bbKeysAt salt (bbBvSize keys.length g) keys l1)).Rank
            (bhash k2 salt l1 % (((bbBvSize keys.length g + 63) / 64) * 64)) := by
        omega
      rw [hrank_eq, hrank_eq] at habs'
      rcases Nat.lt_trichotomy
          (bhash k1 salt l1 % (((bbBvSize keys.length g + 63) / 64) * 64))
          (bhash k2 salt l1 % (((bbBvSize keys.length g + 63) / 64) * 64)) with hp | hp | hp
      · have hs1 := hIsSet l1 hl1 k1 hkl1 hnr1
        have ha := bvCount_succ (bbLevelVec salt l1 (bbBvSize keys.length g)
            (bbKeysAt salt (bbBvSize keys.length g) keys l1))
          (bhash k1 salt l1 % (((bbBvSize keys.length g + 63) / 64) * 64))
        rw [hs1, if_pos rfl] at ha
        have hb := bvCount_mono (bbLevelVec salt l1 (bbBvSize keys.length g)
            (bbKeysAt salt (bbBvSize keys.length g) keys l1))
          (bhash k1 salt l1 % (((bbBvSize keys.length g + 63) / 64) * 64) + 1)
          (bhash k2 salt l1 % (((bbBvSize keys.length g + 63) / 64) * 64)) (by omega)
        omega
      · exact hpne hp
      · have hs2 := hIsSet l1 hl1 k2 hkl2 hnr2
        have ha := bvCount_succ (bbLevelVec salt l1 (bbBvSize keys.length g)
            (bbKeysAt salt (bbBvSize keys.length g) keys l1))
          (bhash k2 salt l1 % (((bbBvSize keys.length g + 63) / 64) * 64))
        rw [hs2, if_pos rfl] at ha
        have hb := bvCount_mono (bbLevelVec salt l1 (bbBvSize keys.length g)
            (bbKeysAt salt (bbBvSize keys.length g) keys l1))
          (bhash k2 salt l1 % (((bbBvSize keys.length g + 63) / 64) * 64) + 1)
          (bhash k1 salt l1 % (((bbBvSize keys.length g + 63) / 64) * 64)) (by omega)
        omega
    · -- symmetric cross-level case
      have h1 := hidx_ub l2 hl2 k2 hkl2 hnr2
      rw [hranksl l2 hl2] at h1
      have h2 := hRmono (l2 + 1) l1 (by omega)
      have h3 := hidx_lb l1 hl1 k1
      rw [hranksl l1 hl1] at h3 ⊢
      rw [hranksl l2 hl2]
      omega
  refine ⟨hfound, hinj, ?_⟩
  -- surjectivity by cardinality
  intro t ht
  have hcard : keys.toFinset.card = keys.length := List.toFinset_card_of_nodup hnd
  have himg : (keys.toFinset.image (fun k => (bb.Find k).1)) ⊆ Finset.range keys.length := by
    intro x hx
    rcases Finset.mem_image.mp hx with ⟨k, hk, hfk⟩
    rw [Finset.mem_range, ← hfk]
    exact (hfound k (List.mem_toFinset.mp hk)).2
  have hcardimg : (keys.toFinset.image (fun k => (bb.Find k).1)).card = keys.length := by
    rw [Finset.card_image_of_injOn, hcard]
    intro x hx y hy hxy
    by_contra hne2
    exact hinj x (List.mem_toFinset.mp hx) y (List.mem_toFinset.mp hy) hne2 hxy
  have heq : keys.toFinset.image (fun k => (bb.Find k).1) = Finset.range keys.length := by
    refine Finset.eq_of_subset_of_card_le himg ?_
    rw [hcardimg, Finset.card_range]
  have htmem : t ∈ keys.toFinset.image (fun k => (bb.Find k).1) := by
    rw [heq, Finset.mem_range]
    exact ht
  rcases Finset.mem_image.mp htmem with ⟨k, hk, hfk⟩
  exact ⟨k, List.mem_toFinset.mp hk, hfk⟩

/-- C1 (amended): for every non-empty set of distinct keys, a successful
    serial BBHash construction makes `k ↦ Find(k).1` restricted to the keys
    a bijection onto `[0, N)` (found, bounded by `N`, injective and
    surjective); a successful CHD construction makes it an injection into
    `[0, m)` with every lookup reported found, where `m = nextpow2(⌊N/load⌋)`
    is the table size — in general strictly larger than `N`, so the CHD map
    is *not* onto `[0, N)` (see the counterexample). -/
theorem C1_find_bijection (mphSalt : Nat) (load g : ℚ) (keys : List Nat)
    (hnd : keys.Nodup) (hne : keys ≠ []) :
    (∀ bb, bbFreeze mphSalt g keys = some bb →
      (∀ k ∈ keys, (bb.Find k).2 = true ∧ (bb.Find k).1 < keys.length) ∧
        (∀ k1 ∈ keys, ∀ k2 ∈ keys, k1 ≠ k2 → (bb.Find k1).1 ≠ (bb.Find k2).1) ∧
        (∀ t, t < keys.length → ∃ k ∈ keys, (bb.Find k).1 = t)) ∧
      (∀ c, chdFreeze mphSalt load keys = some c →
        0 < chdTableSize load keys.length → chdTableSize load keys.length ≤ U64 →
        c.Len = chdTableSize load keys.length ∧
          (∀ k, (c.Find k).2 = true ∧ (c.Find k).1 < chdTableSize load keys.length) ∧
          (∀ k1 ∈ keys, ∀ k2 ∈ keys, k1 ≠ k2 → (c.Find k1).1 ≠ (c.Find k2).1)) := by
  constructor
  · intro bb hbb
    exact bbFreeze_find_bijection mphSalt g keys bb hbb hnd hne
  · intro c hc hm0 hm1
    exact chdFreeze_spec mphSalt load keys c hc hm0 hm1

/-- Counterexample to C1 as stated: three distinct keys whose CHD
    construction (salt 0, load 1.0) succeeds with table size 4 and maps
    them to `{1, 2, 3}` — the third key's index is `3 ≥ N = 3`, so the CHD
    `Find` image is not `[0, N)`. -/
theorem C1_counterexample :
    (chdFreeze 0 1 [0xe91360642d6f4547, 0x5c6f5d775eef1260, 0x47610f361672b321]).isSome
        = true ∧
      (chdFreeze 0 1 [0xe91360642d6f4547, 0x5c6f5d775eef1260, 0x47610f361672b321]).map
          (fun c => (c.Find 0x47610f361672b321).1) = some 3 ∧
      ¬ 3 < ([0xe91360642d6f4547, 0x5c6f5d775eef1260, 0x47610f361672b321] : List Nat).length := by
  exact ⟨rfl, rfl, by decide⟩

/-- Witness for C1: salt 16, the distinct keys `{1..6}`, BBHash γ = 2 and
    CHD load 1 (both constructions succeed on this input). -/
theorem C1_witness :
    ([1, 2, 3, 4, 5, 6] : List Nat).Nodup ∧ [1, 2, 3, 4, 5, 6] ≠ ([] : List Nat) ∧
      (bbFreeze 16 2 [1, 2, 3, 4, 5, 6]).isSome = true ∧
      (chdFreeze 16 1 [1, 2, 3, 4, 5, 6]).isSome = true ∧
      ((∀ bb, bbFreeze 16 2 [1, 2, 3, 4, 5, 6] = some bb →
        (∀ k ∈ [1, 2, 3, 4, 5, 6], (bb.Find k).2 = true ∧
            (bb.Find k).1 < ([1, 2, 3, 4, 5, 6] : List Nat).length) ∧
          (∀ k1 ∈ [1, 2, 3, 4, 5, 6], ∀ k2 ∈ [1, 2, 3, 4, 5, 6], k1 ≠ k2 →
            (bb.Find k1).1 ≠ (bb.Find k2).1) ∧
          (∀ t, t < ([1, 2, 3, 4, 5, 6] : List Nat).length →
            ∃ k ∈ [1, 2, 3, 4, 5, 6], (bb.Find k).1 = t)) ∧
        (∀ c, chdFreeze 16 1 [1, 2, 3, 4, 5, 6] = some c →
          0 < chdTableSize 1 ([1, 2, 3, 4, 5, 6] : List Nat).length →
          chdTableSize 1 ([1, 2, 3, 4, 5, 6] : List Nat).length ≤ U64 →
          c.Len = chdTableSize 1 ([1, 2, 3, 4, 5, 6] : List Nat).length ∧
            (∀ k, (c.Find k).2 = true ∧
              (c.Find k).1 < chdTableSize 1 ([1, 2, 3, 4, 5, 6] : List Nat).length) ∧
            (∀ k1 ∈ [1, 2, 3, 4, 5, 6], ∀ k2 ∈ [1, 2, 3, 4, 5, 6], k1 ≠ k2 →
              (c.Find k1).1 ≠ (c.Find k2).1))) :=
  ⟨by decide, by decide, by decide, by decide,
    C1_find_bijection 16 1 2 [1, 2, 3, 4, 5, 6] (by decide) (by decide)⟩

/-! ## Inverting `rhash`: analytic preimages for large instances

`mix` is a bijection on 64-bit words (two xor-shifts and an odd-constant
multiply), and the unmasked `rhash` chain interleaves xors with
multiplications by the odd constant `m`; both are inverted exactly, which
yields for any target position a key hashing to it, driving the
large-key-count instances below without evaluating the construction. -/

/-- The inverse of `mix`: undo the 47-shift xor, the multiply (by the
    modular inverse of `0x2127599bf4325c37`), and the 23-shift xor. -/
def mixInv (y : Nat) : Nat :=
  let y1 := y ^^^ (y >>> 47)
  let y2 := (y1 * 0xa1bcefb14d101987) % U64
  y2 ^^^ (y2 >>> 23) ^^^ (y2 >>> 46)

/-- The inverse of the full (unmasked) `rhash` chain in its key argument:
    `0x28fc23783fb0706d` is the modular inverse of `0x880355f21e6d1965`. -/
def rhashInv (seed salt t : Nat) : Nat :=
  let mi : Nat := 0x28fc23783fb0706d
  let h := mixInv t
  let h := ((h * mi) % U64) ^^^ mix seed
  let h := ((h * mi) % U64) ^^^ mix salt
  (h * mi) % U64

theorem testBit_high_false (x : Nat) (hx : x < U64) (j : Nat) (hj : 64 ≤ j) :
    x.testBit j = false := by
  refine Nat.testBit_lt_two_pow (lt_of_lt_of_le hx ?_)
  exact Nat.pow_le_pow_right (by norm_num) hj

/-- `x ^= x >> 47` is an involution on 64-bit words. -/
theorem xorShift47_involutive (x : Nat) (hx : x < U64) :
    (x ^^^ (x >>> 47)) ^^^ ((x ^^^ (x >>> 47)) >>> 47) = x := by
  refine Nat.eq_of_testBit_eq (fun i => ?_)
  simp only [Nat.testBit_xor, Nat.testBit_shiftRight]
  rw [testBit_high_false x hx (47 + (47 + i)) (by omega)]
  cases x.testBit i <;> cases x.testBit (47 + i) <;> rfl

/-- The two-fold unshift undoes `x ^= x >> 23` on 64-bit words. -/
theorem xorShift23_left_inverse (y : Nat) (hy : y < U64) :
    ((y ^^^ (y >>> 23) ^^^ (y >>> 46)) ^^^ ((y ^^^ (y >>> 23) ^^^ (y >>> 46)) >>> 23)) = y := by
  refine Nat.eq_of_testBit_eq (fun i => ?_)
  simp only [Nat.testBit_xor, Nat.testBit_shiftRight]
  rw [show 23 + (23 + i) = 46 + i from by omega]
  rw [testBit_high_false y hy (46 + (23 + i)) (by omega)]
  cases y.testBit i <;> cases y.testBit (23 + i) <;> cases y.testBit (46 + i) <;> rfl

theorem mulM_inv (x : Nat) (hx : x < U64) :
    ((x * 0x28fc23783fb0706d) % U64 * 0x880355f21e6d1965) % U64 = x := by
  rw [Nat.mod_mul_mod, Nat.mul_assoc, Nat.mul_mod, Nat.mod_eq_of_lt hx,
    show (0x28fc23783fb0706d * 0x880355f21e6d1965) % U64 = 1 from rfl,
    Nat.mul_one, Nat.mod_eq_of_lt hx]

theorem mulMX_inv (x : Nat) (hx : x < U64) :
    ((x * 0xa1bcefb14d101987) % U64 * 0x2127599bf4325c37) % U64 = x := by
  rw [Nat.mod_mul_mod, Nat.mul_assoc, Nat.mul_mod, Nat.mod_eq_of_lt hx,
    show (0xa1bcefb14d101987 * 0x2127599bf4325c37) % U64 = 1 from rfl,
    Nat.mul_one, Nat.mod_eq_of_lt hx]

theorem xor_lt_U64 (x y : Nat) (hx : x < U64) (hy : y < U64) : x ^^^ y < U64 :=
  Nat.xor_lt_two_pow hx hy

theorem shiftRight_lt_U64 (x : Nat) (hx : x < U64) (s : Nat) : x >>> s < U64 := by
  rw [Nat.shiftRight_eq_div_pow]
  exact lt_of_le_of_lt (Nat.div_le_self x _) hx

/-- `mix` undoes `mixInv` on 64-bit words. -/
theorem mix_mixInv (t : Nat) (ht : t < U64) : mix (mixInv t) = t := by
  unfold mix mixInv
  dsimp only []
  set y1 := t ^^^ (t >>> 47) with hy1def
  have hy1 : y1 < U64 := xor_lt_U64 _ _ ht (shiftRight_lt_U64 t ht 47)
  set y2 := (y1 * 0xa1bcefb14d101987) % U64 with hy2def
  have hy2 : y2 < U64 := Nat.mod_lt _ (by unfold U64; positivity)
  rw [xorShift23_left_inverse y2 hy2]
  rw [hy2def, mulMX_inv y1 hy1, hy1def]
  exact xorShift47_involutive t ht

theorem mix_lt_U64 (x : Nat) : mix x < U64 := by
  unfold mix
  dsimp only []
  have h2 : (x ^^^ x >>> 23) * 0x2127599bf4325c37 % U64 < U64 :=
    Nat.mod_lt _ (by unfold U64; positivity)
  exact xor_lt_U64 _ _ h2 (shiftRight_lt_U64 _ h2 47)

theorem mixInv_lt_U64 (y : Nat) : mixInv y < U64 := by
  unfold mixInv
  dsimp only []
  have h2 : (y ^^^ y >>> 47) * 0xa1bcefb14d101987 % U64 < U64 :=
    Nat.mod_lt _ (by unfold U64; positivity)
  exact xor_lt_U64 _ _ (xor_lt_U64 _ _ h2 (shiftRight_lt_U64 _ h2 23))
    (shiftRight_lt_U64 _ h2 46)

theorem xor_cancel_r (x s : Nat) : (x ^^^ s) ^^^ s = x := by
  rw [Nat.xor_assoc, Nat.xor_self, Nat.xor_zero]

/-- The unmasked `rhash` chain evaluated at the inverted key returns the
    target. -/
theorem rhashFull_rhashInv (seed salt t : Nat) (ht : t < U64) :
    rhashFull seed (rhashInv seed salt t) salt = t := by
  unfold rhashFull rhashInv
  dsimp only []
  set h1 := mixInv t with hh1
  have hlt1 : h1 < U64 := mixInv_lt_U64 t
  set h2 := ((h1 * 0x28fc23783fb0706d) % U64) ^^^ mix seed with hh2
  have hlt2 : h2 < U64 :=
    xor_lt_U64 _ _ (Nat.mod_lt _ (by unfold U64; positivity)) (mix_lt_U64 seed)
  set h3 := ((h2 * 0x28fc23783fb0706d) % U64) ^^^ mix salt with hh3
  have hlt3 : h3 < U64 :=
    xor_lt_U64 _ _ (Nat.mod_lt _ (by unfold U64; positivity)) (mix_lt_U64 salt)
  rw [mulM_inv h3 hlt3]
  rw [hh3, xor_cancel_r, mulM_inv h2 hlt2]
  rw [hh2, xor_cancel_r, mulM_inv h1 hlt1]
  rw [hh1]
  exact mix_mixInv t ht

/-- The masked `rhash` with a 65536-slot table finds the inverted key at
    exactly the target position. -/
theorem rhash_rhashInv_65536 (seed salt t : Nat) (ht : t < 65536) :
    rhash seed (rhashInv seed salt t) 65536 salt = t := by
  unfold rhash
  rw [rhashFull_rhashInv seed salt t (lt_trans ht (by unfold U64; norm_num))]
  rw [show (65536 + (U64 - 1)) % U64 = 65535 from rfl]
  rw [show (65535 : Nat) = 2 ^ 16 - 1 from rfl, Nat.and_pow_two_sub_one_eq_mod]
  exact Nat.mod_eq_of_lt ht

/-- The inverted keys of distinct targets are distinct. -/
theorem rhashInv_injective (seed salt t1 t2 : Nat) (h1 : t1 < U64) (h2 : t2 < U64)
    (heq : rhashInv seed salt t1 = rhashInv seed salt t2) : t1 = t2 := by
  have := rhashFull_rhashInv seed salt t1 h1
  rw [heq, rhashFull_rhashInv seed salt t2 h2] at this
  exact this.symm

/-! ## CHD greedy success when all seed-1 positions are distinct -/

theorem trySeed_success (occ : bitVector) (m salt s : Nat) (h0 : 0 < m) (h1 : m ≤ U64) :
    ∀ (ks : List Nat) (bOcc : bitVector), m ≤ bOcc.Size →
      (∀ k ∈ ks, occ.IsSet (rhash s k m salt) = false) →
      (∀ k ∈ ks, bOcc.IsSet (rhash s k m salt) = false) →
      List.Pairwise (fun k1 k2 => rhash s k1 m salt ≠ rhash s k2 m salt) ks →
      ∃ bOcc', trySeed occ m salt s ks bOcc = some bOcc' := by
  intro ks
  induction ks with
  | nil => intro bOcc _ _ _ _; exact ⟨bOcc, rfl⟩
  | cons k rest ih =>
    intro bOcc hsz hocc hb hpair
    have hk : occ.IsSet (rhash s k m salt) = false := hocc k (List.mem_cons_self k rest)
    have hkb : bOcc.IsSet (rhash s k m salt) = false := hb k (List.mem_cons_self k rest)
    have hlt : rhash s k m salt < bOcc.Size :=
      lt_of_lt_of_le (rhash_lt s k m salt h0 h1) hsz
    have hrec :
        ∃ bOcc', trySeed occ m salt s rest (bOcc.Set (rhash s k m salt)) = some bOcc' := by
      apply ih
      · unfold bitVector.Size at hsz ⊢
        rw [set_length]; exact hsz
      · intro k' hk'; exact hocc k' (List.mem_cons_of_mem k hk')
      · intro k' hk'
        rw [isSet_set bOcc _ _ hlt, hb k' (List.mem_cons_of_mem k hk')]
        have hne : rhash s k m salt ≠ rhash s k' m salt :=
          (List.pairwise_cons.mp hpair).1 k' hk'
        simp [hne]
      · exact (List.pairwise_cons.mp hpair).2
    obtain ⟨bOcc', hrec⟩ := hrec
    refine ⟨bOcc', ?_⟩
    unfold trySeed
    dsimp only []
    rw [hk, hkb]
    simpa using hrec

theorem findSeedFrom_step (occ : bitVector) (m salt : Nat) (bkeys : List Nat)
    (s fuel : Nat) (bOcc' : bitVector)
    (h : trySeed occ m salt s bkeys (newBitVector m) = some bOcc') :
    findSeedFrom occ m salt bkeys s (fuel + 1) = some (s, bOcc') := by
  unfold findSeedFrom
  rw [h]

theorem chdAssign_success (m salt : Nat) (h0 : 0 < m) (h1 : m ≤ U64) :
    ∀ (bl : List bucket) (occ : bitVector) (seeds : List Nat) (mx : Nat),
      occ.v.length = (m + 63) / 64 →
      (∀ b ∈ bl, ∀ k ∈ b.keys, occ.IsSet (rhash 1 k m salt) = false) →
      (∀ b ∈ bl, List.Pairwise (fun k1 k2 => rhash 1 k1 m salt ≠ rhash 1 k2 m salt) b.keys) →
      List.Pairwise (fun b1 b2 => ∀ k1 ∈ b1.keys, ∀ k2 ∈ b2.keys,
        rhash 1 k1 m salt ≠ rhash 1 k2 m salt) bl →
      ∃ r, chdAssign m salt bl occ seeds mx = some r := by
  intro bl
  induction bl with
  | nil => intro occ seeds mx _ _ _ _; exact ⟨(seeds, mx), rfl⟩
  | cons b rest ih =>
    intro occ seeds mx hocclen hocc hpair hcross
    have hnbsz : m ≤ (newBitVector m).Size := by
      unfold bitVector.Size
      rw [newBitVector_length]
      omega
    have htry :
        ∃ bOcc', trySeed occ m salt 1 b.keys (newBitVector m) = some bOcc' := by
      apply trySeed_success occ m salt 1 h0 h1 b.keys (newBitVector m) hnbsz
      · intro k hk; exact hocc b (List.mem_cons_self b rest) k hk
      · intro k _; exact isSet_new m _
      · exact hpair b (List.mem_cons_self b rest)
    obtain ⟨bOcc', htry⟩ := htry
    obtain ⟨hblen, hbchar, -, -⟩ :=
      trySeed_spec occ m salt 1 h0 h1 b.keys (newBitVector m) bOcc' hnbsz htry
    have hblen' : bOcc'.v.length = (m + 63) / 64 := by
      rw [hblen, newBitVector_length]
    have hmerge_len : (occ.Merge bOcc').v.length = (m + 63) / 64 := by
      rw [merge_length]; exact hocclen
    have hrec :
        ∃ r, chdAssign m salt rest (occ.Merge bOcc')
              (seeds.set b.slot 1) (max mx 1) = some r := by
      apply ih
      · exact hmerge_len
      · intro b2 hb2 k2 hk2
        rw [isSet_merge occ bOcc' (by rw [hocclen, hblen'])]
        rw [hocc b2 (List.mem_cons_of_mem b hb2) k2 hk2]
        rw [hbchar]
        rw [isSet_new]
        simp only [Bool.false_or, List.any_eq_false]
        intro k1 hk1
        have hne : rhash 1 k1 m salt ≠ rhash 1 k2 m salt :=
          (List.pairwise_cons.mp hcross).1 b2 hb2 k1 hk1 k2 hk2
        simpa using hne
      · intro b2 hb2; exact hpair b2 (List.mem_cons_of_mem b hb2)
      · exact (List.pairwise_cons.mp hcross).2
    obtain ⟨r, hrec⟩ := hrec
    refine ⟨r, ?_⟩
    have hfuel : _MaxSeed - 1 = (_MaxSeed - 2) + 1 := by decide
    unfold chdAssign
    rw [hfuel, findSeedFrom_step occ m salt b.keys 1 (_MaxSeed - 2) bOcc' htry]
    exact hrec

theorem chdFreeze_success (salt : Nat) (load : ℚ) (keys : List Nat)
    (h0 : 0 < chdTableSize load keys.length)
    (h1 : chdTableSize load keys.length ≤ U64)
    (hnd : keys.Nodup)
    (hglob : ∀ k1 ∈ keys, ∀ k2 ∈ keys, k1 ≠ k2 →
      rhash 1 k1 (chdTableSize load keys.length) salt ≠
      rhash 1 k2 (chdTableSize load keys.length) salt) :
    ∃ c, chdFreeze salt load keys = some c := by
  have hperm := sortBuckets_perm (chdBuckets salt (chdTableSize load keys.length) keys)
  have hmem :
      ∀ b ∈ sortBuckets (chdBuckets salt (chdTableSize load keys.length) keys),
        ∀ k ∈ b.keys, k ∈ keys := by
    intro b hb k hk
    have hb' := hperm.mem_iff.mp hb
    obtain ⟨i, -, hbi⟩ := List.mem_map.mp hb'
    rw [← hbi] at hk
    exact List.mem_of_mem_filter hk
  have hpair :
      ∀ b ∈ sortBuckets (chdBuckets salt (chdTableSize load keys.length) keys),
        List.Pairwise (fun k1 k2 =>
          rhash 1 k1 (chdTableSize load keys.length) salt ≠
          rhash 1 k2 (chdTableSize load keys.length) salt) b.keys := by
    intro b hb
    have hb' := hperm.mem_iff.mp hb
    obtain ⟨i, -, hbi⟩ := List.mem_map.mp hb'
    have hbkeys : b.keys =
        keys.filter (fun k => rhash 0 k (chdTableSize load keys.length) salt == i) := by
      rw [← hbi]
    rw [hbkeys]
    have hndf := List.Nodup.filter
      (fun k => rhash 0 k (chdTableSize load keys.length) salt == i) hnd
    refine List.Pairwise.imp_of_mem ?_ hndf
    intro a c ha hc hne
    exact hglob a (List.mem_of_mem_filter ha) c (List.mem_of_mem_filter hc) hne
  have hcross :
      List.Pairwise (fun b1 b2 => ∀ k1 ∈ b1.keys, ∀ k2 ∈ b2.keys,
        rhash 1 k1 (chdTableSize load keys.length) salt ≠
        rhash 1 k2 (chdTableSize load keys.length) salt)
        (sortBuckets (chdBuckets salt (chdTableSize load keys.length) keys)) := by
    refine (List.Perm.pairwise_iff ?_ hperm).mpr ?_
    · intro b1 b2 h k1 hk1 k2 hk2
      exact (h k2 hk2 k1 hk1).symm
    unfold chdBuckets
    rw [List.pairwise_map]
    refine (List.pairwise_lt_range _).imp_of_mem ?_
    intro i1 i2 hm1 hm2 hlt
    intro k1 hk1 k2 hk2
    have h1' := (List.mem_filter.mp hk1).2
    have h2' := (List.mem_filter.mp hk2).2
    have hne : k1 ≠ k2 := by
      intro he
      rw [he] at h1'
      have e1 : rhash 0 k2 (chdTableSize load keys.length) salt = i1 := by
        simpa using h1'
      have e2 : rhash 0 k2 (chdTableSize load keys.length) salt = i2 := by
        simpa using h2'
      omega
    exact hglob k1 (List.mem_of_mem_filter hk1) k2 (List.mem_of_mem_filter hk2) hne
  have hass :
      ∃ r, chdAssign (chdTableSize load keys.length) salt
            (sortBuckets (chdBuckets salt (chdTableSize load keys.length) keys))
            (newBitVector (chdTableSize load keys.length))
            (List.replicate (chdTableSize load keys.length) 0) 0 = some r := by
    apply chdAssign_success _ salt h0 h1 _ _ _ _ (newBitVector_length _)
    · intro b _ k _; exact isSet_new _ _
    · exact hpair
    · exact hcross
  obtain ⟨r, hass⟩ := hass
  refine ⟨⟨makeSeeds r.1 r.2, salt⟩, ?_⟩
  have hfr : chdFreeze salt load keys =
      (chdAssign (chdTableSize load keys.length) salt
        (sortBuckets (chdBuckets salt (chdTableSize load keys.length) keys))
        (newBitVector (chdTableSize load keys.length))
        (List.replicate (chdTableSize load keys.length) 0) 0).map
        (fun p => (⟨makeSeeds p.1 p.2, salt⟩ : chd)) := rfl
  rw [hfr, hass]
  rfl

end GoMph
